import Mathlib

/-! LoadTimeData and i18nTemplate.

A shallow embedding of `src/scripts/body/fileoverview.js`: the string store
`LoadTimeData` (typed accessors, `$1`..`$9` substitution, `overrideValues`) and
the template processor `i18nTemplate` (`process`, `processWithoutCycles`,
`processElement` and the three attribute handlers); and of the function
`decodeUTF16Base64ToString` of `src/scripts/head/main.js`.

JavaScript strings are sequences of UTF-16 code units, values are the JSON-like
values the store holds, and every `console.error` is recorded as a `Defect`.
-/

namespace Offline

/-! ## JavaScript strings and values -/

/-- A JavaScript string: its UTF-16 code units. -/
abbrev JSString := List Nat

/-- The code units of a string literal. -/
def utf16 (s : String) : JSString :=
  s.toList.flatMap fun c =>
    if c.toNat < 65536 then [c.toNat]
    else [55296 + (c.toNat - 65536) / 1024, 56320 + (c.toNat - 65536) % 1024]

/-- A JavaScript number. Every finite double is a rational, so the finite
numbers are embedded in `ℚ`; `Math.floor` and `==` are exact on them. -/
inductive JSNumber where
  | finite (q : ℚ)
  | nan
  | posInf
  | negInf
  deriving DecidableEq

/-- The values a store holds: the JSON-like values plus `undefined`. An object
is the list of its own data properties in insertion order; a property read
finds the first entry with the key. Inherited properties are not modelled. -/
inductive JSValue where
  | undefined
  | null
  | boolean (b : Bool)
  | number (n : JSNumber)
  | string (s : JSString)
  | array (elems : List JSValue)
  | object (props : List (JSString × JSValue))

/-- A plain object: its own data properties. -/
abbrev JSObject := List (JSString × JSValue)

mutual
/-- Structural equality test on values. -/
def JSValue.beq : JSValue → JSValue → Bool
  | .undefined, .undefined => true
  | .null, .null => true
  | .boolean a, .boolean b => a == b
  | .number a, .number b => a == b
  | .string a, .string b => a == b
  | .array a, .array b => beqList a b
  | .object a, .object b => beqProps a b
  | _, _ => false
/-- Structural equality test on lists of values. -/
def beqList : List JSValue → List JSValue → Bool
  | [], [] => true
  | x :: xs, y :: ys => x.beq y && beqList xs ys
  | _, _ => false
/-- Structural equality test on property lists. -/
def beqProps : JSObject → JSObject → Bool
  | [], [] => true
  | (k, x) :: xs, (l, y) :: ys => k == l && x.beq y && beqProps xs ys
  | _, _ => false
end

mutual
theorem JSValue.beq_iff : ∀ a b : JSValue, a.beq b = true ↔ a = b
  | .undefined, b => by cases b <;> simp [JSValue.beq]
  | .null, b => by cases b <;> simp [JSValue.beq]
  | .boolean x, b => by cases b <;> simp [JSValue.beq]
  | .number x, b => by cases b <;> simp [JSValue.beq]
  | .string x, b => by cases b <;> simp [JSValue.beq]
  | .array x, b => by
      cases b <;> simp [JSValue.beq]
      exact beqList_iff x _
  | .object x, b => by
      cases b <;> simp [JSValue.beq]
      exact beqProps_iff x _
theorem beqList_iff : ∀ a b : List JSValue, beqList a b = true ↔ a = b
  | [], [] => by simp [beqList]
  | [], _ :: _ => by simp [beqList]
  | _ :: _, [] => by simp [beqList]
  | x :: xs, y :: ys => by
      simp [beqList, JSValue.beq_iff x y, beqList_iff xs ys]
theorem beqProps_iff : ∀ a b : JSObject, beqProps a b = true ↔ a = b
  | [], [] => by simp [beqProps]
  | [], _ :: _ => by simp [beqProps]
  | _ :: _, [] => by simp [beqProps]
  | (k, x) :: xs, (l, y) :: ys => by
      simp [beqProps, JSValue.beq_iff x y, beqProps_iff xs ys, and_assoc]
end

instance : DecidableEq JSValue := fun a b =>
  decidable_of_iff _ (JSValue.beq_iff a b)

/-- The results of `typeof` on the modelled values. -/
inductive JSType where
  | undefined
  | object
  | boolean
  | number
  | string
  deriving DecidableEq

/-- The `typeof` operator: `null`, arrays and objects are all `'object'`. -/
def typeof : JSValue → JSType
  | .undefined => .undefined
  | .null => .object
  | .boolean _ => .boolean
  | .number _ => .number
  | .string _ => .string
  | .array _ => .object
  | .object _ => .object

/-- Truthiness (`ToBoolean`): what `if (v)` and `!v` test. -/
def ToBoolean : JSValue → Bool
  | .undefined => false
  | .null => false
  | .boolean b => b
  | .number (.finite q) => decide (q ≠ 0)
  | .number .nan => false
  | .number _ => true
  | .string s => !s.isEmpty
  | .array _ => true
  | .object _ => true

/-! ## The document tree -/

/-- The kinds of node the processor meets. -/
inductive NodeKind where
  | document
  | fragment
  | element
  | text
  deriving DecidableEq

/-- A node of the document heap. `children` are the ids of the child nodes in
document order, `imported` is the `import` property of a `link` element (the
imported document, when it is loaded), `content` the `content` property of a
`template` element, and `props` holds the properties that a property path
reads and assigns (`.style.fontSize` reads `style` here). -/
structure Node where
  kind : NodeKind
  tag : JSString := []
  attrs : List (JSString × JSString) := []
  children : List Nat := []
  text : JSString := []
  imported : Option Nat := none
  content : Option Nat := none
  props : JSObject := []
  deriving DecidableEq

/-- A parsed HTML fragment: its nodes, numbered from 0 inside the fragment,
and the ids of its top-level nodes in order. -/
structure Forest where
  nodes : List Node
  roots : List Nat
  deriving DecidableEq

/-- The host functions the source relies on and this development does not
spell out: printing a number, reading a number out of a string, and the HTML
fragment parser behind an `innerHTML` assignment. They are parameters of
every definition that uses them. -/
structure Builtins where
  numberToString : JSNumber → JSString
  stringToNumber : JSString → JSNumber
  parseHTML : JSString → Forest

mutual
/-- String conversion (`ToString`), as `'' + v` performs it: an array
prints its elements separated by commas, with `null` and `undefined` elements
printed as nothing; a plain object prints as `[object Object]`. -/
def ToString (B : Builtins) : JSValue → JSString
  | .undefined => utf16 "undefined"
  | .null => utf16 "null"
  | .boolean b => if b then utf16 "true" else utf16 "false"
  | .number n => B.numberToString n
  | .string s => s
  | .array xs => joinElems B xs
  | .object _ => utf16 "[object Object]"
/-- The comma-separated elements of an array (`Array.prototype.join`). -/
def joinElems (B : Builtins) : List JSValue → JSString
  | [] => []
  | [x] => elemToString B x
  | x :: y :: rest => elemToString B x ++ 44 :: joinElems B (y :: rest)
/-- One element as `join` prints it. -/
def elemToString (B : Builtins) : JSValue → JSString
  | .undefined => []
  | .null => []
  | .boolean b => if b then utf16 "true" else utf16 "false"
  | .number n => B.numberToString n
  | .string s => s
  | .array xs => joinElems B xs
  | .object _ => utf16 "[object Object]"
end

/-- Numeric conversion (`ToNumber`). An array or object is first turned into
its string (`ToPrimitive` finds `toString`). -/
def ToNumber (B : Builtins) : JSValue → JSNumber
  | .undefined => .nan
  | .null => .finite 0
  | .boolean b => if b then .finite 1 else .finite 0
  | .number n => n
  | .string s => B.stringToNumber s
  | .array xs => B.stringToNumber (joinElems B xs)
  | .object _ => B.stringToNumber (utf16 "[object Object]")

/-- The function `Math.floor` on numbers. -/
def JSNumber.floor : JSNumber → JSNumber
  | .finite q => .finite (⌊q⌋ : ℤ)
  | n => n

/-- Equality of two numbers as `==` sees it: `NaN` equals nothing. -/
def JSNumber.equal : JSNumber → JSNumber → Bool
  | .finite a, .finite b => decide (a = b)
  | .posInf, .posInf => true
  | .negInf, .negInf => true
  | _, _ => false

/-- The comparison `v == n` of a value with a number: `undefined` and `null`
equal no number, every other value is converted to a number first. -/
def looseEqualsNumber (B : Builtins) (v : JSValue) (n : JSNumber) : Bool :=
  match v with
  | .undefined => false
  | .null => false
  | _ => (ToNumber B v).equal n

/-- The decimal digits of an array index, as a property key. -/
def indexKey (i : Nat) : JSString := (Nat.toDigits 10 i).map Char.toNat

/-- The array index a property key denotes: a key is an index when it is the
decimal notation of a number, without leading zeros. -/
def parseIndex (key : JSString) : Option Nat :=
  let n := key.foldl (fun acc c => 10 * acc + (c - 48)) 0
  if key ≠ [] ∧ key.all (fun c => 48 ≤ c && c ≤ 57) ∧ indexKey n = key then some n else none

/-- Own property lookup in a plain object. -/
def lookupOwn (o : JSObject) (key : JSString) : Option JSValue :=
  (o.find? fun p => p.1 == key).map Prod.snd

/-- The assignment `o[key] = v` on a plain object: an existing property keeps
its place, a new one is added at the end. -/
def assignOwn (key : JSString) (v : JSValue) : JSObject → JSObject
  | [] => [(key, v)]
  | (k, x) :: rest => if k = key then (k, v) :: rest else (k, x) :: assignOwn key v rest

/-- JavaScript exceptions. -/
inductive JSError where
  | typeError
  | error (message : JSString)
  deriving DecidableEq

/-- How an evaluation completes: with a value, or by throwing. -/
inductive Completion (α : Type) where
  | normal (value : α)
  | throw (e : JSError)
  deriving DecidableEq

/-- The property read `v[key]`. Reading a property of `undefined` or `null`
throws a `TypeError`; a missing property reads as `undefined`. -/
def getProperty (v : JSValue) (key : JSString) : Completion JSValue :=
  match v with
  | .undefined => .throw .typeError
  | .null => .throw .typeError
  | .object o => .normal ((lookupOwn o key).getD .undefined)
  | .array xs =>
      if key = utf16 "length" then .normal (.number (.finite xs.length))
      else match parseIndex key with
        | some i => .normal (xs.getD i .undefined)
        | none => .normal .undefined
  | .string s =>
      if key = utf16 "length" then .normal (.number (.finite s.length))
      else match parseIndex key with
        | some i => .normal (if i < s.length then .string [s.getD i 0] else .undefined)
        | none => .normal .undefined
  | _ => .normal .undefined

/-- The keys a `for (var key in v)` loop visits: the indices of a string or an
array, the own properties of an object, nothing for the other values. -/
def forInKeys : JSValue → List JSString
  | .string s => (List.range s.length).map indexKey
  | .array xs => (List.range xs.length).map indexKey
  | .object o => o.map Prod.fst
  | _ => []

/-! ## LoadTimeData -/

/-- What `console.error` is given. Each constructor is one message of the
source, with the values the message is built from. -/
inductive Defect where
  /-- The message `'Re-setting data.'`. -/
  | resettingData
  /-- The message `'No data. Did you remember to include strings.js?'`. -/
  | noData
  /-- The message `'Could not find value for ' + id`. -/
  | couldNotFind (id : JSString)
  /-- The message `'[' + value + '] (' + id + ') is not a ' + type`. -/
  | notType (value : JSValue) (id : JSString) (type : JSType)
  /-- The message `'Number isn\'t integer: ' + value`. -/
  | notInteger (value : JSValue)
  /-- The message `'Replacements must be a dictionary object.'`. -/
  | notDictionary
  /-- The message `'Unescaped $ found in localized string.'`. -/
  | unescapedDollar
  deriving DecidableEq

/-- The function `expect(condition, message)`: the messages it sends to
`console.error`. It never throws. -/
def expect (condition : Bool) (message : Defect) : List Defect :=
  if !condition then [message] else []

/-- The function `expectIsType(id, value, type)`. -/
def expectIsType (id : JSString) (value : JSValue) (type : JSType) : List Defect :=
  expect (typeof value == type) (.notType value id type)

/-- Modelled from the spec: the function `assert`, which `substituteString`
and `getSubstitutedStringPieces` call and this repository does not define. The
spec makes an unescaped `$` "a reported formatting defect", "defensive,
non-fatal": a failed assertion is reported and execution goes on. -/
def assert (condition : Bool) (message : Defect) : List Defect :=
  if !condition then [message] else []

/-- The store object: `data_` is `none` until the `data` setter has run. The
setter is given an `Object`; the store holds a plain object. -/
structure LoadTimeData where
  data_ : Option JSObject := none
  deriving DecidableEq

/-- The value of the expression `this.data_`. -/
def LoadTimeData.dataValue (self : LoadTimeData) : JSValue :=
  match self.data_ with
  | none => .undefined
  | some o => .object o

/-- What a reading method of the store does: how it completes and what it
reports. -/
structure Reading (α : Type) where
  completion : Completion α
  console : List Defect
  deriving DecidableEq

/-- What a writing method of the store does: the store afterwards, how the
method completes and what it reports. -/
structure Writing where
  store : LoadTimeData
  completion : Completion Unit
  console : List Defect
  deriving DecidableEq

/-- The setter `set data(value)`. -/
def LoadTimeData.set_data (self : LoadTimeData) (value : JSObject) : Writing :=
  let console := expect (!ToBoolean self.dataValue) .resettingData
  { store := { self with data_ := some value }, completion := .normal (), console := console }

/-- The method `valueExists(id)`, for a set store: `id in this.data_`. -/
def LoadTimeData.valueExists (self : LoadTimeData) (id : JSString) : Completion Bool :=
  match self.data_ with
  | none => .throw .typeError
  | some o => .normal (lookupOwn o id).isSome

/-- The method `getValue(id)`. -/
def LoadTimeData.getValue (self : LoadTimeData) (id : JSString) : Reading JSValue :=
  let c1 := expect (ToBoolean self.dataValue) .noData
  match getProperty self.dataValue id with
  | .throw e => { completion := .throw e, console := c1 }
  | .normal value =>
      let c2 := expect (typeof value != .undefined) (.couldNotFind id)
      { completion := .normal value, console := c1 ++ c2 }

/-- The method `getString(id)`. -/
def LoadTimeData.getString (self : LoadTimeData) (id : JSString) : Reading JSValue :=
  match self.getValue id with
  | { completion := .throw e, console := c } => { completion := .throw e, console := c }
  | { completion := .normal value, console := c } =>
      { completion := .normal value, console := c ++ expectIsType id value .string }

/-- The method `getBoolean(id)`. -/
def LoadTimeData.getBoolean (self : LoadTimeData) (id : JSString) : Reading JSValue :=
  match self.getValue id with
  | { completion := .throw e, console := c } => { completion := .throw e, console := c }
  | { completion := .normal value, console := c } =>
      { completion := .normal value, console := c ++ expectIsType id value .boolean }

/-- The method `getInteger(id)`. The second check is
`value == Math.floor(value)`. -/
def LoadTimeData.getInteger (B : Builtins) (self : LoadTimeData) (id : JSString) :
    Reading JSValue :=
  match self.getValue id with
  | { completion := .throw e, console := c } => { completion := .throw e, console := c }
  | { completion := .normal value, console := c } =>
      { completion := .normal value,
        console := c ++ expectIsType id value .number ++
          expect (looseEqualsNumber B value (ToNumber B value).floor) (.notInteger value) }

/-- The loop of `overrideValues`: `this.data_[key] = replacements[key]` for
each key in turn. Assigning a property of an unset `data_` throws. -/
def overrideLoop (replacements : JSValue) : List JSString → LoadTimeData → LoadTimeData × Completion Unit
  | [], self => (self, .normal ())
  | key :: keys, self =>
      match self.data_, getProperty replacements key with
      | none, _ => (self, .throw .typeError)
      | some _, .throw e => (self, .throw e)
      | some o, .normal v => overrideLoop replacements keys { self with data_ := some (assignOwn key v o) }

/-- The method `overrideValues(replacements)`. -/
def LoadTimeData.overrideValues (self : LoadTimeData) (replacements : JSValue) : Writing :=
  let console := expect (typeof replacements == .object) .notDictionary
  let r := overrideLoop replacements (forInKeys replacements) self
  { store := r.1, completion := r.2, console := console }

/-! ### Substitution of `$1`..`$9` -/

/-- The line terminators: the code units that `.` does not match. -/
def isLineTerminator (c : Nat) : Bool :=
  c == 10 || c == 13 || c == 8232 || c == 8233

/-- Membership in the class `[1-9]`. -/
def isDigit19 (c : Nat) : Bool := 49 ≤ c && c ≤ 57

/-- The read `varArgs[key]` of the `arguments` object with a key of at most
one code unit (`none` is the key `undefined`, which `m[1]` gives when `m` is a
lone `$`): `arguments` has the properties `0` to `length - 1`, so only a digit
below the number of arguments finds a value. -/
def argumentsGet (varArgs : List JSValue) (key : Option Nat) : JSValue :=
  match key with
  | none => .undefined
  | some c => if 48 ≤ c ∧ c ≤ 57 then varArgs.getD (c - 48) .undefined else .undefined

/-- The test `m.match(/\$[$1-9]/)` on a match `m` of `/\$(.|$|\n)/`, which is
a `$` followed by at most one code unit. -/
def matchesDollarOrDigit (m : JSString) : Bool :=
  match m with
  | [36, c] => c == 36 || isDigit19 c
  | _ => false

/-- The callback that `substituteString` gives to `replace`: the replacement
text for the match `m` (the returned value converted to a string) and what the
assertion reports. -/
def substituteMatch (B : Builtins) (varArgs : List JSValue) (m : JSString) :
    JSString × List Defect :=
  (if m = [36, 36] then [36] else ToString B (argumentsGet varArgs (m.get? 1)),
   assert (matchesDollarOrDigit m) .unescapedDollar)

/-- The call `label.replace(/\$(.|$|\n)/g, f)`: the string is scanned from the
left; a `$` followed by a code unit that `.` or `\n` matches, or standing at the
end of the string, is a match and is replaced by what `f` returns; anything
else is copied. The replacement text is not scanned again. -/
def replaceDollarMatches (f : JSString → JSString × List Defect) :
    JSString → JSString × List Defect
  | [] => ([], [])
  | [c] => if c = 36 then f [36] else ([c], [])
  | c :: d :: rest =>
      if c = 36 ∧ (!isLineTerminator d || d == 10) then
        ((f [36, d]).1 ++ (replaceDollarMatches f rest).1,
         (f [36, d]).2 ++ (replaceDollarMatches f rest).2)
      else
        (c :: (replaceDollarMatches f (d :: rest)).1, (replaceDollarMatches f (d :: rest)).2)

/-- The method `substituteString(label, var_args)`: the formatted string and
what is reported. `arguments` is `label` followed by `var_args`. -/
def substituteString (B : Builtins) (label : JSString) (var_args : List JSValue) :
    JSString × List Defect :=
  replaceDollarMatches (substituteMatch B (.string label :: var_args)) label

/-- One piece of `getSubstitutedStringPieces`: `arg` is `null` (`none`) for a
literal run and the placeholder for a substituted argument. -/
structure Piece where
  value : JSValue
  arg : Option JSString
  deriving DecidableEq

/-- A finished run of literal text is a match when it is not empty. -/
def flushRun (cur : JSString) : List JSString :=
  if cur = [] then [] else [cur]

/-- The call `label.match(/(\$[1-9])|(([^$]|\$([^1-9]|$))+)/g) || []`: the
successive matches. At a `$` followed by a digit 1-9 the first alternative
matches these two units, which ends the literal run `cur` before it. Anywhere
else the second alternative extends the run: by one unit that is not `$`, by a
`$` and the unit after it, or by a `$` that ends the string. -/
def matchPieces (cur : JSString) : JSString → List JSString
  | [] => flushRun cur
  | c :: rest =>
      if c = 36 then
        match rest with
        | [] => flushRun (cur ++ [36])
        | d :: rest' =>
            if isDigit19 d then flushRun cur ++ [36, d] :: matchPieces [] rest'
            else matchPieces (cur ++ [36, d]) rest'
      else matchPieces (cur ++ [c]) rest

/-- The test `p.match(/^\$[1-9]$/)`. -/
def isPlaceholder (p : JSString) : Bool :=
  match p with
  | [36, d] => isDigit19 d
  | _ => false

/-- The count `(p.match(/\$/g) || []).length`. -/
def countDollars (p : JSString) : Nat := p.count 36

/-- The call `p.replace(/\$\$/g, '$')`. -/
def unescapeDollars : JSString → JSString
  | [] => []
  | [c] => [c]
  | c :: d :: rest =>
      if c = 36 ∧ d = 36 then 36 :: unescapeDollars rest
      else c :: unescapeDollars (d :: rest)

/-- The function mapped over the matches in `getSubstitutedStringPieces`. -/
def pieceOf (varArgs : List JSValue) (p : JSString) : Piece × List Defect :=
  if !isPlaceholder p then
    ({ value := .string (unescapeDollars p), arg := none },
     assert (countDollars p % 2 == 0) .unescapedDollar)
  else
    ({ value := argumentsGet varArgs (p.get? 1), arg := some p }, [])

/-- The method `getSubstitutedStringPieces(label, var_args)`: the pieces and
what is reported. -/
def getSubstitutedStringPieces (label : JSString) (var_args : List JSValue) :
    List Piece × List Defect :=
  let ps := (matchPieces [] label).map (pieceOf (.string label :: var_args))
  (ps.map Prod.fst, ps.flatMap Prod.snd)

/-! ### Templates as the claims describe them -/

/-- The parts of a template: a code unit other than `$`, the escape `$$`, a
placeholder `$d`, and a `$` followed by some other code unit `c`. -/
inductive Token where
  | char (c : Nat)
  | escape
  | placeholder (d : Nat)
  | stray (c : Nat)
  deriving DecidableEq

/-- The text of a part in the template. -/
def Token.text : Token → JSString
  | .char c => [c]
  | .escape => [36, 36]
  | .placeholder d => [36, 48 + d]
  | .stray c => [36, c]

/-- The template made of the given parts. -/
def templateText (ts : List Token) : JSString := ts.flatMap Token.text

/-- A part of a well-formed template, given `n` arguments: a code unit that is
not `$`, an escape, or a placeholder `$d` with `d` in 1..9 and `d ≤ n`. -/
def Token.WellFormed (n : Nat) : Token → Prop
  | .char c => c ≠ 36
  | .escape => True
  | .placeholder d => 1 ≤ d ∧ d ≤ 9 ∧ d ≤ n
  | .stray _ => False

/-- A part of a template that may hold stray `$c`: besides the well-formed
parts, a `$` followed by a code unit other than `$` and `1`..`9`. -/
def Token.Tolerated (n : Nat) : Token → Prop
  | .char c => c ≠ 36
  | .escape => True
  | .placeholder d => 1 ≤ d ∧ d ≤ 9 ∧ d ≤ n
  | .stray c => c ≠ 36 ∧ isDigit19 c = false

/-- A part of a literal run: a code unit other than `$`, or an escape. -/
def Token.Literal : Token → Prop
  | .char c => c ≠ 36
  | .escape => True
  | _ => False

/-- What a part becomes, in the words of the spec: `$d` becomes the `d`-th
argument after the template, `$$` a single `$`, any other code unit stays, and
a stray `$c` is carried verbatim. -/
def Token.expansion (B : Builtins) (args : List JSValue) : Token → JSString
  | .char c => [c]
  | .escape => [36]
  | .placeholder d => ToString B (args.getD (d - 1) .undefined)
  | .stray c => [36, c]

/-- The template scanned left to right with every part expanded. -/
def specSubstitute (B : Builtins) (args : List JSValue) (ts : List Token) : JSString :=
  ts.flatMap (Token.expansion B args)

/-- What `substituteString` makes of a part, `varArgs` being the template
followed by the arguments: a stray `$c` is replaced by the string form of
`varArgs[c]` (the text `undefined`, or the template when `c` is `0`), unless
`c` is one of the line terminators CR, U+2028, U+2029, where `$c` is no match
and stays. -/
def Token.replaced (B : Builtins) (varArgs : List JSValue) : Token → JSString
  | .char c => [c]
  | .escape => [36]
  | .placeholder d => ToString B (varArgs.getD d .undefined)
  | .stray c =>
      if !isLineTerminator c || c == 10 then ToString B (argumentsGet varArgs (some c))
      else [36, c]

/-- What `substituteString` reports for a part. -/
def Token.reported : Token → List Defect
  | .stray c => if !isLineTerminator c || c == 10 then [.unescapedDollar] else []
  | _ => []

/-- The concatenation, in order, of the `value` fields of the pieces. -/
def joinPieceValues (B : Builtins) (ps : List Piece) : JSString :=
  ps.flatMap fun p => ToString B p.value

/-- The value is a number with a non-zero fractional part. -/
def hasFractionalPart : JSValue → Prop
  | .number (.finite q) => ((⌊q⌋ : ℤ) : ℚ) ≠ q
  | _ => False

/-- A fixed choice of the host functions for the worked examples: every number
prints as `0`, no string reads as a number, and markup parses to nothing. -/
def plainHost : Builtins :=
  { numberToString := fun _ => utf16 "0"
    stringToNumber := fun _ => .nan
    parseHTML := fun _ => { nodes := [], roots := [] } }

/-! ## i18nTemplate: the document operations it uses -/

/-- The node with the given id, if there is one. -/
def nodeAt (nodes : List Node) (id : Nat) : Option Node := nodes.get? id

/-- The heap with the node `id` changed by `f`. -/
def updateNode (f : Node → Node) : List Node → Nat → List Node
  | [], _ => []
  | n :: ns, 0 => f n :: ns
  | n :: ns, id + 1 => n :: updateNode f ns id

/-- The ids of the child nodes of `id`. -/
def childNodes (nodes : List Node) (id : Nat) : List Nat :=
  match nodeAt nodes id with
  | some n => n.children
  | none => []

/-- The test `node instanceof Element`. -/
def isElement (nodes : List Node) (id : Nat) : Bool :=
  match nodeAt nodes id with
  | some n => n.kind == .element
  | none => false

/-- The property `children`: the child nodes that are elements. -/
def elementChildren (nodes : List Node) (id : Nat) : List Nat :=
  (childNodes nodes id).filter (isElement nodes)

/-- The nodes below the given ones, in document order, down to the given
depth. -/
def descendantsTo (nodes : List Node) : Nat → List Nat → List Nat
  | 0, _ => []
  | depth + 1, ids => ids.flatMap fun id => id :: descendantsTo nodes depth (childNodes nodes id)

/-- The descendants of `root` in document order, `root` excluded. A tree of
the heap is no deeper than the heap is long. -/
def descendants (nodes : List Node) (root : Nat) : List Nat :=
  descendantsTo nodes nodes.length (childNodes nodes root)

/-- The method `getAttribute(name)`: `none` is `null`. -/
def getAttribute (nodes : List Node) (id : Nat) (name : JSString) : Option JSString :=
  match nodeAt nodes id with
  | some n => (n.attrs.find? fun a => a.1 == name).map Prod.snd
  | none => none

/-- An attribute list with `name` set to `value`: an attribute that exists
keeps its place, a new one is added at the end. -/
def setAttr (name value : JSString) : List (JSString × JSString) → List (JSString × JSString)
  | [] => [(name, value)]
  | (k, x) :: rest => if k = name then (k, value) :: rest else (k, x) :: setAttr name value rest

/-- The method `setAttribute(name, value)`, for a name that is a valid
attribute name in lower case. -/
def setAttribute (id : Nat) (name value : JSString) (nodes : List Node) : List Node :=
  updateNode (fun n => { n with attrs := setAttr name value n.attrs }) nodes id

/-- The method `appendChild(child)` with a node that has no parent. -/
def appendChild (id child : Nat) (nodes : List Node) : List Node :=
  updateNode (fun n => { n with children := n.children ++ [child] }) nodes id

/-- The conversion of a value given to a `DOMString?` attribute such as
`textContent`: `null` and `undefined` are the empty string. -/
def toNullableDOMString (B : Builtins) : JSValue → JSString
  | .undefined => []
  | .null => []
  | v => ToString B v

/-- The assignment `element.textContent = value`: all children are removed,
and a text node holding the string is put in their place unless the string is
empty. -/
def setTextContent (B : Builtins) (id : Nat) (value : JSValue) (nodes : List Node) : List Node :=
  let s := toNullableDOMString B value
  if s = [] then updateNode (fun n => { n with children := [] }) nodes id
  else updateNode (fun n => { n with children := [nodes.length] })
    (nodes ++ [{ kind := .text, text := s }]) id

/-- The constructor `new Option(text, value)`, with `none` for an argument
that is `undefined` or not given: the new element, and the text node it gets
when the text is not empty. The result is the heap and the id of the option. -/
def newOption (text value : Option JSString) (nodes : List Node) : List Node × Nat :=
  let attrs := match value with
    | some v => [(utf16 "value", v)]
    | none => []
  match text with
  | some (c :: cs) =>
      (nodes ++ [{ kind := .element, tag := utf16 "option", attrs := attrs,
                   children := [nodes.length + 1] },
                 { kind := .text, text := c :: cs }], nodes.length)
  | _ => (nodes ++ [{ kind := .element, tag := utf16 "option", attrs := attrs }], nodes.length)

/-- A constructor argument of type `DOMString`: `undefined` stands for an
argument that is not given. -/
def optionalDOMString (B : Builtins) : JSValue → Option JSString
  | .undefined => none
  | v => some (ToString B v)

/-- A node of a parsed fragment moved to the heap position `base`. -/
def Node.shift (base : Nat) (n : Node) : Node :=
  { n with children := n.children.map (· + base),
           imported := n.imported.map (· + base),
           content := n.content.map (· + base) }

/-- The assignment `element.innerHTML = value` on an element: the string
(`null` is the empty string) is parsed, the new nodes are put on the heap and
the top-level ones become the children of the element. -/
def setInnerHTML (B : Builtins) (id : Nat) (value : JSValue) (nodes : List Node) : List Node :=
  let s := match value with
    | .null => []
    | v => ToString B v
  let forest := B.parseHTML s
  updateNode (fun n => { n with children := forest.roots.map (· + nodes.length) })
    (nodes ++ forest.nodes.map (Node.shift nodes.length)) id

/-- The assignment `target[key] = value` on a value that a property path has
reached: a plain object gets the property, an array gets the element when the
key is an index, and on a primitive value the assignment does nothing. -/
def assignProperty (key : JSString) (value : JSValue) : JSValue → JSValue
  | .object o => .object (assignOwn key value o)
  | .array xs =>
      match parseIndex key with
      | some i => .array ((xs ++ List.replicate (i + 1 - xs.length) JSValue.undefined).set i value)
      | none => .array xs
  | v => v

/-- The same assignment, at the end of the path `inner` inside `v`. -/
def assignAt (key : JSString) (value : JSValue) : List JSString → JSValue → JSValue
  | [], v => assignProperty key value v
  | seg :: more, .object o =>
      match lookupOwn o seg with
      | some child => .object (assignOwn seg (assignAt key value more child) o)
      | none => .object o
  | seg :: more, .array xs =>
      match parseIndex seg with
      | some i =>
          if i < xs.length then .array (xs.set i (assignAt key value more (xs.getD i .undefined)))
          else .array xs
      | none => .array xs
  | _ :: _, v => v

/-- The value that the walk `targetObject = targetObject[path.shift()]` reaches
from `v` along `inner`, stopping at the first value that is not truthy: the
value reached, if the whole of `inner` was walked. -/
def walkPath : List JSString → JSValue → Option JSValue
  | [], v => some v
  | seg :: more, v =>
      if ToBoolean v then
        match getProperty v seg with
        | .normal w => walkPath more w
        | .throw _ => none
      else none

/-! ### Strings of the `i18n-values` attribute -/

/-- Membership in the class `\s`: white space and line terminators. -/
def isWhiteSpace (c : Nat) : Bool :=
  c == 9 || c == 10 || c == 11 || c == 12 || c == 13 || c == 32 || c == 160 || c == 5760 ||
  (8192 ≤ c && c ≤ 8202) || c == 8232 || c == 8233 || c == 8239 || c == 8287 || c == 12288 ||
  c == 65279

/-- The call `s.split(sep)` with a separator of one code unit. -/
def splitOn (sep : Nat) : JSString → List JSString
  | [] => [[]]
  | c :: rest =>
      if c = sep then [] :: splitOn sep rest
      else match splitOn sep rest with
        | [] => [[c]]
        | part :: parts => (c :: part) :: parts

/-- The call `part.match(/^([^:]+):(.+)$/)`: the text before the first colon,
which must not be empty, and the text after it, which must not be empty and
must hold no line terminator. -/
def matchPair (part : JSString) : Option (JSString × JSString) :=
  let name := part.takeWhile (· ≠ 58)
  let rest := part.dropWhile (· ≠ 58)
  match rest with
  | [] => none
  | _ :: expr =>
      if name ≠ [] ∧ expr ≠ [] ∧ expr.all (fun c => !isLineTerminator c) then some (name, expr)
      else none

/-- The last segment of a path, and the segments before it. -/
def splitLast : List JSString → List JSString × JSString
  | [] => ([], [])
  | [x] => ([], x)
  | x :: y :: rest => (x :: (splitLast (y :: rest)).1, (splitLast (y :: rest)).2)

/-! ## i18nTemplate: the processor -/

/-- What happened during a run, for stating what ran and how often: the body of
`processWithoutCycles` started on a root (the cycle guard was passed), or a
handler was called on an element. -/
inductive Event where
  | root (id : Nat)
  | handler (name : JSString) (element : Nat)
  deriving DecidableEq

/-- The state a run works on: the document heap, the `visited` set in
insertion order, the console, and the record of what ran. -/
structure State where
  nodes : List Node
  visited : List Nat := []
  console : List Defect := []
  trace : List Event := []
  deriving DecidableEq

/-- How a run ends: it returns, it throws, or its fuel runs out. -/
inductive Result where
  | done (s : State)
  | thrown (e : JSError) (s : State)
  | diverged
  deriving DecidableEq

/-- Sequencing: the continuation runs when the first part returns. -/
def Result.andThen (r : Result) (k : State → Result) : Result :=
  match r with
  | .done s => k s
  | .thrown e s => .thrown e s
  | .diverged => .diverged

/-- A loop over a list fixed beforehand (a `forEach`, or a `for` over a static
node list): an exception ends it. -/
def forEach {α : Type} (f : α → State → Result) : List α → State → Result
  | [], s => .done s
  | x :: xs, s => (f x s).andThen (forEach f xs)

/-- The state with more console output. -/
def State.log (s : State) (c : List Defect) : State :=
  { s with console := s.console ++ c }

/-- The names of the handlers, `Object.keys(handlers)`. -/
def attributeNames : List JSString :=
  [utf16 "i18n-content", utf16 "i18n-options", utf16 "i18n-values"]

/-- The test `webkitMatchesSelector(selector)` on an element, and the filter of
`querySelectorAll(selector)`: the element has one of the three attributes.
(The `/deep/` part of the selector selects nothing more in a tree without
shadow roots.) -/
def matchesSelector (nodes : List Node) (id : Nat) : Bool :=
  isElement nodes id && attributeNames.any fun name => (getAttribute nodes id name).isSome

/-- The filter of `querySelectorAll('link[rel=import]')`. -/
def isImportLink (nodes : List Node) (id : Nat) : Bool :=
  match nodeAt nodes id with
  | some n => n.kind == .element && n.tag == utf16 "link" &&
      getAttribute nodes id (utf16 "rel") == some (utf16 "import")
  | none => false

/-- The filter of `querySelectorAll('template')`. -/
def isTemplate (nodes : List Node) (id : Nat) : Bool :=
  match nodeAt nodes id with
  | some n => n.kind == .element && n.tag == utf16 "template"
  | none => false

/-- The handler `handlers['i18n-content']`. -/
def handlers_i18n_content (B : Builtins) (element : Nat) (key : JSString)
    (data : LoadTimeData) (s : State) : Result :=
  match data.getString key with
  | { completion := .throw e, console := c } => .thrown e (s.log c)
  | { completion := .normal value, console := c } =>
      .done { s.log c with nodes := setTextContent B element value (s.log c).nodes }

/-- The arguments of `new Option(...)` for one entry of the list: a string
gives `new Option(optionData)`, anything else
`new Option(optionData[1], optionData[0])`. -/
def optionArguments (B : Builtins) (optionData : JSValue) :
    Completion (Option JSString × Option JSString) :=
  match optionData with
  | .string text => .normal (some text, none)
  | v =>
      match getProperty v (utf16 "1"), getProperty v (utf16 "0") with
      | .normal text, .normal value => .normal (optionalDOMString B text, optionalDOMString B value)
      | .throw e, _ => .throw e
      | _, .throw e => .throw e

/-- The callback of `options.forEach` in `handlers['i18n-options']`. -/
def appendOption (B : Builtins) (select : Nat) (optionData : JSValue) (s : State) : Result :=
  match optionArguments B optionData with
  | .throw e => .thrown e s
  | .normal (text, value) =>
      .done { s with nodes := appendChild select (newOption text value s.nodes).2
                                (newOption text value s.nodes).1 }

/-- The handler `handlers['i18n-options']`. Only an array has `forEach`: on any
other value the call throws a `TypeError`. -/
def handlers_i18n_options (B : Builtins) (select : Nat) (key : JSString)
    (data : LoadTimeData) (s : State) : Result :=
  match data.getValue key with
  | { completion := .throw e, console := c } => .thrown e (s.log c)
  | { completion := .normal options, console := c } =>
      match options with
      | .array entries => forEach (appendOption B select) entries (s.log c)
      | _ => .thrown .typeError (s.log c)

/-- The assignment `targetObject[path] = value` of the values handler, where
`inner` leads from the element to `targetObject` and `last` is the segment
left in `path`. On the element itself `innerHTML` and `textContent` replace
the children; every other property is kept in `props`. -/
def assignTarget (B : Builtins) (element : Nat) (inner : List JSString) (last : JSString)
    (value : JSValue) (nodes : List Node) : List Node :=
  if inner = [] ∧ last = utf16 "innerHTML" then setInnerHTML B element value nodes
  else if inner = [] ∧ last = utf16 "textContent" then setTextContent B element value nodes
  else updateNode (fun n =>
    match assignAt last value inner (.object n.props) with
    | .object props => { n with props := props }
    | _ => n) nodes element

/-- The loop `for (i = 0; i < element.children.length; ++i)` after an
`innerHTML` assignment, which calls `processWithoutCycles(element.children[i],
data, visited, false)`. The collection is live: it is read again at every
turn, and `budget` bounds the number of turns. -/
def reprocessChildren (recurse : Nat → Bool → State → Result) (element : Nat) :
    Nat → Nat → State → Result
  | 0, _, _ => .diverged
  | budget + 1, i, s =>
      match (elementChildren s.nodes element).get? i with
      | none => .done s
      | some child =>
          (recurse child false s).andThen (reprocessChildren recurse element budget (i + 1))

/-- The branch of the values handler for a property path, `inner` being the
segments walked by `targetObject = targetObject[path.shift()]` and `last` the
segment left in `path`: the walk, the assignment when the walk ends on a
truthy value, and the reprocessing of the children when `path == 'innerHTML'`.
A path that meets a missing or falsy property is given up silently. -/
def assignPath (B : Builtins) (budget : Nat) (recurse : Nat → Bool → State → Result)
    (element : Nat) (inner : List JSString) (last : JSString) (value : JSValue)
    (s : State) : Result :=
  match nodeAt s.nodes element with
  | none => .done s
  | some n =>
      match walkPath inner (.object n.props) with
      | none => .done s
      | some targetObject =>
          if ToBoolean targetObject then
            if last = utf16 "innerHTML" then
              reprocessChildren recurse element budget 0
                { s with nodes := assignTarget B element inner last value s.nodes }
            else .done { s with nodes := assignTarget B element inner last value s.nodes }
          else .done s

/-- The callback of `parts.forEach` in `handlers['i18n-values']`, for one
part. -/
def applyValuesPart (B : Builtins) (budget : Nat) (recurse : Nat → Bool → State → Result)
    (element : Nat) (attributeAndKeys : JSString) (data : LoadTimeData) (part : JSString)
    (s : State) : Result :=
  if part = [] then .done s
  else
    match matchPair part with
    | none => .thrown (.error (utf16 "malformed i18n-values: " ++ attributeAndKeys)) s
    | some (propName, propExpr) =>
        match data.getValue propExpr with
        | { completion := .throw e, console := c } => .thrown e (s.log c)
        | { completion := .normal value, console := c } =>
            if propName.head? = some 46 then
              assignPath B budget recurse element (splitLast (splitOn 46 (propName.drop 1))).1
                (splitLast (splitOn 46 (propName.drop 1))).2 value (s.log c)
            else
              .done { s.log c with
                nodes := setAttribute element propName (ToString B value) (s.log c).nodes }

/-- The handler `handlers['i18n-values']`. -/
def handlers_i18n_values (B : Builtins) (budget : Nat) (recurse : Nat → Bool → State → Result)
    (element : Nat) (attributeAndKeys : JSString) (data : LoadTimeData) (s : State) : Result :=
  forEach (applyValuesPart B budget recurse element attributeAndKeys data)
    (splitOn 59 (attributeAndKeys.filter fun c => !isWhiteSpace c)) s

/-- The call `handlers[name](element, attribute, data, visited)`. -/
def callHandler (B : Builtins) (budget : Nat) (recurse : Nat → Bool → State → Result)
    (name : JSString) (element : Nat) (attr : JSString) (data : LoadTimeData)
    (s : State) : Result :=
  if name = utf16 "i18n-content" then handlers_i18n_content B element attr data s
  else if name = utf16 "i18n-options" then handlers_i18n_options B element attr data s
  else handlers_i18n_values B budget recurse element attr data s

/-- The function `processElement(element, data, visited)`. -/
def processElement (B : Builtins) (budget : Nat) (recurse : Nat → Bool → State → Result)
    (data : LoadTimeData) (element : Nat) (s : State) : Result :=
  forEach (fun name s =>
    match getAttribute s.nodes element name with
    | none => .done s
    | some attr =>
        callHandler B budget recurse name element attr data
          { s with trace := s.trace ++ [.handler name element] }) attributeNames s

/-- The nodes that get the attribute `i18n-processed`: the root when it is an
element, its element children otherwise. -/
def processedNodes (nodes : List Node) (root : Nat) : List Nat :=
  if isElement nodes root then [root] else elementChildren nodes root

/-- The loop `processed[i].setAttribute('i18n-processed', '')`. -/
def markProcessed (processed : List Nat) (nodes : List Node) : List Node :=
  processed.foldl (fun nodes id => setAttribute id (utf16 "i18n-processed") [] nodes) nodes

/-- The body of `processWithoutCycles` after the cycle guard and
`visited.add(root)`: the imports, the templates, the root itself, the marked
elements below it, and the completion marker. `recurse` is
`processWithoutCycles` with the `data` and `visited` of the call. -/
def processRoot (B : Builtins) (data : LoadTimeData) (budget : Nat)
    (recurse : Nat → Bool → State → Result) (root : Nat) (mark : Bool) (s : State) : Result :=
  (forEach (fun importLink s =>
      match (nodeAt s.nodes importLink).bind (·.imported) with
      | none => .done s
      | some imported => recurse imported mark s)
    ((descendants s.nodes root).filter (isImportLink s.nodes)) s).andThen
  fun s =>
  (forEach (fun template s =>
      match (nodeAt s.nodes template).bind (·.content) with
      | none => .done s
      | some content => recurse content mark s)
    ((descendants s.nodes root).filter (isTemplate s.nodes)) s).andThen
  fun s =>
  (if isElement s.nodes root && matchesSelector s.nodes root then
      processElement B budget recurse data root s
    else .done s).andThen
  fun s =>
  (forEach (processElement B budget recurse data)
    ((descendants s.nodes root).filter (matchesSelector s.nodes)) s).andThen
  fun s =>
  if mark then .done { s with nodes := markProcessed (processedNodes s.nodes root) s.nodes }
  else .done s

/-- The function `processWithoutCycles(root, data, visited, mark)`. The first
argument is the fuel: the depth of calls the run may reach. -/
def processWithoutCycles (B : Builtins) (data : LoadTimeData) :
    Nat → Nat → Bool → State → Result
  | 0, _, _, _ => .diverged
  | fuel + 1, root, mark, s =>
      if root ∈ s.visited then .done s
      else
        processRoot B data fuel (processWithoutCycles B data fuel) root mark
          { s with visited := s.visited ++ [root], trace := s.trace ++ [.root root] }

/-- The function `process(root, data)`: a new `visited` set, and `mark` is
`true`. The record of what ran starts empty. -/
def process (B : Builtins) (data : LoadTimeData) (fuel : Nat) (root : Nat) (s : State) :
    Result :=
  processWithoutCycles B data fuel root true { s with visited := [], trace := [] }

/-! ### What the claims about the processor speak of -/

/-- The roots that a run can reach through an import or a template: the
values of the `import` and `content` properties on the heap. -/
def potentialRoots (nodes : List Node) : List Nat :=
  nodes.filterMap (·.imported) ++ nodes.filterMap (·.content)

/-- The target of a values pair neither names the property `innerHTML` nor
rewrites the attribute `i18n-values`. -/
def safeTarget (propName : JSString) : Bool :=
  propName != utf16 "i18n-values" &&
  !(propName.head? == some 46 &&
    (splitLast (splitOn 46 (propName.drop 1))).2 == utf16 "innerHTML")

/-- No pair of the `i18n-values` attribute string injects markup. -/
def safeValues (attr : JSString) : Bool :=
  (splitOn 59 (attr.filter fun c => !isWhiteSpace c)).all fun part =>
    match matchPair part with
    | none => true
    | some (propName, _) => safeTarget propName

/-- The node has no `i18n-values` attribute that injects markup. -/
def injectionFree (n : Node) : Bool :=
  match (n.attrs.find? fun a => a.1 == utf16 "i18n-values").map Prod.snd with
  | none => true
  | some attr => safeValues attr

/-- No element of the heap injects markup: the roots of a run are then linked
by import references and template inclusion only. -/
def noInjection (nodes : List Node) : Bool :=
  nodes.all injectionFree

/-- The number of roots, among `root` and those reachable through an import
or a template, that are not yet in `visited`. -/
def unvisitedRoots (s : State) (root : Nat) : Nat :=
  ((insert root (potentialRoots s.nodes).toFinset) \ s.visited.toFinset).card

/-- The roots on which the body of `processWithoutCycles` started, in order. -/
def rootsOf (trace : List Event) : List Nat :=
  trace.filterMap fun e =>
    match e with
    | .root id => some id
    | .handler _ _ => none

/-- The number of times a handler was called on an element. -/
def handlerCalls (trace : List Event) (element : Nat) : Nat :=
  trace.countP fun e =>
    match e with
    | .root _ => false
    | .handler _ el => el == element

/-- No root was processed twice, and every processed root is in `visited`. -/
def NoRootTwice (s : State) : Prop :=
  (rootsOf s.trace).Nodup ∧ ∀ r ∈ rootsOf s.trace, r ∈ s.visited

/-- A property of the state a run ends in, whether it returns or throws;
`diverges` is what holds of a run whose fuel runs out. -/
def Result.Sat (I : State → Prop) (diverges : Prop) : Result → Prop
  | .done s => I s
  | .thrown _ s => I s
  | .diverged => diverges

/-- The invariant of a run on a heap without injection: `visited` has grown
from `V`, the reachable roots are those of `P0`, and no injection has been
added. -/
def Terminating (V P0 : List Nat) (s : State) : Prop :=
  V ⊆ s.visited ∧ potentialRoots s.nodes = P0 ∧ noInjection s.nodes = true

/-- The state a run returns, when it returns. -/
def Result.returned? : Result → Option State
  | .done s => some s
  | _ => none

/-- What an invariant `I` of a run has to be closed under. `Safe` holds of the
targets of the values pairs on the heap, `Inject` says whether an `innerHTML`
assignment can occur, and `D` whether the run may run out of fuel. -/
structure Preserved (B : Builtins) (I : State → Prop) (Safe : JSString → Prop)
    (Inject D : Prop) : Prop where
  log : ∀ s c, I s → I (s.log c)
  traced : ∀ (s : State) name el, I s → I { s with trace := s.trace ++ [.handler name el] }
  text : ∀ (s : State) el v, I s → I { s with nodes := setTextContent B el v s.nodes }
  option : ∀ (s : State) sel t v, I s →
    I { s with nodes := appendChild sel (newOption t v s.nodes).2 (newOption t v s.nodes).1 }
  attr : ∀ (s : State) el name v, I s → Safe name →
    I { s with nodes := setAttribute el name v s.nodes }
  assign : ∀ (s : State) el inner last v, I s → (last = utf16 "innerHTML" → Inject) →
    I { s with nodes := assignTarget B el inner last v s.nodes }
  mark : ∀ (s : State) ids, I s → I { s with nodes := markProcessed ids s.nodes }
  safe : ∀ (s : State) el attr, I s →
    getAttribute s.nodes el (utf16 "i18n-values") = some attr →
    ∀ part ∈ splitOn 59 (attr.filter fun c => !isWhiteSpace c), ∀ name expr,
      matchPair part = some (name, expr) →
      Safe name ∧ (name.head? = some 46 →
        (splitLast (splitOn 46 (name.drop 1))).2 = utf16 "innerHTML" → Inject)
  diverge : Inject → D

/-- Two documents that import each other: document 0 holds a link to
document 2, which holds a link back to document 0 and a `select` with an
`i18n-options` attribute. -/
def mutualImports : List Node :=
  [ { kind := .document, children := [1] },
    { kind := .element, tag := utf16 "link", attrs := [(utf16 "rel", utf16 "import")],
      imported := some 2 },
    { kind := .document, children := [3, 4] },
    { kind := .element, tag := utf16 "link", attrs := [(utf16 "rel", utf16 "import")],
      imported := some 0 },
    { kind := .element, tag := utf16 "select",
      attrs := [(utf16 "i18n-options", utf16 "opts")] } ]

/-- A store whose key `opts` holds the list `["A", ["v2", "B"]]`. -/
def optionStore : LoadTimeData :=
  { data_ := some [(utf16 "opts",
      .array [.string (utf16 "A"), .array [.string (utf16 "v2"), .string (utf16 "B")]])] }

/-- Markup that injects itself: a `span` that assigns its own `innerHTML` from
the key `k`. -/
def injectingMarkup : JSString := utf16 "<span i18n-values=\".innerHTML:k\"></span>"

/-- The attributes of the element that `injectingMarkup` describes. -/
def injectingAttrs : List (JSString × JSString) :=
  [(utf16 "i18n-values", utf16 ".innerHTML:k")]

/-- A host whose parser reads `injectingMarkup` as its one `span`, and
anything else as nothing. -/
def reinjectingHost : Builtins :=
  { numberToString := fun _ => utf16 "0"
    stringToNumber := fun _ => .nan
    parseHTML := fun s =>
      if s = injectingMarkup then
        { nodes := [{ kind := .element, tag := utf16 "span", attrs := injectingAttrs }],
          roots := [0] }
      else { nodes := [], roots := [] } }

/-- A store whose key `k` holds `injectingMarkup`. -/
def reinjectingStore : LoadTimeData :=
  { data_ := some [(utf16 "k", .string injectingMarkup)] }

/-- A document with one `div` that assigns its `innerHTML` from the key `k`. -/
def reinjectingPage : List Node :=
  [ { kind := .document, children := [1] },
    { kind := .element, tag := utf16 "div", attrs := injectingAttrs } ]

/-- A page for the malformed pair: a document with two `span`s, the first with
the values attribute `title:t;badsyntax;lang:l`, the second with a content
marker. -/
def malformedPage : List Node :=
  [ { kind := .document, children := [1, 2] },
    { kind := .element, tag := utf16 "span",
      attrs := [(utf16 "i18n-values", utf16 "title:t;badsyntax;lang:l")] },
    { kind := .element, tag := utf16 "span", attrs := [(utf16 "i18n-content", utf16 "t")] } ]

/-- A store with the strings `t` and `l`. -/
def titleStore : LoadTimeData :=
  { data_ := some [(utf16 "t", .string (utf16 "T")), (utf16 "l", .string (utf16 "en"))] }

/-- A page for the options handler: a document with a `select` whose options
marker names the key `opts`, and a `span` with a content marker after it. -/
def optionsPage : List Node :=
  [ { kind := .document, children := [1, 2] },
    { kind := .element, tag := utf16 "select", attrs := [(utf16 "i18n-options", utf16 "opts")] },
    { kind := .element, tag := utf16 "span", attrs := [(utf16 "i18n-content", utf16 "t")] } ]

/-- The node `id` is an `option` element with the given label (its text,
held in one text node, or no node when the label is empty) and the given
`value` attribute (`none`: no explicit value, no attribute at all). -/
def IsOption (nodes : List Node) (id : Nat) (label : JSString) (value : Option JSString) :
    Prop :=
  ∃ n, nodeAt nodes id = some n ∧ n.kind = .element ∧ n.tag = utf16 "option" ∧
    n.attrs = (match value with
      | some v => [(utf16 "value", v)]
      | none => []) ∧
    ((label = [] ∧ n.children = []) ∨
      (label ≠ [] ∧ ∃ t, n.children = [t] ∧
        nodeAt nodes t = some { kind := .text, text := label }))

/-- The option an entry of the list asks for, in the words of the spec, as
label and value: a bare string is a label without value, a pair `[v, l]` of
strings has the value `v` and the label `l`. -/
def optionOfEntry : JSValue → Option (JSString × Option JSString)
  | .string s => some (s, none)
  | .array [.string v, .string l] => some (l, some v)
  | _ => none

/-- The options page after the options handler has run on its `select` with
the list `["A", ["v2", "B"]]`. -/
def optionsPageDone : List Node :=
  [ { kind := .document, children := [1, 2] },
    { kind := .element, tag := utf16 "select",
      attrs := [(utf16 "i18n-options", utf16 "opts")], children := [3, 5] },
    { kind := .element, tag := utf16 "span", attrs := [(utf16 "i18n-content", utf16 "t")] },
    { kind := .element, tag := utf16 "option", children := [4] },
    { kind := .text, text := utf16 "A" },
    { kind := .element, tag := utf16 "option", attrs := [(utf16 "value", utf16 "v2")],
      children := [6] },
    { kind := .text, text := utf16 "B" } ]

/-- The value is a primitive: not an object and not an array. -/
def isPrimitive : JSValue → Bool
  | .array _ => false
  | .object _ => false
  | _ => true

/-- A page for the property path: a document with one `span` whose `style`
property is an empty object and whose values attribute is
`.style.color:themeColor`. -/
def stylePage : List Node :=
  [ { kind := .document, children := [1] },
    { kind := .element, tag := utf16 "span",
      attrs := [(utf16 "i18n-values", utf16 ".style.color:themeColor")],
      props := [(utf16 "style", .object [])] } ]

/-- A store with the string `red` under `themeColor`. -/
def themeStore : LoadTimeData :=
  { data_ := some [(utf16 "themeColor", .string (utf16 "red"))] }

/-- The page `stylePage` after the values handler ran on its `span`. -/
def stylePageDone : List Node :=
  [ { kind := .document, children := [1] },
    { kind := .element, tag := utf16 "span",
      attrs := [(utf16 "i18n-values", utf16 ".style.color:themeColor")],
      props := [(utf16 "style", .object [(utf16 "color", .string (utf16 "red"))])] } ]

/-- A page for a missing key: a document with one `span` whose values
attribute is `title:missingKey`. -/
def missingKeyPage : List Node :=
  [ { kind := .document, children := [1] },
    { kind := .element, tag := utf16 "span",
      attrs := [(utf16 "i18n-values", utf16 "title:missingKey")] } ]

/-- The page `missingKeyPage` after the values handler ran on its `span`
with a store that lacks the key. -/
def missingKeyPageDone : List Node :=
  [ { kind := .document, children := [1] },
    { kind := .element, tag := utf16 "span",
      attrs := [(utf16 "i18n-values", utf16 "title:missingKey"),
                (utf16 "title", utf16 "undefined")] } ]

/-- The getter `textContent` of an element: the text of the text nodes below
it, in document order. -/
def textContent (nodes : List Node) (id : Nat) : JSString :=
  (descendants nodes id).flatMap fun j =>
    match nodeAt nodes j with
    | some n => if n.kind == .text then n.text else []
    | none => []

/-- A page for the content handler: a document with a `p` that holds a `b`
and the text `old`, and has the attribute `i18n-content="t"`. -/
def contentPage : List Node :=
  [ { kind := .document, children := [1] },
    { kind := .element, tag := utf16 "p", attrs := [(utf16 "i18n-content", utf16 "t")],
      children := [2, 3] },
    { kind := .element, tag := utf16 "b" },
    { kind := .text, text := utf16 "old" } ]

/-- The name of the completion marker. -/
def processedMarker : JSString := utf16 "i18n-processed"

/-- A page with a template: document 0 holds a `template` whose content is
the fragment 2, and the fragment holds a `span` with a content marker. -/
def templatePage : List Node :=
  [ { kind := .document, children := [1] },
    { kind := .element, tag := utf16 "template", content := some 2 },
    { kind := .fragment, children := [3] },
    { kind := .element, tag := utf16 "span", attrs := [(utf16 "i18n-content", utf16 "t")] } ]

/-- Markup with one `span` that has a content marker. -/
def spanMarkup : JSString := utf16 "<span i18n-content=\"t\"></span>"

/-- A host whose parser reads `spanMarkup` as its one `span`, and anything
else as nothing. -/
def spanHost : Builtins :=
  { numberToString := fun _ => utf16 "0"
    stringToNumber := fun _ => .nan
    parseHTML := fun s =>
      if s = spanMarkup then
        { nodes := [{ kind := .element, tag := utf16 "span",
                      attrs := [(utf16 "i18n-content", utf16 "t")] }],
          roots := [0] }
      else { nodes := [], roots := [] } }

/-- A store whose key `k` holds `spanMarkup` and whose key `t` holds `T`. -/
def spanStore : LoadTimeData :=
  { data_ := some [(utf16 "k", .string spanMarkup), (utf16 "t", .string (utf16 "T"))] }

/-- A document with one `div` that assigns its `innerHTML` from the key `k`. -/
def injectingPage : List Node :=
  [ { kind := .document, children := [1] },
    { kind := .element, tag := utf16 "div", attrs := [(utf16 "i18n-values", utf16 ".innerHTML:k")] } ]

/-- The node carries the completion marker, whatever its value. -/
def hasMarker (n : Node) : Bool :=
  (n.attrs.find? fun a => a.1 == processedMarker).isSome

/-- Every reference of the heap points to a node of the heap: the children
of a node, the `import` of a link and the `content` of a template. -/
def wellFormed (nodes : List Node) : Bool :=
  nodes.all fun n =>
    n.children.all (fun c => decide (c < nodes.length)) &&
    n.imported.all (fun c => decide (c < nodes.length)) &&
    n.content.all (fun c => decide (c < nodes.length))

/-- What a node may become during a run without injection: it keeps its kind,
it keeps its children unless it is an element, and it keeps the marker. -/
def NodeExt (n n' : Node) : Prop :=
  n'.kind = n.kind ∧ (n.kind ≠ .element → n'.children = n.children) ∧
    (hasMarker n = true → hasMarker n' = true)

/-- What a heap may become: it grows, and every node changes as `NodeExt`
allows. -/
def Ext (a b : List Node) : Prop :=
  a.length ≤ b.length ∧ ∀ j n, nodeAt a j = some n → ∃ n', nodeAt b j = some n' ∧ NodeExt n n'

/-- The children of every node are nodes of the heap. -/
def ChildrenValid (nodes : List Node) : Prop :=
  ∀ j n, nodeAt nodes j = some n → ∀ c ∈ n.children, c < nodes.length

/-- The heap of a run without injection: the roots reachable by import and
template are those of `P0` and are on the heap, no values pair injects, and
children are valid. -/
def Good (P0 : List Nat) (nodes : List Node) : Prop :=
  (potentialRoots nodes = P0 ∧ noInjection nodes = true) ∧ ChildrenValid nodes ∧
    ∀ r ∈ P0, r < nodes.length

/-- The nodes that a marking call on `r` marks carry the marker. -/
def Marked (nodes : List Node) (r : Nat) : Prop :=
  ∀ id ∈ processedNodes nodes r, (getAttribute nodes id processedMarker).isSome = true

/-- A property of the state that a run returns, when it returns. -/
def Result.Returns (Q : State → Prop) : Result → Prop
  | .done s => Q s
  | _ => True

/-- What a handler does to a good state: the heap changes as `Ext` allows and
stays good, and `visited` is the same. -/
def Step (P0 : List Nat) (s s' : State) : Prop :=
  Ext s.nodes s'.nodes ∧ Good P0 s'.nodes ∧ s'.visited = s.visited

/-- What a call of `processWithoutCycles` with `mark` set does to a good
state: as `Step`, but `visited` grows, and every root it has added is on the
heap and marked. -/
def Walked (P0 : List Nat) (s s' : State) : Prop :=
  Ext s.nodes s'.nodes ∧ Good P0 s'.nodes ∧ s.visited ⊆ s'.visited ∧
    ∀ r ∈ s'.visited, r ∉ s.visited → r < s'.nodes.length ∧ Marked s'.nodes r

/-! ## decodeUTF16Base64ToString -/

/-- The number `data.charCodeAt(i) * 256 + data.charCodeAt(i + 1)`, given the
code unit at `i` and the one at `i + 1`, which is `none` past the end of the
string: `charCodeAt` gives `NaN` there, and so does the sum. -/
def pairValue (high : Nat) (low : Option Nat) : Option Nat :=
  low.map fun l => high * 256 + l

/-- The call `String.fromCharCode(x)` with one argument: the number is taken
modulo 2^16, and `NaN` gives the code unit 0. -/
def fromCharCode (x : Option Nat) : Nat :=
  match x with
  | some n => n % 65536
  | none => 0

/-- The loop `for (var i = 0; i < data.length; i += 2)` of
`decodeUTF16Base64ToString`: the string `result` it builds from `data`. -/
def decodeUnits : JSString → JSString
  | [] => []
  | [b] => [fromCharCode (pairValue b none)]
  | b0 :: b1 :: rest => fromCharCode (pairValue b0 (some b1)) :: decodeUnits rest

/-- The function `decodeUTF16Base64ToString(encoded_text)`. The host function
`atob` is a parameter: it returns the decoded bytes as a string of code units
below 256, or throws. -/
def decodeUTF16Base64ToString (atob : JSString → Completion JSString)
    (encoded_text : JSString) : Completion JSString :=
  match atob encoded_text with
  | .throw e => .throw e
  | .normal data => .normal (decodeUnits data)

/-- The big-endian encoding of a string of 16-bit code units, two bytes for
each unit, as the claim describes it. -/
def bigEndianBytes (s : JSString) : List Nat :=
  s.flatMap fun u => [u / 256, u % 256]

/-- A host decoder that knows one input: `AEgAaQ==`, the base64 text of the
bytes 0, 72, 0, 105. -/
def atobSample (encoded : JSString) : Completion JSString :=
  if encoded = utf16 "AEgAaQ==" then .normal [0, 72, 0, 105]
  else .throw (.error (utf16 "InvalidCharacterError"))

/-! ## Theorems: LoadTimeData -/

theorem replaceDollarMatches_cons_ne (f : JSString → JSString × List Defect) (c : Nat)
    (rest : JSString) (h : c ≠ 36) :
    replaceDollarMatches f (c :: rest) =
      (c :: (replaceDollarMatches f rest).1, (replaceDollarMatches f rest).2) := by
  cases rest <;> simp [replaceDollarMatches, h]

theorem replaceDollarMatches_match (f : JSString → JSString × List Defect) (d : Nat)
    (rest : JSString) (h : (!isLineTerminator d || d == 10) = true) :
    replaceDollarMatches f (36 :: d :: rest) =
      ((f [36, d]).1 ++ (replaceDollarMatches f rest).1,
       (f [36, d]).2 ++ (replaceDollarMatches f rest).2) := by
  simp only [replaceDollarMatches, h, and_self, if_true]

theorem replaceDollarMatches_noMatch (f : JSString → JSString × List Defect) (d : Nat)
    (rest : JSString) (h : (!isLineTerminator d || d == 10) = false) :
    replaceDollarMatches f (36 :: d :: rest) =
      (36 :: d :: (replaceDollarMatches f rest).1, (replaceDollarMatches f rest).2) := by
  have hd : d ≠ 36 := by
    rintro rfl
    simp [isLineTerminator] at h
  simp only [replaceDollarMatches, h, Bool.false_eq_true, and_false, if_false]
  rw [replaceDollarMatches_cons_ne f d rest hd]

theorem digit_not_lineTerminator (d : Nat) (h1 : 1 ≤ d) (h9 : d ≤ 9) :
    (!isLineTerminator (48 + d) || (48 + d) == 10) = true := by
  interval_cases d <;> decide

theorem isDigit19_digit (d : Nat) (h1 : 1 ≤ d) (h9 : d ≤ 9) : isDigit19 (48 + d) = true := by
  interval_cases d <;> decide

/-- The scan of `substituteString` over a template given by its parts. -/
theorem replace_templateText (B : Builtins) (varArgs : List JSValue) (ts : List Token)
    (h : ∀ t ∈ ts, t.Tolerated (varArgs.length - 1)) :
    replaceDollarMatches (substituteMatch B varArgs) (templateText ts) =
      (ts.flatMap (Token.replaced B varArgs), ts.flatMap Token.reported) := by
  induction ts with
  | nil => simp [templateText, replaceDollarMatches]
  | cons t ts ih =>
    have ih := ih (fun t ht => h t (List.mem_cons_of_mem _ ht))
    have ht := h t (List.mem_cons_self _ _)
    simp only [templateText, List.flatMap_cons] at ih ⊢
    cases t with
    | char c =>
      simp only [Token.Tolerated] at ht
      simp only [Token.text, List.singleton_append, Token.replaced, Token.reported,
        List.nil_append]
      rw [replaceDollarMatches_cons_ne _ _ _ ht, ih]
    | escape =>
      simp only [Token.text, List.cons_append, List.nil_append, Token.replaced, Token.reported,
        List.singleton_append]
      rw [replaceDollarMatches_match _ _ _ (by decide), ih]
      simp [substituteMatch, assert, matchesDollarOrDigit]
    | placeholder d =>
      simp only [Token.Tolerated] at ht
      obtain ⟨h1, h9, _⟩ := ht
      simp only [Token.text, List.cons_append, List.nil_append, Token.replaced, Token.reported]
      rw [replaceDollarMatches_match _ _ _ (digit_not_lineTerminator d h1 h9), ih]
      have hne : (48 + d = 36) = False := by simp; omega
      simp [substituteMatch, assert, matchesDollarOrDigit, isDigit19_digit d h1 h9,
        argumentsGet, hne]
      rw [if_pos (by omega)]
    | stray c =>
      simp only [Token.Tolerated] at ht
      obtain ⟨hc, hd⟩ := ht
      simp only [Token.text, List.cons_append, List.nil_append, Token.replaced, Token.reported]
      by_cases hm : (!isLineTerminator c || c == 10) = true
      · rw [replaceDollarMatches_match _ _ _ hm, ih]
        simp [substituteMatch, assert, matchesDollarOrDigit, hm, hc, hd]
      · have hm' : (!isLineTerminator c || c == 10) = false := by simpa using hm
        rw [replaceDollarMatches_noMatch _ _ _ hm', ih]
        simp [hm']

theorem wellFormed_tolerated (n : Nat) (t : Token) (h : t.WellFormed n) : t.Tolerated n := by
  cases t <;> simp_all [Token.WellFormed, Token.Tolerated]

theorem replaced_of_wellFormed (B : Builtins) (l : JSValue) (args : List JSValue) (t : Token)
    (h : t.WellFormed args.length) :
    Token.replaced B (l :: args) t = Token.expansion B args t ∧ Token.reported t = [] := by
  cases t with
  | char c => simp [Token.replaced, Token.expansion, Token.reported]
  | escape => simp [Token.replaced, Token.expansion, Token.reported]
  | placeholder d =>
    obtain ⟨h1, _, _⟩ := h
    obtain ⟨e, rfl⟩ : ∃ e, d = e + 1 := ⟨d - 1, by omega⟩
    simp [Token.replaced, Token.expansion, Token.reported]
  | stray c => exact absurd h (by simp [Token.WellFormed])

theorem flatMap_congr_mem {α β : Type} (l : List α) (f g : α → List β)
    (h : ∀ a ∈ l, f a = g a) : l.flatMap f = l.flatMap g := by
  induction l with
  | nil => rfl
  | cons a l ih =>
    simp only [List.flatMap_cons]
    rw [h a (List.mem_cons_self _ _), ih (fun b hb => h b (List.mem_cons_of_mem _ hb))]

/-- C1. For a template made only of code units other than `$`, escapes `$$`
and placeholders `$d` with `d` in 1..9 and at most the number of arguments,
`substituteString` returns the template scanned left to right with every `$d`
replaced by the `d`-th argument, every `$$` by one `$` and everything else
unchanged, the inserted arguments not being scanned again; nothing is
reported. -/
theorem substituteString_wellFormed (B : Builtins) (ts : List Token) (args : List JSValue)
    (h : ∀ t ∈ ts, t.WellFormed args.length) :
    substituteString B (templateText ts) args = (specSubstitute B args ts, []) := by
  unfold substituteString specSubstitute
  rw [replace_templateText B _ ts (fun t ht => by
    simpa using wellFormed_tolerated _ t (h t ht))]
  rw [flatMap_congr_mem ts _ (Token.expansion B args)
    (fun t ht => (replaced_of_wellFormed B _ args t (h t ht)).1)]
  rw [flatMap_congr_mem ts Token.reported (fun _ => [])
    (fun t ht => (replaced_of_wellFormed B (.string (templateText ts)) args t (h t ht)).2)]
  simp

/-- The two examples of C1: `substituteString("$$$1", "x")` is `"$x"`, and
`substituteString("$$")` is `"$"`. -/
theorem substituteString_wellFormed_witness :
    (∀ t ∈ [Token.escape, Token.placeholder 1], t.WellFormed [JSValue.string (utf16 "x")].length) ∧
    substituteString plainHost (utf16 "$$$1") [.string (utf16 "x")] = (utf16 "$x", []) ∧
    substituteString plainHost (utf16 "$$") [] = (utf16 "$", []) :=
  ⟨by simp [Token.WellFormed],
   substituteString_wellFormed plainHost [.escape, .placeholder 1] [.string (utf16 "x")]
     (by simp [Token.WellFormed]),
   by decide⟩

theorem unescapeDollars_cons_ne (c : Nat) (rest : JSString) (h : c ≠ 36) :
    unescapeDollars (c :: rest) = c :: unescapeDollars rest := by
  cases rest <;> simp [unescapeDollars, h]

theorem unescapeDollars_literal (B : Builtins) (args : List JSValue) (pre : List Token)
    (h : ∀ t ∈ pre, t.Literal) :
    unescapeDollars (templateText pre) = specSubstitute B args pre := by
  induction pre with
  | nil => simp [templateText, specSubstitute, unescapeDollars]
  | cons t pre ih =>
    have ih := ih (fun t ht => h t (List.mem_cons_of_mem _ ht))
    have ht := h t (List.mem_cons_self _ _)
    simp only [templateText, specSubstitute, List.flatMap_cons] at ih ⊢
    cases t with
    | char c =>
      simp only [Token.Literal] at ht
      simp only [Token.text, List.singleton_append, Token.expansion]
      rw [unescapeDollars_cons_ne _ _ ht, ih]
    | escape =>
      simp only [Token.text, List.cons_append, List.nil_append, Token.expansion,
        List.singleton_append]
      simp [unescapeDollars, ih]
    | placeholder d => exact absurd ht (by simp [Token.Literal])
    | stray c => exact absurd ht (by simp [Token.Literal])

theorem isPlaceholder_literal (pre : List Token) (h : ∀ t ∈ pre, t.Literal) :
    isPlaceholder (templateText pre) = false := by
  cases pre with
  | nil => rfl
  | cons t pre =>
    have ht := h t (List.mem_cons_self _ _)
    cases t with
    | char c =>
      simp only [Token.Literal] at ht
      simp only [templateText, List.flatMap_cons, Token.text, List.singleton_append]
      unfold isPlaceholder
      split
      · next heq => simp at heq; omega
      · rfl
    | escape =>
      simp only [templateText, List.flatMap_cons, Token.text, List.cons_append, List.nil_append]
      unfold isPlaceholder
      split
      · next heq =>
          simp at heq
          obtain ⟨rfl, _⟩ := heq
          rfl
      · rfl
    | placeholder d => exact absurd ht (by simp [Token.Literal])
    | stray c => exact absurd ht (by simp [Token.Literal])

theorem countDollars_literal (pre : List Token) (h : ∀ t ∈ pre, t.Literal) :
    countDollars (templateText pre) % 2 = 0 := by
  induction pre with
  | nil => rfl
  | cons t pre ih =>
    have ih := ih (fun t ht => h t (List.mem_cons_of_mem _ ht))
    have ht := h t (List.mem_cons_self _ _)
    simp only [templateText, countDollars, List.flatMap_cons, List.count_append] at ih ⊢
    cases t with
    | char c =>
      simp only [Token.Literal] at ht
      simp only [Token.text]
      rw [List.count_singleton]
      simp [ht, ih]
    | escape =>
      simp only [Token.text]
      have : List.count 36 [36, 36] = 2 := by decide
      omega
    | placeholder d => exact absurd ht (by simp [Token.Literal])
    | stray c => exact absurd ht (by simp [Token.Literal])

/-- The pieces of a finished literal run, and what they report. -/
theorem flushRun_literal (B : Builtins) (varArgs args : List JSValue) (pre : List Token)
    (h : ∀ t ∈ pre, t.Literal) :
    joinPieceValues B (((flushRun (templateText pre)).map (pieceOf varArgs)).map Prod.fst) =
        specSubstitute B args pre ∧
      ((flushRun (templateText pre)).map (pieceOf varArgs)).flatMap Prod.snd = [] := by
  unfold flushRun
  split
  · next hnil =>
      have : pre = [] := by
        cases pre with
        | nil => rfl
        | cons t pre => cases t <;> simp [templateText, Token.text] at hnil
      subst this
      simp [joinPieceValues, specSubstitute]
  · have hc := countDollars_literal pre h
    simp [joinPieceValues, pieceOf, isPlaceholder_literal pre h, ToString,
      unescapeDollars_literal B args pre h, assert, hc]

theorem templateText_cons (t : Token) (ts : List Token) :
    templateText (t :: ts) = t.text ++ templateText ts := by
  simp only [templateText, List.flatMap_cons]

theorem templateText_snoc (pre : List Token) (t : Token) :
    templateText (pre ++ [t]) = templateText pre ++ t.text := by
  simp only [templateText, List.flatMap_append, List.flatMap_cons, List.flatMap_nil,
    List.append_nil]

theorem matchPieces_cons_ne (cur : JSString) (c : Nat) (rest : JSString) (h : c ≠ 36) :
    matchPieces cur (c :: rest) = matchPieces (cur ++ [c]) rest := by
  conv => lhs; unfold matchPieces
  simp only [h, if_false]

theorem matchPieces_other (cur : JSString) (d : Nat) (rest : JSString)
    (h : isDigit19 d = false) :
    matchPieces cur (36 :: d :: rest) = matchPieces (cur ++ [36, d]) rest := by
  simp only [matchPieces, h, if_true, Bool.false_eq_true, if_false]

theorem matchPieces_placeholder (cur : JSString) (d : Nat) (rest : JSString)
    (h : isDigit19 d = true) :
    matchPieces cur (36 :: d :: rest) = flushRun cur ++ [36, d] :: matchPieces [] rest := by
  simp only [matchPieces, h, if_true]

/-- The matches of `getSubstitutedStringPieces` over a template given by its
parts, `pre` being the literal run already read. -/
theorem matchPieces_templateText (B : Builtins) (l : JSValue) (args : List JSValue)
    (ts : List Token) (h : ∀ t ∈ ts, t.WellFormed args.length) :
    ∀ pre : List Token, (∀ t ∈ pre, t.Literal) →
      joinPieceValues B
          (((matchPieces (templateText pre) (templateText ts)).map (pieceOf (l :: args))).map
            Prod.fst) =
        specSubstitute B args pre ++ specSubstitute B args ts ∧
      ((matchPieces (templateText pre) (templateText ts)).map (pieceOf (l :: args))).flatMap
        Prod.snd = [] := by
  induction ts with
  | nil =>
    intro pre hpre
    simpa [templateText, matchPieces, specSubstitute] using
      flushRun_literal B (l :: args) args pre hpre
  | cons t ts ih =>
    intro pre hpre
    have ih := ih (fun t ht => h t (List.mem_cons_of_mem _ ht))
    have ht := h t (List.mem_cons_self _ _)
    cases t with
    | char c =>
      simp only [Token.WellFormed] at ht
      have hstep : matchPieces (templateText pre) (templateText (Token.char c :: ts)) =
          matchPieces (templateText (pre ++ [Token.char c])) (templateText ts) := by
        rw [templateText_cons, templateText_snoc]
        exact matchPieces_cons_ne _ _ _ ht
      have := ih (pre ++ [Token.char c]) (by
        intro t ht'
        rcases List.mem_append.1 ht' with h1 | h1
        · exact hpre t h1
        · simp at h1; subst h1; exact ht)
      rw [hstep]
      simpa [specSubstitute] using this
    | escape =>
      have hstep : matchPieces (templateText pre) (templateText (Token.escape :: ts)) =
          matchPieces (templateText (pre ++ [Token.escape])) (templateText ts) := by
        rw [templateText_cons, templateText_snoc]
        exact matchPieces_other _ _ _ (by decide)
      have := ih (pre ++ [Token.escape]) (by
        intro t ht'
        rcases List.mem_append.1 ht' with h1 | h1
        · exact hpre t h1
        · simp at h1; subst h1; trivial)
      rw [hstep]
      simpa [specSubstitute] using this
    | placeholder d =>
      obtain ⟨h1, h9, hn⟩ := ht
      have hstep : matchPieces (templateText pre) (templateText (Token.placeholder d :: ts)) =
          flushRun (templateText pre) ++ [36, 48 + d] :: matchPieces (templateText [])
            (templateText ts) := by
        rw [templateText_cons]
        exact matchPieces_placeholder _ _ _ (isDigit19_digit d h1 h9)
      have h0 := ih [] (by simp)
      have hf := flushRun_literal B (l :: args) args pre hpre
      obtain ⟨e, rfl⟩ : ∃ e, d = e + 1 := ⟨d - 1, by omega⟩
      have hp : pieceOf (l :: args) [36, 48 + (e + 1)] =
          ({ value := args.getD e .undefined, arg := some [36, 48 + (e + 1)] }, []) := by
        have hne : ¬ (48 + (e + 1) = 36) := by omega
        simp [pieceOf, isPlaceholder, isDigit19_digit (e + 1) h1 h9, argumentsGet]
        intro h57
        omega
      rw [hstep]
      simp only [List.map_append, List.map_cons, List.flatMap_append, List.flatMap_cons, hp,
        joinPieceValues] at hf h0 ⊢
      simp only [List.nil_append, specSubstitute] at h0
      constructor
      · rw [hf.1, h0.1]
        simp [specSubstitute, Token.expansion]
      · rw [hf.2, h0.2]
        simp
    | stray c => exact absurd ht (by simp [Token.WellFormed])

/-- C2. For a template in which every `$` starts a placeholder `$1`..`$9`
within the number of arguments or an escape `$$`, the `value` fields of
`getSubstitutedStringPieces`, concatenated in order, are the string that
`substituteString` returns; neither method reports anything. -/
theorem pieces_join_eq_substituteString (B : Builtins) (ts : List Token) (args : List JSValue)
    (h : ∀ t ∈ ts, t.WellFormed args.length) :
    joinPieceValues B (getSubstitutedStringPieces (templateText ts) args).1 =
        (substituteString B (templateText ts) args).1 ∧
      (getSubstitutedStringPieces (templateText ts) args).2 = [] ∧
      (substituteString B (templateText ts) args).2 = [] := by
  have hm := matchPieces_templateText B (.string (templateText ts)) args ts h [] (by simp)
  have hs := substituteString_wellFormed B ts args h
  simp only [templateText, List.flatMap_nil, specSubstitute, List.nil_append] at hm
  refine ⟨?_, ?_, ?_⟩
  · rw [hs]
    simpa [getSubstitutedStringPieces, templateText, specSubstitute] using hm.1
  · simpa [getSubstitutedStringPieces, templateText] using hm.2
  · rw [hs]

/-- An instance of C2: the template `a$$b$1c` with the argument `x`. -/
theorem pieces_join_eq_substituteString_witness :
    (∀ t ∈ [Token.char 97, .escape, .char 98, .placeholder 1, .char 99],
        t.WellFormed [JSValue.string (utf16 "x")].length) ∧
    (joinPieceValues plainHost
        (getSubstitutedStringPieces (utf16 "a$$b$1c") [.string (utf16 "x")]).1 =
      (substituteString plainHost (utf16 "a$$b$1c") [.string (utf16 "x")]).1 ∧
      (getSubstitutedStringPieces (utf16 "a$$b$1c") [.string (utf16 "x")]).2 = [] ∧
      (substituteString plainHost (utf16 "a$$b$1c") [.string (utf16 "x")]).2 = []) :=
  ⟨by simp [Token.WellFormed],
   pieces_join_eq_substituteString plainHost
     [.char 97, .escape, .char 98, .placeholder 1, .char 99] [.string (utf16 "x")]
     (by simp [Token.WellFormed])⟩

/-- C3, as stated, fails: setting `data` a second time replaces the mapping.
On a store holding `{a: 1}`, setting `data` to `{}` leaves `{}`. -/
theorem set_data_again_replaces :
    (LoadTimeData.set_data { data_ := some [(utf16 "a", .number (.finite 1))] } []).store.data_ ≠
      some [(utf16 "a", .number (.finite 1))] := by
  decide

/-- C3, amended. On a store whose mapping is already set to `m`, setting `data`
again to `m'` reports `Re-setting data.`, does not throw, and leaves the
backing mapping equal to `m'`. -/
theorem set_data_again (m m' : JSObject) :
    LoadTimeData.set_data { data_ := some m } m' =
      { store := { data_ := some m' }, completion := .normal (),
        console := [.resettingData] } := by
  rfl

theorem lookupOwn_cons (k0 : JSString) (x : JSValue) (o : JSObject) (k : JSString) :
    lookupOwn ((k0, x) :: o) k = if k0 = k then some x else lookupOwn o k := by
  by_cases h : k0 = k <;> simp [lookupOwn, List.find?_cons, h]

theorem lookupOwn_assignOwn (key : JSString) (v : JSValue) (o : JSObject) (k : JSString) :
    lookupOwn (assignOwn key v o) k = if k = key then some v else lookupOwn o k := by
  induction o with
  | nil =>
    by_cases h : k = key
    · simp [assignOwn, lookupOwn, h]
    · have h' : ¬ key = k := fun e => h e.symm
      simp [assignOwn, lookupOwn, h, h']
  | cons p o ih =>
    obtain ⟨k0, x⟩ := p
    by_cases h0 : k0 = key
    · subst h0
      by_cases h : k = k0
      · simp [assignOwn, lookupOwn_cons, h]
      · have h' : ¬ k0 = k := fun e => h e.symm
        simp [assignOwn, lookupOwn_cons, h, h']
    · by_cases h : k0 = k
      · subst h
        simp [assignOwn, lookupOwn_cons, h0]
      · simp only [assignOwn, h0, if_false, lookupOwn_cons, h]
        exact ih

/-- The loop of `overrideValues` over keys of the object `r`. -/
theorem overrideLoop_object (r : JSObject) (keys : List JSString)
    (hk : ∀ key ∈ keys, (lookupOwn r key).isSome) :
    ∀ m : JSObject, ∃ m' : JSObject,
      overrideLoop (.object r) keys { data_ := some m } = ({ data_ := some m' }, .normal ()) ∧
      ∀ k, lookupOwn m' k = if k ∈ keys then lookupOwn r k else lookupOwn m k := by
  induction keys with
  | nil => intro m; exact ⟨m, rfl, by simp⟩
  | cons key keys ih =>
    intro m
    have hkey := hk key (List.mem_cons_self _ _)
    obtain ⟨m', h1, h2⟩ := ih (fun k h => hk k (List.mem_cons_of_mem _ h))
      (assignOwn key ((lookupOwn r key).getD .undefined) m)
    refine ⟨m', ?_, ?_⟩
    · simpa [overrideLoop, getProperty] using h1
    · intro k
      rw [h2 k, lookupOwn_assignOwn]
      by_cases hmem : k ∈ keys
      · simp [hmem]
      · by_cases hkk : k = key
        · subst hkk
          obtain ⟨v, hv⟩ := Option.isSome_iff_exists.1 hkey
          simp [hmem, hv]
        · simp [hmem, hkk]

theorem lookupOwn_isSome_iff (r : JSObject) (k : JSString) :
    (lookupOwn r k).isSome = true ↔ k ∈ r.map Prod.fst := by
  induction r with
  | nil => simp [lookupOwn]
  | cons p r ih =>
    obtain ⟨k0, x⟩ := p
    by_cases h : k0 = k
    · simp [lookupOwn_cons, h]
    · have h' : ¬ k = k0 := fun e => h e.symm
      simp only [lookupOwn_cons, h, if_false, List.map_cons, List.mem_cons, h', false_or]
      exact ih

/-- C4. On a set store with mapping `m`, `overrideValues(r)` with a mapping `r`
completes without a report and leaves a store that maps each key of `r` to
`r[k]` and every other key to what `m` maps it to (absent when absent from
both); `overrideValues({a: 2})` on `{a: 1, b: 3}` yields `{a: 2, b: 3}`. -/
theorem overrideValues_merges (m r : JSObject) :
    (∃ m' : JSObject,
      LoadTimeData.overrideValues { data_ := some m } (.object r) =
        { store := { data_ := some m' }, completion := .normal (), console := [] } ∧
      ∀ k, lookupOwn m' k =
        match lookupOwn r k with
        | some v => some v
        | none => lookupOwn m k) ∧
    LoadTimeData.overrideValues
        { data_ := some [(utf16 "a", .number (.finite 1)), (utf16 "b", .number (.finite 3))] }
        (.object [(utf16 "a", .number (.finite 2))]) =
      { store :=
          { data_ := some [(utf16 "a", .number (.finite 2)), (utf16 "b", .number (.finite 3))] },
        completion := .normal (), console := [] } := by
  refine ⟨?_, by decide⟩
  obtain ⟨m', h1, h2⟩ := overrideLoop_object r (r.map Prod.fst)
    (fun key hkey => (lookupOwn_isSome_iff r key).2 hkey) m
  refine ⟨m', ?_, ?_⟩
  · simp [LoadTimeData.overrideValues, forInKeys, h1, typeof, expect]
  · intro k
    rw [h2 k]
    cases hr : lookupOwn r k with
    | none =>
      have : ¬ k ∈ r.map Prod.fst := by
        rw [← lookupOwn_isSome_iff, hr]
        simp
      simp [this]
    | some v =>
      have : k ∈ r.map Prod.fst := by
        rw [← lookupOwn_isSome_iff, hr]
        rfl
      simp [this]

/-- C5. On a set store, `getValue(k)` for a key that is not present reports
`Could not find value for k`, does not throw and returns `undefined`; for a key
present with a value other than `undefined` it returns that value and reports
nothing. -/
theorem getValue_set (m : JSObject) (k : JSString) :
    (lookupOwn m k = none →
      LoadTimeData.getValue { data_ := some m } k =
        { completion := .normal .undefined, console := [.couldNotFind k] }) ∧
    (∀ v, lookupOwn m k = some v → v ≠ .undefined →
      LoadTimeData.getValue { data_ := some m } k =
        { completion := .normal v, console := [] }) := by
  constructor
  · intro h
    simp [LoadTimeData.getValue, LoadTimeData.dataValue, getProperty, h, expect, ToBoolean,
      typeof]
  · intro v h hv
    have : typeof v ≠ .undefined := by
      cases v <;> simp_all [typeof]
    simp [LoadTimeData.getValue, LoadTimeData.dataValue, getProperty, h, expect, ToBoolean, this]

/-- An instance of C5: the store `{a: "x"}` read at the missing key `b` and at
the key `a`. -/
theorem getValue_set_witness :
    (lookupOwn [(utf16 "a", JSValue.string (utf16 "x"))] (utf16 "b") = none ∧
      LoadTimeData.getValue { data_ := some [(utf16 "a", .string (utf16 "x"))] } (utf16 "b") =
        { completion := .normal .undefined, console := [.couldNotFind (utf16 "b")] }) ∧
    (lookupOwn [(utf16 "a", JSValue.string (utf16 "x"))] (utf16 "a") =
        some (.string (utf16 "x")) ∧
      LoadTimeData.getValue { data_ := some [(utf16 "a", .string (utf16 "x"))] } (utf16 "a") =
        { completion := .normal (.string (utf16 "x")), console := [] }) :=
  ⟨⟨by decide,
    (getValue_set [(utf16 "a", .string (utf16 "x"))] (utf16 "b")).1 (by decide)⟩,
   ⟨by decide,
    (getValue_set [(utf16 "a", .string (utf16 "x"))] (utf16 "a")).2 _ (by decide) (by decide)⟩⟩

/-- C6, as stated, fails: on a store that was never set, `getValue("a")` does
not return `undefined`; it throws. -/
theorem getValue_unset_throws :
    (LoadTimeData.getValue { data_ := none } (utf16 "a")).completion ≠ .normal .undefined ∧
    (LoadTimeData.getValue { data_ := none } (utf16 "a")).completion = .throw .typeError := by
  decide

/-- C6, amended. When the backing mapping has never been set, `getValue(k)`
reports `No data.` and then throws a `TypeError` (the read `this.data_[id]` of
an undefined `data_`); nothing is returned. -/
theorem getValue_unset (k : JSString) :
    LoadTimeData.getValue { data_ := none } k =
      { completion := .throw .typeError, console := [.noData] } := by
  rfl

/-- C7, as stated, fails: for a key that is missing from the store the value
is `undefined`, which is no number with a fractional part, and `getInteger`
still reports `Number isn't integer: undefined`; and for a key that holds `NaN`
it reports `Number isn't integer: NaN`. -/
theorem getInteger_missing_reports_notInteger :
    ((LoadTimeData.getInteger plainHost { data_ := some [] } (utf16 "a")).completion =
        .normal .undefined ∧
      Defect.notInteger .undefined ∈
        (LoadTimeData.getInteger plainHost { data_ := some [] } (utf16 "a")).console ∧
      ¬ hasFractionalPart .undefined) ∧
    (LoadTimeData.getInteger plainHost { data_ := some [(utf16 "a", .number .nan)] }
        (utf16 "a") =
      { completion := .normal (.number .nan), console := [.notInteger (.number .nan)] } ∧
      ¬ hasFractionalPart (.number .nan)) :=
  ⟨⟨by decide, by decide, by simp [hasFractionalPart]⟩, by decide, by simp [hasFractionalPart]⟩

/-- C7, amended. On a set store `getString`, `getBoolean` and `getInteger`
never throw and return the value `v` that `getValue` returns, whatever its
type; after the reports of `getValue` each reports a type mismatch exactly
when `typeof v` is not `string`, `boolean`, `number` respectively, and
`getInteger` then reports `Number isn't integer` exactly when
`v == Math.floor(v)` is false, still returning `v`. For a number that is when
it is `NaN` or has a non-zero fractional part; for `undefined` and `null` it is
always. -/
theorem typed_getters (B : Builtins) (m : JSObject) (k : JSString) :
    (LoadTimeData.getValue { data_ := some m } k).completion =
        .normal ((lookupOwn m k).getD .undefined) ∧
    LoadTimeData.getString { data_ := some m } k =
      { completion := .normal ((lookupOwn m k).getD .undefined),
        console := (LoadTimeData.getValue { data_ := some m } k).console ++
          (if typeof ((lookupOwn m k).getD .undefined) = .string then []
           else [.notType ((lookupOwn m k).getD .undefined) k .string]) } ∧
    LoadTimeData.getBoolean { data_ := some m } k =
      { completion := .normal ((lookupOwn m k).getD .undefined),
        console := (LoadTimeData.getValue { data_ := some m } k).console ++
          (if typeof ((lookupOwn m k).getD .undefined) = .boolean then []
           else [.notType ((lookupOwn m k).getD .undefined) k .boolean]) } ∧
    LoadTimeData.getInteger B { data_ := some m } k =
      { completion := .normal ((lookupOwn m k).getD .undefined),
        console := (LoadTimeData.getValue { data_ := some m } k).console ++
          (if typeof ((lookupOwn m k).getD .undefined) = .number then []
           else [.notType ((lookupOwn m k).getD .undefined) k .number]) ++
          (if looseEqualsNumber B ((lookupOwn m k).getD .undefined)
              (ToNumber B ((lookupOwn m k).getD .undefined)).floor = true then []
           else [.notInteger ((lookupOwn m k).getD .undefined)]) } ∧
    (∀ q : ℚ, looseEqualsNumber B (.number (.finite q))
        (ToNumber B (.number (.finite q))).floor = decide (q = ((⌊q⌋ : ℤ) : ℚ))) ∧
    looseEqualsNumber B (.number .nan) (ToNumber B (.number .nan)).floor = false ∧
    looseEqualsNumber B (.number .posInf) (ToNumber B (.number .posInf)).floor = true ∧
    looseEqualsNumber B (.number .negInf) (ToNumber B (.number .negInf)).floor = true ∧
    looseEqualsNumber B .undefined (ToNumber B .undefined).floor = false ∧
    looseEqualsNumber B .null (ToNumber B .null).floor = false := by
  have hv : LoadTimeData.getValue { data_ := some m } k =
      { completion := .normal ((lookupOwn m k).getD .undefined),
        console := expect (typeof ((lookupOwn m k).getD .undefined) != .undefined)
          (.couldNotFind k) } := by
    simp [LoadTimeData.getValue, LoadTimeData.dataValue, getProperty, expect, ToBoolean]
  refine ⟨by rw [hv], ?_, ?_, ?_, ?_, rfl, rfl, rfl, rfl, rfl⟩
  · simp only [LoadTimeData.getString, hv, expectIsType, expect]
    by_cases h : typeof ((lookupOwn m k).getD .undefined) = .string <;> simp [h]
  · simp only [LoadTimeData.getBoolean, hv, expectIsType, expect]
    by_cases h : typeof ((lookupOwn m k).getD .undefined) = .boolean <;> simp [h]
  · simp only [LoadTimeData.getInteger, hv, expectIsType, expect]
    by_cases h : typeof ((lookupOwn m k).getD .undefined) = .number <;>
      by_cases h2 : looseEqualsNumber B ((lookupOwn m k).getD .undefined)
        (ToNumber B ((lookupOwn m k).getD .undefined)).floor = true <;> simp [h, h2]
  · intro q
    simp [looseEqualsNumber, ToNumber, JSNumber.floor, JSNumber.equal]

/-- What the callback of `substituteString` does on any template: for a
template whose `$` are followed by `$`, by a digit `1`..`9` within the number
of arguments, or by any other code unit `c`, the run does not abort, every
`$d` and `$$` is substituted, and each stray `$c` is reported and replaced by
the string form of `arguments[c]`, the text `undefined` (the template itself
when `c` is `0`), since the callback returns `varArgs[m[1]]` for every match
that is not `$$`. When `c` is one of the line terminators CR, U+2028, U+2029
the `$c` is no match and stays as it is. -/
theorem substituteString_stray (B : Builtins) (ts : List Token) (args : List JSValue)
    (h : ∀ t ∈ ts, t.Tolerated args.length) :
    substituteString B (templateText ts) args =
      (ts.flatMap (Token.replaced B (.string (templateText ts) :: args)),
       ts.flatMap Token.reported) := by
  unfold substituteString
  exact replace_templateText B _ ts (fun t ht => by simpa using h t ht)

/-- C8, the defect: on a stray `$a`, `substituteString` and its sibling
`getSubstitutedStringPieces` part. With no argument,
`substituteString("x$ay")` is `"xundefinedy"` with one report, while
`getSubstitutedStringPieces("x$ay")` is the one piece `"x$ay"`, verbatim, with
one report. On `"$a$b"` the first gives `"undefinedundefined"` with two
reports and the second the piece `"$a$b"` with none; and
`substituteString("a$0b")` puts the whole template in the place of `$0`. -/
theorem substituteString_stray_diverges :
    substituteString plainHost (utf16 "x$ay") [] =
      (utf16 "xundefinedy", [.unescapedDollar]) ∧
    getSubstitutedStringPieces (utf16 "x$ay") [] =
      ([{ value := .string (utf16 "x$ay"), arg := none }], [.unescapedDollar]) ∧
    substituteString plainHost (utf16 "$a$b") [] =
      (utf16 "undefinedundefined", [.unescapedDollar, .unescapedDollar]) ∧
    getSubstitutedStringPieces (utf16 "$a$b") [] =
      ([{ value := .string (utf16 "$a$b"), arg := none }], []) ∧
    substituteString plainHost (utf16 "a$0b") [] =
      (utf16 "aa$0bb", [.unescapedDollar]) := by
  decide

/-! ## Theorems: the processor -/

theorem sat_andThen {I : State → Prop} {D : Prop} {r : Result} {k : State → Result}
    (hr : r.Sat I D) (hk : ∀ s, I s → (k s).Sat I D) : (r.andThen k).Sat I D := by
  cases r with
  | done s => exact hk s hr
  | thrown e s => exact hr
  | diverged => exact hr

theorem sat_imp {I I' : State → Prop} {D : Prop} {r : Result} (hr : r.Sat I D)
    (h : ∀ s, I s → I' s) : r.Sat I' D := by
  cases r with
  | done s => exact h s hr
  | thrown e s => exact h s hr
  | diverged => exact hr

theorem sat_forEach {α : Type} {I : State → Prop} {D : Prop} (f : α → State → Result)
    (xs : List α) (hf : ∀ x ∈ xs, ∀ s, I s → (f x s).Sat I D) :
    ∀ s, I s → (forEach f xs s).Sat I D := by
  induction xs with
  | nil => intro s hs; exact hs
  | cons x xs ih =>
    intro s hs
    exact sat_andThen (hf x (List.mem_cons_self _ _) s hs)
      (ih (fun y hy => hf y (List.mem_cons_of_mem _ hy)))

theorem sat_reprocessChildren {I : State → Prop} {D : Prop}
    (recurse : Nat → Bool → State → Result) (element : Nat) (hD : D)
    (hrec : ∀ child s, I s → (recurse child false s).Sat I D) :
    ∀ budget i s, I s → (reprocessChildren recurse element budget i s).Sat I D := by
  intro budget
  induction budget with
  | zero => intro i s _; exact hD
  | succ budget ih =>
    intro i s hs
    unfold reprocessChildren
    split
    · exact hs
    · exact sat_andThen (hrec _ s hs) (ih (i + 1))

theorem sat_assignPath {B : Builtins} {I : State → Prop} {Safe : JSString → Prop}
    {Inject D : Prop} (P : Preserved B I Safe Inject D) (budget : Nat)
    (recurse : Nat → Bool → State → Result)
    (hrec : Inject → ∀ child s, I s → (recurse child false s).Sat I D)
    (element : Nat) (inner : List JSString) (last : JSString) (value : JSValue)
    (hlast : last = utf16 "innerHTML" → Inject) (s : State) (hs : I s) :
    (assignPath B budget recurse element inner last value s).Sat I D := by
  unfold assignPath
  split
  · exact hs
  · split
    · exact hs
    · split
      · split
        · next h =>
          exact sat_reprocessChildren recurse element (P.diverge (hlast h)) (hrec (hlast h)) _ _ _
            (P.assign s element inner last value hs hlast)
        · exact P.assign s element inner last value hs hlast
      · exact hs

theorem sat_applyValuesPart {B : Builtins} {I : State → Prop} {Safe : JSString → Prop}
    {Inject D : Prop} (P : Preserved B I Safe Inject D) (budget : Nat)
    (recurse : Nat → Bool → State → Result)
    (hrec : Inject → ∀ child s, I s → (recurse child false s).Sat I D)
    (element : Nat) (attributeAndKeys : JSString) (data : LoadTimeData) (part : JSString)
    (hpart : ∀ name expr, matchPair part = some (name, expr) →
      Safe name ∧ (name.head? = some 46 →
        (splitLast (splitOn 46 (name.drop 1))).2 = utf16 "innerHTML" → Inject))
    (s : State) (hs : I s) :
    (applyValuesPart B budget recurse element attributeAndKeys data part s).Sat I D := by
  unfold applyValuesPart
  split
  · exact hs
  · split
    · exact hs
    · next name expr hm =>
      obtain ⟨hsafe, hinj⟩ := hpart name expr hm
      split
      · exact P.log s _ hs
      · split
        · next hdot =>
          exact sat_assignPath P budget recurse hrec element _ _ _ (hinj hdot) _ (P.log s _ hs)
        · exact P.attr _ element name _ (P.log s _ hs) hsafe

theorem sat_content {B : Builtins} {I : State → Prop} {Safe : JSString → Prop}
    {Inject D : Prop} (P : Preserved B I Safe Inject D) (element : Nat) (key : JSString)
    (data : LoadTimeData) (s : State) (hs : I s) :
    (handlers_i18n_content B element key data s).Sat I D := by
  unfold handlers_i18n_content
  split
  · exact P.log s _ hs
  · exact P.text _ element _ (P.log s _ hs)

theorem sat_options {B : Builtins} {I : State → Prop} {Safe : JSString → Prop}
    {Inject D : Prop} (P : Preserved B I Safe Inject D) (select : Nat) (key : JSString)
    (data : LoadTimeData) (s : State) (hs : I s) :
    (handlers_i18n_options B select key data s).Sat I D := by
  unfold handlers_i18n_options
  split
  · exact P.log s _ hs
  · split
    · refine sat_forEach _ _ (fun optionData _ s hs => ?_) _ (P.log s _ hs)
      unfold appendOption
      split
      · exact hs
      · exact P.option s select _ _ hs
    · exact P.log s _ hs

theorem sat_processElement {B : Builtins} {I : State → Prop} {Safe : JSString → Prop}
    {Inject D : Prop} (P : Preserved B I Safe Inject D) (budget : Nat)
    (recurse : Nat → Bool → State → Result)
    (hrec : Inject → ∀ child s, I s → (recurse child false s).Sat I D)
    (data : LoadTimeData) (element : Nat) (s : State) (hs : I s) :
    (processElement B budget recurse data element s).Sat I D := by
  unfold processElement
  refine sat_forEach _ _ (fun name hname s hs => ?_) _ hs
  split
  · exact hs
  · next attr hattr =>
    have hs' := P.traced s name element hs
    unfold callHandler
    split
    · exact sat_content P element attr data _ hs'
    · next h1 =>
      split
      · exact sat_options P element attr data _ hs'
      · next h2 =>
        have hn : name = utf16 "i18n-values" := by
          simp only [attributeNames, List.mem_cons, List.mem_singleton, List.not_mem_nil,
            or_false] at hname
          rcases hname with h | h | h
          · exact absurd h h1
          · exact absurd h h2
          · exact h
        subst hn
        unfold handlers_i18n_values
        refine sat_forEach _ _ (fun part hpart s1 hs1 => ?_) _ hs'
        exact sat_applyValuesPart P budget recurse hrec element attr data part
          (P.safe s element attr hs hattr part hpart) s1 hs1

theorem sat_processRoot {B : Builtins} {I : State → Prop} {Safe : JSString → Prop}
    {Inject D : Prop} (P : Preserved B I Safe Inject D) (data : LoadTimeData) (budget : Nat)
    (recurse : Nat → Bool → State → Result)
    (hrec : Inject → ∀ child s, I s → (recurse child false s).Sat I D)
    (hlink : ∀ r mark s, I s → r ∈ potentialRoots s.nodes → (recurse r mark s).Sat I D)
    (root : Nat) (mark : Bool) (s : State) (hs : I s) :
    (processRoot B data budget recurse root mark s).Sat I D := by
  unfold processRoot
  refine sat_andThen (sat_forEach _ _ (fun link _ s hs => ?_) _ hs) (fun s hs => ?_)
  · split
    · exact hs
    · next r hr =>
      refine hlink r mark s hs ?_
      obtain ⟨n, hn, hi⟩ := Option.bind_eq_some.1 hr
      exact List.mem_append_left _ (List.mem_filterMap.2 ⟨n, List.get?_mem hn, hi⟩)
  refine sat_andThen (sat_forEach _ _ (fun template _ s hs => ?_) _ hs) (fun s hs => ?_)
  · split
    · exact hs
    · next r hr =>
      refine hlink r mark s hs ?_
      obtain ⟨n, hn, hi⟩ := Option.bind_eq_some.1 hr
      exact List.mem_append_right _ (List.mem_filterMap.2 ⟨n, List.get?_mem hn, hi⟩)
  refine sat_andThen ?_ (fun s hs => ?_)
  · split
    · exact sat_processElement P budget recurse hrec data root s hs
    · exact hs
  refine sat_andThen (sat_forEach _ _
    (fun el _ s hs => sat_processElement P budget recurse hrec data el s hs) _ hs)
    (fun s hs => ?_)
  split
  · exact P.mark s _ hs
  · exact hs



theorem rootsOf_append (t u : List Event) : rootsOf (t ++ u) = rootsOf t ++ rootsOf u := by
  simp [rootsOf, List.filterMap_append]

/-- The invariant `NoRootTwice` does not depend on the heap or the console. -/
theorem preserved_noRootTwice (B : Builtins) :
    Preserved B NoRootTwice (fun _ => True) True True where
  log := fun s c h => h
  traced := fun s name el h => by
    simpa [NoRootTwice, rootsOf_append, rootsOf] using h
  text := fun s el v h => h
  option := fun s sel t v h => h
  attr := fun s el name v h _ => h
  assign := fun s el inner last v h _ => h
  mark := fun s ids h => h
  safe := fun s el attr _ _ part _ name expr _ => ⟨trivial, fun _ _ => trivial⟩
  diverge := fun _ => trivial

theorem noRootTwice_visit (s : State) (root : Nat) (h : NoRootTwice s)
    (hroot : root ∉ s.visited) :
    NoRootTwice { s with visited := s.visited ++ [root], trace := s.trace ++ [.root root] } := by
  obtain ⟨h1, h2⟩ := h
  refine ⟨?_, ?_⟩
  · simp only [rootsOf_append]
    have : rootsOf [Event.root root] = [root] := rfl
    rw [this]
    refine List.Nodup.append h1 (List.nodup_singleton _) ?_
    intro a ha hb
    simp at hb
    subst hb
    exact hroot (h2 _ ha)
  · intro r hr
    simp only [rootsOf_append, List.mem_append] at hr
    rcases hr with hr | hr
    · exact List.mem_append_left _ (h2 r hr)
    · have : rootsOf [Event.root root] = [root] := rfl
      rw [this] at hr
      exact List.mem_append_right _ hr

/-- A run keeps `NoRootTwice`, however it ends. -/
theorem sat_noRootTwice (B : Builtins) (data : LoadTimeData) :
    ∀ fuel root mark s, NoRootTwice s →
      (processWithoutCycles B data fuel root mark s).Sat NoRootTwice True := by
  intro fuel
  induction fuel with
  | zero => intro root mark s _; trivial
  | succ fuel ih =>
    intro root mark s hs
    unfold processWithoutCycles
    split
    · exact hs
    · next hroot =>
      exact sat_processRoot (preserved_noRootTwice B) data fuel _
        (fun _ child s hs => ih child false s hs)
        (fun r mark s hs _ => ih r mark s hs) root mark _ (noRootTwice_visit s root hs hroot)


/-! ### Termination -/

theorem potentialRoots_updateNode (f : Node → Node)
    (hf : ∀ n, (f n).imported = n.imported ∧ (f n).content = n.content) :
    ∀ nodes id, potentialRoots (updateNode f nodes id) = potentialRoots nodes := by
  have h1 : ∀ nodes id, (updateNode f nodes id).filterMap (·.imported) =
      nodes.filterMap (·.imported) := by
    intro nodes
    induction nodes with
    | nil => intro id; rfl
    | cons n ns ih =>
      intro id
      cases id with
      | zero => simp [updateNode, List.filterMap_cons, (hf n).1]
      | succ id => simp [updateNode, List.filterMap_cons, ih id]
  have h2 : ∀ nodes id, (updateNode f nodes id).filterMap (·.content) =
      nodes.filterMap (·.content) := by
    intro nodes
    induction nodes with
    | nil => intro id; rfl
    | cons n ns ih =>
      intro id
      cases id with
      | zero => simp [updateNode, List.filterMap_cons, (hf n).2]
      | succ id => simp [updateNode, List.filterMap_cons, ih id]
  intro nodes id
  simp only [potentialRoots, h1, h2]

theorem noInjection_updateNode (f : Node → Node)
    (hf : ∀ n, injectionFree n = true → injectionFree (f n) = true) :
    ∀ nodes id, noInjection nodes = true → noInjection (updateNode f nodes id) = true := by
  intro nodes
  induction nodes with
  | nil => intro id h; exact h
  | cons n ns ih =>
    intro id h
    simp only [noInjection, List.all_cons, Bool.and_eq_true] at h ih
    cases id with
    | zero =>
      simp only [noInjection, updateNode, List.all_cons, Bool.and_eq_true]
      exact ⟨hf n h.1, h.2⟩
    | succ id =>
      simp only [noInjection, updateNode, List.all_cons, Bool.and_eq_true]
      exact ⟨h.1, ih id h.2⟩

theorem potentialRoots_append (nodes extra : List Node)
    (h : ∀ n ∈ extra, n.imported = none ∧ n.content = none) :
    potentialRoots (nodes ++ extra) = potentialRoots nodes := by
  have h1 : extra.filterMap (·.imported) = [] := by
    rw [List.filterMap_eq_nil_iff]
    exact fun n hn => (h n hn).1
  have h2 : extra.filterMap (·.content) = [] := by
    rw [List.filterMap_eq_nil_iff]
    exact fun n hn => (h n hn).2
  simp [potentialRoots, List.filterMap_append, h1, h2]

theorem noInjection_append (nodes extra : List Node) (h : noInjection nodes = true)
    (he : ∀ n ∈ extra, injectionFree n = true) : noInjection (nodes ++ extra) = true := by
  simp only [noInjection, List.all_append, Bool.and_eq_true, List.all_eq_true] at h ⊢
  exact ⟨h, he⟩

theorem find_setAttr (name value k : JSString) (hk : name ≠ k) :
    ∀ attrs : List (JSString × JSString),
      (setAttr name value attrs).find? (fun a => a.1 == k) = attrs.find? (fun a => a.1 == k) := by
  intro attrs
  induction attrs with
  | nil => simp [setAttr, List.find?_cons, hk]
  | cons a attrs ih =>
    obtain ⟨k0, x⟩ := a
    by_cases h : k0 = name
    · subst h
      simp [setAttr, List.find?_cons, hk]
    · by_cases h' : k0 = k
      · subst h'
        simp [setAttr, h, List.find?_cons]
      · simp [setAttr, h, List.find?_cons, h', ih]

/-- A change of a node that keeps its links and its attributes keeps the
two properties of the heap. -/
theorem frame_updateNode (f : Node → Node)
    (hl : ∀ n, (f n).imported = n.imported ∧ (f n).content = n.content)
    (ha : ∀ n, injectionFree n = true → injectionFree (f n) = true)
    (nodes : List Node) (id : Nat) (P0 : List Nat)
    (h : potentialRoots nodes = P0 ∧ noInjection nodes = true) :
    potentialRoots (updateNode f nodes id) = P0 ∧ noInjection (updateNode f nodes id) = true :=
  ⟨(potentialRoots_updateNode f hl nodes id).trans h.1, noInjection_updateNode f ha nodes id h.2⟩

theorem frame_setTextContent (B : Builtins) (el : Nat) (v : JSValue) (nodes : List Node)
    (P0 : List Nat) (h : potentialRoots nodes = P0 ∧ noInjection nodes = true) :
    potentialRoots (setTextContent B el v nodes) = P0 ∧
      noInjection (setTextContent B el v nodes) = true := by
  unfold setTextContent
  simp only
  split
  · exact frame_updateNode _ (by intro n; exact ⟨rfl, rfl⟩) (by intro n hn; exact hn) nodes el P0 h
  · refine frame_updateNode _ (by intro n; exact ⟨rfl, rfl⟩) (by intro n hn; exact hn) _ el P0 ⟨?_, ?_⟩
    · rw [potentialRoots_append _ _ (by simp)]
      exact h.1
    · exact noInjection_append _ _ h.2 (by simp [injectionFree])

theorem frame_setAttribute (el : Nat) (name value : JSString) (nodes : List Node)
    (P0 : List Nat) (hname : name ≠ utf16 "i18n-values")
    (h : potentialRoots nodes = P0 ∧ noInjection nodes = true) :
    potentialRoots (setAttribute el name value nodes) = P0 ∧
      noInjection (setAttribute el name value nodes) = true := by
  unfold setAttribute
  refine frame_updateNode _ (by intro n; exact ⟨rfl, rfl⟩) ?_ nodes el P0 h
  intro n hn
  unfold injectionFree at hn ⊢
  simp only
  rw [find_setAttr name value _ hname]
  exact hn

theorem frame_markProcessed (ids : List Nat) :
    ∀ (nodes : List Node) (P0 : List Nat),
      potentialRoots nodes = P0 ∧ noInjection nodes = true →
      potentialRoots (markProcessed ids nodes) = P0 ∧
        noInjection (markProcessed ids nodes) = true := by
  induction ids with
  | nil => intro nodes P0 h; exact h
  | cons id ids ih =>
    intro nodes P0 h
    simp only [markProcessed, List.foldl_cons] at ih ⊢
    exact ih _ P0 (frame_setAttribute id _ _ nodes P0 (by decide) h)

theorem injectionFree_option (n : Node)
    (h : n.attrs = [] ∨ ∃ x, n.attrs = [(utf16 "value", x)]) : injectionFree n = true := by
  unfold injectionFree
  rcases h with h | ⟨x, h⟩
  · rw [h]
    rfl
  · rw [h]
    have : (utf16 "value" == utf16 "i18n-values") = false := by decide
    simp only [List.find?_cons, this, List.find?_nil, Option.map_none']

theorem frame_newOption (t v : Option JSString) (nodes : List Node)
    (P0 : List Nat) (h : potentialRoots nodes = P0 ∧ noInjection nodes = true) :
    potentialRoots (newOption t v nodes).1 = P0 ∧ noInjection (newOption t v nodes).1 = true := by
  have key : ∀ attrs : List (JSString × JSString),
      (attrs = [] ∨ ∃ x, attrs = [(utf16 "value", x)]) →
      ∀ extra : List Node, (∀ n ∈ extra, (n.imported = none ∧ n.content = none) ∧
        (n.attrs = attrs ∨ n.attrs = [])) →
      potentialRoots (nodes ++ extra) = P0 ∧ noInjection (nodes ++ extra) = true := by
    intro attrs ha extra he
    refine ⟨?_, ?_⟩
    · rw [potentialRoots_append _ _ (fun n hn => (he n hn).1)]
      exact h.1
    · refine noInjection_append _ _ h.2 (fun n hn => injectionFree_option n ?_)
      rcases (he n hn).2 with h1 | h1
      · rw [h1]; exact ha
      · exact Or.inl h1
  unfold newOption
  cases v with
  | none =>
    simp only
    split
    · exact key [] (Or.inl rfl) _ (by simp)
    · exact key [] (Or.inl rfl) _ (by simp)
  | some x =>
    simp only
    split
    · exact key [(utf16 "value", x)] (Or.inr ⟨x, rfl⟩) _ (by simp)
    · exact key [(utf16 "value", x)] (Or.inr ⟨x, rfl⟩) _ (by simp)

theorem frame_appendOption (sel : Nat) (t v : Option JSString) (nodes : List Node)
    (P0 : List Nat) (h : potentialRoots nodes = P0 ∧ noInjection nodes = true) :
    potentialRoots (appendChild sel (newOption t v nodes).2 (newOption t v nodes).1) = P0 ∧
      noInjection (appendChild sel (newOption t v nodes).2 (newOption t v nodes).1) = true := by
  unfold appendChild
  exact frame_updateNode _ (by intro n; exact ⟨rfl, rfl⟩) (by intro n hn; exact hn) _ sel P0
    (frame_newOption t v nodes P0 h)

theorem frame_assignTarget (B : Builtins) (el : Nat) (inner : List JSString) (last : JSString)
    (v : JSValue) (nodes : List Node) (P0 : List Nat) (hlast : last ≠ utf16 "innerHTML")
    (h : potentialRoots nodes = P0 ∧ noInjection nodes = true) :
    potentialRoots (assignTarget B el inner last v nodes) = P0 ∧
      noInjection (assignTarget B el inner last v nodes) = true := by
  unfold assignTarget
  split
  · next hc => exact absurd hc.2 hlast
  · split
    · exact frame_setTextContent B el v nodes P0 h
    · refine frame_updateNode _ ?_ ?_ nodes el P0 h
      · intro n
        split <;> exact ⟨rfl, rfl⟩
      · intro n hn
        split
        · exact hn
        · exact hn


theorem safeTarget_ne (name : JSString) (h : safeTarget name = true) :
    name ≠ utf16 "i18n-values" := by
  intro hn
  subst hn
  revert h
  decide

theorem preserved_terminating (B : Builtins) (V P0 : List Nat) :
    Preserved B (Terminating V P0) (fun name => safeTarget name = true) False False where
  log := fun s c h => h
  traced := fun s name el h => h
  text := fun s el v h => ⟨h.1, frame_setTextContent B el v s.nodes P0 h.2⟩
  option := fun s sel t v h => ⟨h.1, frame_appendOption sel t v s.nodes P0 h.2⟩
  attr := fun s el name v h hn =>
    ⟨h.1, frame_setAttribute el name v s.nodes P0 (safeTarget_ne name hn) h.2⟩
  assign := fun s el inner last v h hl =>
    ⟨h.1, frame_assignTarget B el inner last v s.nodes P0 (fun e => hl e) h.2⟩
  mark := fun s ids h => ⟨h.1, frame_markProcessed ids s.nodes P0 h.2⟩
  safe := by
    intro s el attr h hattr part hpart name expr hm
    have hsafe : safeValues attr = true := by
      unfold getAttribute at hattr
      split at hattr
      · next n hn =>
        have hmem : n ∈ s.nodes := List.get?_mem hn
        have := List.all_eq_true.1 h.2.2 n hmem
        unfold injectionFree at this
        rw [hattr] at this
        exact this
      · exact absurd hattr (by simp)
    have := List.all_eq_true.1 hsafe part hpart
    rw [hm] at this
    simp only at this
    refine ⟨this, fun hdot hlast => ?_⟩
    unfold safeTarget at this
    simp only [hdot, hlast, beq_self_eq_true, Bool.and_self, Bool.not_true, Bool.and_false,
      Bool.false_eq_true] at this
  diverge := fun h => h

theorem unvisitedRoots_lt (s s2 : State) (root r : Nat) (hroot : root ∉ s.visited)
    (hV : s.visited ++ [root] ⊆ s2.visited)
    (hP : potentialRoots s2.nodes = potentialRoots s.nodes)
    (hr : r ∈ potentialRoots s2.nodes) :
    unvisitedRoots s2 r < unvisitedRoots s root := by
  unfold unvisitedRoots
  apply Finset.card_lt_card
  rw [Finset.ssubset_iff_of_subset]
  · refine ⟨root, ?_, ?_⟩
    · simp [hroot]
    · simp only [Finset.mem_sdiff, List.mem_toFinset, not_and, not_not]
      intro _
      exact hV (List.mem_append_right _ (List.mem_singleton_self _))
  · intro x hx
    simp only [Finset.mem_sdiff, Finset.mem_insert, List.mem_toFinset] at hx ⊢
    obtain ⟨hx1, hx2⟩ := hx
    refine ⟨Or.inr ?_, fun hxv => hx2 (hV (List.mem_append_left _ hxv))⟩
    rcases hx1 with rfl | hx1
    · rw [← hP]; exact hr
    · rw [← hP]; exact hx1

/-- On a heap without injection a run with more fuel than unvisited roots
ends with its root in `visited`, and it keeps the reachable roots and the
absence of injection. -/
theorem sat_terminating (B : Builtins) (data : LoadTimeData) :
    ∀ fuel root mark s, noInjection s.nodes = true → unvisitedRoots s root < fuel →
      (processWithoutCycles B data fuel root mark s).Sat
        (Terminating (s.visited ++ [root]) (potentialRoots s.nodes)) False := by
  intro fuel
  induction fuel with
  | zero => intro root mark s _ h; exact absurd h (Nat.not_lt_zero _)
  | succ fuel ih =>
    intro root mark s hs hfuel
    unfold processWithoutCycles
    split
    · next hroot =>
      refine ⟨fun x hx => ?_, rfl, hs⟩
      rcases List.mem_append.1 hx with hx | hx
      · exact hx
      · rw [List.mem_singleton.1 hx]
        exact hroot
    · next hroot =>
      exact sat_processRoot
        (preserved_terminating B (s.visited ++ [root]) (potentialRoots s.nodes)) data fuel
        (processWithoutCycles B data fuel) (fun h => h.elim)
        (fun r mark s2 hs2 hr => by
          have hlt := unvisitedRoots_lt s s2 root r hroot hs2.1 hs2.2.1 hr
          refine sat_imp (ih r mark s2 hs2.2.2 (by omega)) (fun s3 h3 => ?_)
          exact ⟨fun x hx => h3.1 (List.mem_append_left _ (hs2.1 hx)),
            h3.2.1.trans hs2.2.1, h3.2.2⟩)
        root mark
        { s with visited := s.visited ++ [root], trace := s.trace ++ [.root root] }
        ⟨fun _ h => h, rfl, hs⟩

theorem unvisitedRoots_le (s : State) (root : Nat) :
    unvisitedRoots s root ≤ 2 * s.nodes.length + 1 := by
  unfold unvisitedRoots
  calc ((insert root (potentialRoots s.nodes).toFinset) \ s.visited.toFinset).card
      ≤ (insert root (potentialRoots s.nodes).toFinset).card :=
        Finset.card_le_card Finset.sdiff_subset
    _ ≤ (potentialRoots s.nodes).toFinset.card + 1 := Finset.card_insert_le _ _
    _ ≤ (potentialRoots s.nodes).length + 1 :=
        Nat.add_le_add_right (List.toFinset_card_le _) 1
    _ ≤ 2 * s.nodes.length + 1 := by
        have h1 := List.length_filterMap_le (fun n : Node => n.imported) s.nodes
        have h2 := List.length_filterMap_le (fun n : Node => n.content) s.nodes
        simp only [potentialRoots, List.length_append]
        omega

/-- C9. On a finite heap whose roots are linked by import references and
template inclusion only (no values pair injects markup), `process(root, data)`
terminates, imports that reference each other included: with fuel above twice
the number of nodes plus one the run returns or throws, and never runs out of
fuel. Every call of `processWithoutCycles` that passes the guard adds its root
to `visited`, so the number of unvisited reachable roots bounds the depth; a
run that returns has its root in `visited`. -/
theorem process_terminates (B : Builtins) (data : LoadTimeData) (root : Nat) (s : State)
    (h : noInjection s.nodes = true) (fuel : Nat) (hfuel : 2 * s.nodes.length + 2 ≤ fuel) :
    (∃ s', process B data fuel root s = .done s' ∧ root ∈ s'.visited) ∨
      (∃ e s', process B data fuel root s = .thrown e s') := by
  have hle := unvisitedRoots_le { s with visited := [], trace := [] } root
  have := sat_terminating B data fuel root true { s with visited := [], trace := [] } h
    (by simp only at hle; omega)
  unfold process
  cases hres : processWithoutCycles B data fuel root true { s with visited := [], trace := [] } with
  | done s' =>
    rw [hres] at this
    exact Or.inl ⟨s', rfl, this.1 (List.mem_append_right _ (List.mem_singleton_self _))⟩
  | thrown e s' => exact Or.inr ⟨e, s', rfl⟩
  | diverged =>
    rw [hres] at this
    exact this.elim

/-- An instance of C9: two documents that import each other. -/
theorem process_terminates_witness :
    noInjection mutualImports = true ∧ 2 * mutualImports.length + 2 ≤ 12 ∧
    ((∃ s', process plainHost optionStore 12 0 { nodes := mutualImports } = .done s' ∧
        0 ∈ s'.visited) ∨
      (∃ e s', process plainHost optionStore 12 0 { nodes := mutualImports } = .thrown e s')) :=
  ⟨by decide, by decide,
   process_terminates plainHost optionStore 0 { nodes := mutualImports } (by decide) 12
     (by decide)⟩

/-- C10. A call of `processWithoutCycles` on a root that is already in
`visited` returns at once and leaves the heap, `visited` and the console as
they were, without an error. Within one `process` call no root is processed
twice: however the call ends, the roots whose processing started are pairwise
distinct and all in `visited`. For two documents that import each other, the
second holding a `select` with an options marker, `process` visits each
document once, calls one handler on the `select` once, and the `select` gets
its two options once. -/
theorem no_root_processed_twice (B : Builtins) (data : LoadTimeData) (fuel root : Nat)
    (mark : Bool) (s : State) :
    (root ∈ s.visited → processWithoutCycles B data (fuel + 1) root mark s = .done s) ∧
    (process B data fuel root s).Sat NoRootTwice True ∧
    (process plainHost optionStore 4 0 { nodes := mutualImports }).returned?.map
        (fun s' => (s'.visited, rootsOf s'.trace, handlerCalls s'.trace 4,
          childNodes s'.nodes 4)) =
      some ([0, 2], [0, 2], 1, [5, 7]) := by
  refine ⟨fun h => ?_, ?_, by decide⟩
  · simp [processWithoutCycles, h]
  · exact sat_noRootTwice B data fuel root true _
      ⟨List.nodup_nil, fun r hr => absurd hr (List.not_mem_nil r)⟩

/-- An instance of C10: in the two documents that import each other, with
both already visited, a call on the second document changes nothing. -/
theorem no_root_processed_twice_witness :
    2 ∈ [0, 2] ∧
    processWithoutCycles plainHost optionStore (3 + 1) 2 true
        { nodes := mutualImports, visited := [0, 2] } =
      .done { nodes := mutualImports, visited := [0, 2] } :=
  ⟨by decide,
   (no_root_processed_twice plainHost optionStore 3 2 true
     { nodes := mutualImports, visited := [0, 2] }).1 (by decide)⟩

/-! ### A run that does not end -/

theorem nodeAt_updateNode_same (f : Node → Node) :
    ∀ (nodes : List Node) (id : Nat), nodeAt (updateNode f nodes id) id = (nodeAt nodes id).map f := by
  intro nodes
  induction nodes with
  | nil => intro id; rfl
  | cons n ns ih =>
    intro id
    cases id with
    | zero => rfl
    | succ id => simpa [nodeAt, updateNode] using ih id

theorem nodeAt_updateNode_other (f : Node → Node) :
    ∀ (nodes : List Node) (id j : Nat), j ≠ id →
      nodeAt (updateNode f nodes id) j = nodeAt nodes j := by
  intro nodes
  induction nodes with
  | nil => intro id j _; rfl
  | cons n ns ih =>
    intro id j hj
    cases id with
    | zero =>
      cases j with
      | zero => exact absurd rfl hj
      | succ j => rfl
    | succ id =>
      cases j with
      | zero => rfl
      | succ j => simpa [nodeAt, updateNode] using ih id j (by omega)

theorem length_updateNode (f : Node → Node) :
    ∀ (nodes : List Node) (id : Nat), (updateNode f nodes id).length = nodes.length := by
  intro nodes
  induction nodes with
  | nil => intro id; rfl
  | cons n ns ih =>
    intro id
    cases id with
    | zero => rfl
    | succ id => simp [updateNode, ih id]

theorem done_andThen (s : State) (k : State → Result) : (Result.done s).andThen k = k s := rfl

theorem andThen_done (r : Result) : r.andThen Result.done = r := by
  cases r <;> rfl

theorem descendantsTo_nil (nodes : List Node) (depth : Nat) : descendantsTo nodes depth [] = [] := by
  cases depth <;> rfl

theorem processElement_injecting (budget : Nat) (recurse : Nat → Bool → State → Result)
    (el : Nat) (s : State) (n : Node) (hn : nodeAt s.nodes el = some n)
    (ha : n.attrs = injectingAttrs) :
    processElement reinjectingHost budget recurse reinjectingStore el s =
      reprocessChildren recurse el budget 0
        { s with
          trace := s.trace ++ [.handler (utf16 "i18n-values") el],
          nodes := setInnerHTML reinjectingHost el (.string injectingMarkup) s.nodes } := by
  have g1 : getAttribute s.nodes el (utf16 "i18n-content") = none := by
    simp only [getAttribute, hn, ha]; decide
  have g2 : getAttribute s.nodes el (utf16 "i18n-options") = none := by
    simp only [getAttribute, hn, ha]; decide
  have g3 : getAttribute s.nodes el (utf16 "i18n-values") = some (utf16 ".innerHTML:k") := by
    simp only [getAttribute, hn, ha]; decide
  clear ha
  have p1 : splitOn 59 ((utf16 ".innerHTML:k").filter fun c => !isWhiteSpace c) =
      [utf16 ".innerHTML:k"] := by decide
  have p2 : matchPair (utf16 ".innerHTML:k") = some (utf16 ".innerHTML", utf16 "k") := by decide
  have p3 : reinjectingStore.getValue (utf16 "k") =
      { completion := .normal (.string injectingMarkup), console := [] } := by decide
  have p4 : (utf16 ".innerHTML").head? = some 46 := by decide
  have p5 : splitLast (splitOn 46 ((utf16 ".innerHTML").drop 1)) = ([], utf16 "innerHTML") := by
    decide
  have p6 : (utf16 ".innerHTML:k" = []) = False := by simp; decide
  have c1 : (utf16 "i18n-values" = utf16 "i18n-content") = False := by simp; decide
  have c2 : (utf16 "i18n-values" = utf16 "i18n-options") = False := by simp; decide
  have p7 : (utf16 "innerHTML" = utf16 "innerHTML") = True := eq_self _
  unfold processElement attributeNames callHandler
  generalize utf16 ".innerHTML:k" = A at *
  generalize utf16 ".innerHTML" = T at *
  generalize utf16 "i18n-values" = V at *
  generalize utf16 "i18n-content" = C at *
  generalize utf16 "i18n-options" = O at *
  simp only [forEach, g1, g2, g3, done_andThen,
    c1, c2, if_false, handlers_i18n_values, p1, applyValuesPart, p6, p2, p3, p4, if_true, p5,
    assignPath, hn, walkPath, ToBoolean, State.log, List.append_nil, assignTarget, and_self,
    andThen_done]


theorem nodeAt_append_left (nodes extra : List Node) (el : Nat) (h : el < nodes.length) :
    nodeAt (nodes ++ extra) el = nodeAt nodes el := by
  unfold nodeAt
  simp [List.getElem?_append_left h]

theorem children_setInnerHTML (el : Nat) (nodes : List Node) (n : Node)
    (hn : nodeAt nodes el = some n) :
    elementChildren (setInnerHTML reinjectingHost el (.string injectingMarkup) nodes) el =
      [nodes.length] ∧
    nodeAt (setInnerHTML reinjectingHost el (.string injectingMarkup) nodes) nodes.length =
      some { kind := .element, tag := utf16 "span", attrs := injectingAttrs } ∧
    (setInnerHTML reinjectingHost el (.string injectingMarkup) nodes).length =
      nodes.length + 1 := by
  have hlt : el < nodes.length := by
    unfold nodeAt at hn
    exact (List.get?_eq_some.1 hn).1
  have hne : nodes.length ≠ el := by omega
  have hp : reinjectingHost.parseHTML (ToString reinjectingHost (.string injectingMarkup)) =
      { nodes := [{ kind := .element, tag := utf16 "span", attrs := injectingAttrs }],
        roots := [0] } := by
    simp [reinjectingHost, ToString]
  have hnew : nodeAt (setInnerHTML reinjectingHost el (.string injectingMarkup) nodes)
      nodes.length =
      some { kind := .element, tag := utf16 "span", attrs := injectingAttrs } := by
    unfold setInnerHTML
    simp only [hp]
    rw [nodeAt_updateNode_other _ _ _ _ hne]
    simp [nodeAt, Node.shift]
  refine ⟨?_, hnew, ?_⟩
  · unfold elementChildren childNodes
    have hsame : nodeAt (setInnerHTML reinjectingHost el (.string injectingMarkup) nodes) el =
        some { n with children := [nodes.length] } := by
      unfold setInnerHTML
      simp only [hp]
      rw [nodeAt_updateNode_same]
      rw [nodeAt_append_left _ _ _ hlt, hn]
      simp
    rw [hsame]
    simp [isElement, hnew]
  · unfold setInnerHTML
    simp [length_updateNode, hp]


/-- A run on an element that assigns its own `innerHTML`, under the
re-injecting host, runs out of any fuel: each level injects a new such
element and calls `processWithoutCycles` on it. -/
theorem diverges_on_injecting :
    ∀ (fuel : Nat) (s : State) (el : Nat) (n : Node), nodeAt s.nodes el = some n →
      n.kind = .element → n.attrs = injectingAttrs → n.children = [] → el ∉ s.visited →
      (∀ v ∈ s.visited, v < s.nodes.length) →
      processWithoutCycles reinjectingHost reinjectingStore fuel el false s = .diverged := by
  intro fuel
  induction fuel with
  | zero => intro s el n _ _ _ _ _ _; rfl
  | succ fuel ih =>
    intro s el n hn hk ha hc hv hlt
    have hd : descendants s.nodes el = [] := by
      simp [descendants, childNodes, hn, hc, descendantsTo_nil]
    have hel : isElement s.nodes el = true := by simp [isElement, hn, hk]
    have hm : matchesSelector s.nodes el = true := by
      have : getAttribute s.nodes el (utf16 "i18n-values") = some (utf16 ".innerHTML:k") := by
        simp only [getAttribute, hn, ha]; decide
      simp [matchesSelector, hel, attributeNames, this]
    unfold processWithoutCycles
    rw [if_neg hv]
    unfold processRoot
    simp only [hd, List.filter_nil, forEach, done_andThen, hel, hm, Bool.and_self, if_true]
    rw [processElement_injecting fuel _ el
      { s with visited := s.visited ++ [el], trace := s.trace ++ [.root el] } n hn ha]
    obtain ⟨h1, h2, h3⟩ := children_setInnerHTML el s.nodes n hn
    cases fuel with
    | zero => rfl
    | succ fuel =>
      unfold reprocessChildren
      simp only [h1, List.get?_cons_zero]
      have hlen : el < s.nodes.length := by
        unfold nodeAt at hn
        exact (List.get?_eq_some.1 hn).1
      rw [ih _ s.nodes.length _ h2 rfl rfl rfl]
      · rfl
      · simp only [List.mem_append, List.mem_singleton, not_or]
        exact ⟨fun h => absurd (hlt _ h) (Nat.lt_irrefl _), by omega⟩
      · intro v hv'
        simp only [h3]
        simp only [List.mem_append, List.mem_singleton] at hv'
        rcases hv' with h | h
        · exact Nat.lt_succ_of_lt (hlt v h)
        · omega

/-- Roots that an `innerHTML` assignment creates are not linked by an import
or a template, and with them a run need not end: on a page whose `div` assigns
its `innerHTML` markup that does the same, `process` runs out of every amount
of fuel. -/
theorem process_diverges_on_reinjection (fuel : Nat) :
    process reinjectingHost reinjectingStore fuel 0 { nodes := reinjectingPage } = .diverged := by
  cases fuel with
  | zero => rfl
  | succ fuel =>
    have hd : descendants reinjectingPage 0 = [1] := by decide
    have hl : isImportLink reinjectingPage 1 = false := by decide
    have ht : isTemplate reinjectingPage 1 = false := by decide
    have he : isElement reinjectingPage 0 = false := by decide
    have hm : matchesSelector reinjectingPage 1 = true := by decide
    unfold process processWithoutCycles
    rw [if_neg (by simp)]
    unfold processRoot
    simp only [hd, List.filter_cons, hl, ht, hm, List.filter_nil, forEach, done_andThen, he,
      Bool.false_and, Bool.false_eq_true, if_false, if_true]
    rw [processElement_injecting fuel _ 1
      { nodes := reinjectingPage, visited := [] ++ [0], trace := [] ++ [.root 0] } _ (by rfl) rfl]
    obtain ⟨h1, h2, h3⟩ := children_setInnerHTML 1 reinjectingPage _
      (by rfl)
    cases fuel with
    | zero => rfl
    | succ fuel =>
      unfold reprocessChildren
      simp only [h1, List.get?_cons_zero]
      rw [diverges_on_injecting _ _ _ _ h2 rfl rfl rfl]
      · rfl
      · decide
      · intro v hv
        simp only [h3]
        simp only [List.nil_append, List.mem_singleton] at hv
        subst hv
        decide

/-! ## Theorems: the handlers -/

theorem forEach_append {α : Type} (f : α → State → Result) (xs ys : List α) (s : State) :
    forEach f (xs ++ ys) s = (forEach f xs s).andThen (forEach f ys) := by
  induction xs generalizing s with
  | nil => rfl
  | cons x xs ih =>
    simp only [List.cons_append, forEach]
    cases f x s with
    | done s1 => exact ih s1
    | thrown e s1 => rfl
    | diverged => rfl

theorem andThen_thrown_absorb (r : Result) (e : JSError) (k : State → Result) :
    (r.andThen fun s' => Result.thrown e s').andThen k =
      r.andThen fun s' => Result.thrown e s' := by
  cases r <;> rfl

/-- The values handler on an attribute string with a malformed part: the parts
before it are applied, then the error is thrown in the state they leave. -/
theorem handlers_i18n_values_malformed (B : Builtins) (budget : Nat)
    (recurse : Nat → Bool → State → Result) (data : LoadTimeData) (element : Nat)
    (attributeAndKeys : JSString) (pre post : List JSString) (bad : JSString)
    (hparts : splitOn 59 (attributeAndKeys.filter fun c => !isWhiteSpace c) = pre ++ bad :: post)
    (hbad : bad ≠ []) (hmal : matchPair bad = none) (s : State) :
    handlers_i18n_values B budget recurse element attributeAndKeys data s =
      (forEach (applyValuesPart B budget recurse element attributeAndKeys data) pre s).andThen
        fun s' => .thrown (.error (utf16 "malformed i18n-values: " ++ attributeAndKeys)) s' := by
  unfold handlers_i18n_values
  rw [hparts, forEach_append]
  congr 1
  funext s'
  simp only [forEach, applyValuesPart, hbad, if_false, hmal]
  rfl

/-- The function `processElement` on an element whose only marker is
`i18n-values`. -/
theorem processElement_values_only (B : Builtins) (budget : Nat)
    (recurse : Nat → Bool → State → Result) (data : LoadTimeData) (element : Nat)
    (attributeAndKeys : JSString) (s : State)
    (hc : getAttribute s.nodes element (utf16 "i18n-content") = none)
    (ho : getAttribute s.nodes element (utf16 "i18n-options") = none)
    (hv : getAttribute s.nodes element (utf16 "i18n-values") = some attributeAndKeys) :
    processElement B budget recurse data element s =
      handlers_i18n_values B budget recurse element attributeAndKeys data
        { s with trace := s.trace ++ [.handler (utf16 "i18n-values") element] } := by
  have c1 : (utf16 "i18n-values" = utf16 "i18n-content") = False := by simp; decide
  have c2 : (utf16 "i18n-values" = utf16 "i18n-options") = False := by simp; decide
  unfold processElement attributeNames callHandler
  generalize utf16 "i18n-values" = V at *
  generalize utf16 "i18n-content" = C at *
  generalize utf16 "i18n-options" = O at *
  simp only [forEach, hc, ho, hv, done_andThen, c1, c2, if_false, andThen_done]

/-- C11. Let the parts of an `i18n-values` string (white space removed, split
on `;`) be `pre`, then a non-empty part `bad` that is not of the form
`target:key`, then `post`. The values handler applies exactly the parts of
`pre`, in order, and then throws `malformed i18n-values`, in the state that
`pre` leaves: no part of `post` is applied. The error leaves `process`: when
the element `el` carrying the string is met in the walk over the marked
elements `before ++ el :: after` of a root without imports and templates,
`process` ends with that same error in that same state, so that no element of
`after` is processed and no completion marker is written. (A part of `pre`
that throws itself ends the handler earlier, in the same way.) -/
theorem malformed_values_part_aborts (B : Builtins) (data : LoadTimeData) (fuel root : Nat)
    (s s1 : State) (before after : List Nat) (el : Nat) (attributeAndKeys : JSString)
    (pre post : List JSString) (bad : JSString)
    (hparts : splitOn 59 (attributeAndKeys.filter fun c => !isWhiteSpace c) = pre ++ bad :: post)
    (hbad : bad ≠ []) (hmal : matchPair bad = none)
    (hlinks : (descendants s.nodes root).filter (isImportLink s.nodes) = [])
    (htemplates : (descendants s.nodes root).filter (isTemplate s.nodes) = [])
    (hroot : (isElement s.nodes root && matchesSelector s.nodes root) = false)
    (helements : (descendants s.nodes root).filter (matchesSelector s.nodes) =
      before ++ el :: after)
    (hbefore : forEach (processElement B fuel (processWithoutCycles B data fuel) data) before
      { s with visited := [root], trace := [.root root] } = .done s1)
    (hc : getAttribute s1.nodes el (utf16 "i18n-content") = none)
    (ho : getAttribute s1.nodes el (utf16 "i18n-options") = none)
    (hv : getAttribute s1.nodes el (utf16 "i18n-values") = some attributeAndKeys) :
    (∀ budget recurse element s,
      handlers_i18n_values B budget recurse element attributeAndKeys data s =
        (forEach (applyValuesPart B budget recurse element attributeAndKeys data) pre s).andThen
          fun s' => .thrown (.error (utf16 "malformed i18n-values: " ++ attributeAndKeys)) s') ∧
    process B data (fuel + 1) root s =
      (forEach (applyValuesPart B fuel (processWithoutCycles B data fuel) el attributeAndKeys data)
        pre { s1 with trace := s1.trace ++ [.handler (utf16 "i18n-values") el] }).andThen
        fun s' => .thrown (.error (utf16 "malformed i18n-values: " ++ attributeAndKeys)) s' := by
  refine ⟨fun budget recurse element s =>
    handlers_i18n_values_malformed B budget recurse data element attributeAndKeys pre post bad
      hparts hbad hmal s, ?_⟩
  unfold process processWithoutCycles
  rw [if_neg (by simp)]
  unfold processRoot
  simp only [List.nil_append, hlinks, htemplates, forEach, done_andThen, hroot,
    Bool.false_eq_true, if_false, helements]
  rw [forEach_append, hbefore]
  simp only [done_andThen, forEach]
  rw [processElement_values_only B fuel _ data el attributeAndKeys s1 hc ho hv,
    handlers_i18n_values_malformed B fuel _ data el attributeAndKeys pre post bad hparts hbad hmal]
  rw [andThen_thrown_absorb, andThen_thrown_absorb]

/-- An instance of C11: on the page whose first `span` has the values string
`title:t;badsyntax;lang:l`, `process` sets `title`, then throws; `lang` is not
set, the second `span` is not processed and nothing is marked. -/
theorem malformed_values_part_aborts_witness :
    (splitOn 59 ((utf16 "title:t;badsyntax;lang:l").filter fun c => !isWhiteSpace c) =
        [utf16 "title:t"] ++ utf16 "badsyntax" :: [utf16 "lang:l"] ∧
      matchPair (utf16 "badsyntax") = none ∧
      (descendants malformedPage 0).filter (matchesSelector malformedPage) = [] ++ 1 :: [2]) ∧
    process plainHost titleStore (0 + 1) 0 { nodes := malformedPage } =
      .thrown (.error (utf16 "malformed i18n-values: title:t;badsyntax;lang:l"))
        { nodes := setAttribute 1 (utf16 "title") (utf16 "T") malformedPage,
          visited := [0],
          trace := [.root 0, .handler (utf16 "i18n-values") 1] } :=
  ⟨⟨by decide, by decide, by decide⟩,
   (malformed_values_part_aborts plainHost titleStore 0 0 { nodes := malformedPage }
      { nodes := malformedPage, visited := [0], trace := [.root 0] } [] [2] 1
      (utf16 "title:t;badsyntax;lang:l") [utf16 "title:t"] [utf16 "lang:l"] (utf16 "badsyntax")
      (by decide) (by decide) (by decide) (by decide) (by decide) (by decide) (by decide)
      (by rfl) (by decide) (by decide) (by decide)).2.trans (by decide)⟩

theorem getProperty_normal (v : JSValue) (key : JSString) (hu : v ≠ .undefined)
    (hn : v ≠ .null) : ∃ w, getProperty v key = .normal w := by
  cases v with
  | undefined => exact absurd rfl hu
  | null => exact absurd rfl hn
  | boolean b => exact ⟨_, rfl⟩
  | number n => exact ⟨_, rfl⟩
  | string s =>
    unfold getProperty
    simp only
    split
    · exact ⟨_, rfl⟩
    · split <;> exact ⟨_, rfl⟩
  | array xs =>
    unfold getProperty
    simp only
    split
    · exact ⟨_, rfl⟩
    · split <;> exact ⟨_, rfl⟩
  | object o => exact ⟨_, rfl⟩

theorem optionArguments_normal (B : Builtins) (optionData : JSValue)
    (hu : optionData ≠ .undefined) (hn : optionData ≠ .null) :
    ∃ a, optionArguments B optionData = .normal a := by
  obtain ⟨w1, h1⟩ := getProperty_normal optionData (utf16 "1") hu hn
  obtain ⟨w0, h0⟩ := getProperty_normal optionData (utf16 "0") hu hn
  cases optionData with
  | string s => exact ⟨_, rfl⟩
  | undefined => exact absurd rfl hu
  | null => exact absurd rfl hn
  | boolean b => simp only [optionArguments, h1, h0]; exact ⟨_, rfl⟩
  | number n => simp only [optionArguments, h1, h0]; exact ⟨_, rfl⟩
  | array xs => simp only [optionArguments, h1, h0]; exact ⟨_, rfl⟩
  | object o => simp only [optionArguments, h1, h0]; exact ⟨_, rfl⟩

theorem forEach_appendOption_done (B : Builtins) (select : Nat) (entries : List JSValue)
    (h : ∀ x ∈ entries, x ≠ .undefined ∧ x ≠ .null) :
    ∀ s, ∃ s', forEach (appendOption B select) entries s = .done s' := by
  induction entries with
  | nil => intro s; exact ⟨s, rfl⟩
  | cons x xs ih =>
    intro s
    obtain ⟨a, ha⟩ := optionArguments_normal B x (h x (List.mem_cons_self _ _)).1
      (h x (List.mem_cons_self _ _)).2
    obtain ⟨s', hs'⟩ := ih (fun y hy => h y (List.mem_cons_of_mem _ hy))
      { s with nodes := appendChild select (newOption a.1 a.2 s.nodes).2
                          (newOption a.1 a.2 s.nodes).1 }
    refine ⟨s', ?_⟩
    simp only [forEach, appendOption, ha, done_andThen]
    exact hs'

theorem getValue_set_eq (m : JSObject) (key : JSString) :
    LoadTimeData.getValue { data_ := some m } key =
      { completion := .normal ((lookupOwn m key).getD .undefined),
        console := expect (typeof ((lookupOwn m key).getD .undefined) != .undefined)
          (.couldNotFind key) } := by
  simp [LoadTimeData.getValue, LoadTimeData.dataValue, getProperty, expect, ToBoolean]

/-- C12, as stated, fails: the options handler raises. On a store without the
key `opts` the options marker of the `select` makes `process` throw a
`TypeError` after the report of the missing key, and the `span` after it is
not processed; a key that holds a string makes the handler throw as well. -/
theorem options_handler_raises :
    process plainHost titleStore 1 0 { nodes := optionsPage } =
      .thrown .typeError
        { nodes := optionsPage, visited := [0],
          console := [.couldNotFind (utf16 "opts")],
          trace := [.root 0, .handler (utf16 "i18n-options") 1] } ∧
    handlers_i18n_options plainHost 1 (utf16 "t") titleStore { nodes := optionsPage } =
      .thrown .typeError { nodes := optionsPage } := by
  decide

/-- C12, amended. On a set store the content handler never raises: for every
key, present or missing and of any type, it completes, with the reports of
`getString` and the text content set. The options handler completes when the
key holds an array whose entries are neither `null` nor `undefined`; when the
key is missing or holds a value that is no array it raises a `TypeError`
after the report of `getValue`, and that error ends the walk like the error
of the values handler. -/
theorem content_completes_options_may_raise (B : Builtins) (m : JSObject) (key : JSString)
    (element : Nat) (s : State) :
    handlers_i18n_content B element key { data_ := some m } s =
      .done { s.log (LoadTimeData.getString { data_ := some m } key).console with
        nodes := setTextContent B element ((lookupOwn m key).getD .undefined) s.nodes } ∧
    (∀ entries, lookupOwn m key = some (.array entries) →
      (∀ x ∈ entries, x ≠ .undefined ∧ x ≠ .null) →
      ∃ s', handlers_i18n_options B element key { data_ := some m } s = .done s') ∧
    ((∀ entries, (lookupOwn m key).getD .undefined ≠ .array entries) →
      handlers_i18n_options B element key { data_ := some m } s =
        .thrown .typeError
          (s.log (LoadTimeData.getValue { data_ := some m } key).console)) := by
  refine ⟨?_, ?_, ?_⟩
  · simp only [handlers_i18n_content, LoadTimeData.getString, getValue_set_eq]
    rfl
  · intro entries he hok
    simp only [handlers_i18n_options, getValue_set_eq, he, Option.getD_some]
    exact forEach_appendOption_done B element entries hok _
  · intro hna
    simp only [handlers_i18n_options, getValue_set_eq]

/-- An instance of C12: the store `{opts: ["A"]}`, and the store `{}`. -/
theorem content_completes_options_may_raise_witness :
    (∃ s', handlers_i18n_options plainHost 1 (utf16 "opts")
        { data_ := some [(utf16 "opts", .array [.string (utf16 "A")])] }
        { nodes := optionsPage } = .done s') ∧
    handlers_i18n_options plainHost 1 (utf16 "opts") { data_ := some [] }
        { nodes := optionsPage } =
      .thrown .typeError
        (State.log { nodes := optionsPage }
          (LoadTimeData.getValue { data_ := some [] } (utf16 "opts")).console) :=
  ⟨(content_completes_options_may_raise plainHost
      [(utf16 "opts", .array [.string (utf16 "A")])] (utf16 "opts") 1
      { nodes := optionsPage }).2.1 [.string (utf16 "A")] (by decide) (by decide),
   (content_completes_options_may_raise plainHost [] (utf16 "opts") 1
      { nodes := optionsPage }).2.2 (by intro entries h; cases h)⟩

theorem nodeAt_lt {nodes : List Node} {id : Nat} {n : Node} (h : nodeAt nodes id = some n) :
    id < nodes.length := by
  unfold nodeAt at h
  exact (List.get?_eq_some.1 h).1

theorem nodeAt_append_length (nodes extra : List Node) (i : Nat) :
    nodeAt (nodes ++ extra) (nodes.length + i) = nodeAt extra i := by
  unfold nodeAt
  simp [List.getElem?_append_right]

theorem optionArguments_of_entry (B : Builtins) (x : JSValue) (label : JSString)
    (value : Option JSString) (h : optionOfEntry x = some (label, value)) :
    optionArguments B x = .normal (some label, value) := by
  unfold optionOfEntry at h
  split at h
  · simp only [Option.some.injEq, Prod.mk.injEq] at h
    obtain ⟨rfl, rfl⟩ := h
    rfl
  · simp only [Option.some.injEq, Prod.mk.injEq] at h
    obtain ⟨rfl, rfl⟩ := h
    have h1 : parseIndex (utf16 "1") = some 1 := by decide
    have h0 : parseIndex (utf16 "0") = some 0 := by decide
    have l1 : (utf16 "1" = utf16 "length") = False := by simp; decide
    have l0 : (utf16 "0" = utf16 "length") = False := by simp; decide
    simp [optionArguments, getProperty, h1, h0, l1, l0, optionalDOMString, ToString]
  · exact absurd h (by simp)

/-- Appending new nodes to the heap and the first of them to the children of
`select` leaves every other node as it was. -/
theorem appendChild_frame (select : Nat) (nodes extra : List Node) (n : Node)
    (hn : nodeAt nodes select = some n) :
    nodeAt (appendChild select nodes.length (nodes ++ extra)) select =
      some { n with children := n.children ++ [nodes.length] } ∧
    (appendChild select nodes.length (nodes ++ extra)).length = nodes.length + extra.length ∧
    (∀ j, j < nodes.length → j ≠ select →
      nodeAt (appendChild select nodes.length (nodes ++ extra)) j = nodeAt nodes j) ∧
    (∀ i, nodeAt (appendChild select nodes.length (nodes ++ extra)) (nodes.length + i) =
      nodeAt extra i) := by
  have hlt := nodeAt_lt hn
  unfold appendChild
  refine ⟨?_, ?_, ?_, ?_⟩
  · rw [nodeAt_updateNode_same, nodeAt_append_left _ _ _ hlt, hn]
    rfl
  · simp [length_updateNode]
  · intro j hj hjs
    rw [nodeAt_updateNode_other _ _ _ _ hjs, nodeAt_append_left _ _ _ hj]
  · intro i
    rw [nodeAt_updateNode_other _ _ _ _ (by omega), nodeAt_append_length]

/-- One turn of the options loop: the new option is the last child of the
`select`, and every other node that was there is as before. -/
theorem appendOption_step (select : Nat) (label : JSString) (value : Option JSString)
    (nodes : List Node) (n : Node) (hn : nodeAt nodes select = some n) :
    nodeAt (appendChild select (newOption (some label) value nodes).2
        (newOption (some label) value nodes).1) select =
      some { n with children := n.children ++ [nodes.length] } ∧
    nodes.length < (appendChild select (newOption (some label) value nodes).2
        (newOption (some label) value nodes).1).length ∧
    (∀ j, j < nodes.length → j ≠ select →
      nodeAt (appendChild select (newOption (some label) value nodes).2
        (newOption (some label) value nodes).1) j = nodeAt nodes j) ∧
    ∀ nodes', (∀ j, j < (appendChild select (newOption (some label) value nodes).2
          (newOption (some label) value nodes).1).length → j ≠ select →
        nodeAt nodes' j = nodeAt (appendChild select (newOption (some label) value nodes).2
          (newOption (some label) value nodes).1) j) →
      IsOption nodes' nodes.length label value := by
  have hlt := nodeAt_lt hn
  have hne : nodes.length ≠ select := by omega
  obtain ⟨extra, he1, he2, hopt⟩ : ∃ extra : List Node,
      (newOption (some label) value nodes).1 = nodes ++ extra ∧
      (newOption (some label) value nodes).2 = nodes.length ∧
      ∀ nodes', (∀ i, i < extra.length → nodeAt nodes' (nodes.length + i) = nodeAt extra i) →
        IsOption nodes' nodes.length label value := by
    cases label with
    | nil =>
      cases value with
      | none =>
        refine ⟨_, rfl, rfl, fun nodes' h => ?_⟩
        have h0 := h 0 (by simp)
        exact ⟨_, h0, rfl, rfl, rfl, Or.inl ⟨rfl, rfl⟩⟩
      | some v =>
        refine ⟨_, rfl, rfl, fun nodes' h => ?_⟩
        have h0 := h 0 (by simp)
        exact ⟨_, h0, rfl, rfl, rfl, Or.inl ⟨rfl, rfl⟩⟩
    | cons c cs =>
      cases value with
      | none =>
        refine ⟨_, rfl, rfl, fun nodes' h => ?_⟩
        have h0 := h 0 (by simp)
        have h1 := h 1 (by simp)
        exact ⟨_, h0, rfl, rfl, rfl, Or.inr ⟨by simp, nodes.length + 1, rfl, h1⟩⟩
      | some v =>
        refine ⟨_, rfl, rfl, fun nodes' h => ?_⟩
        have h0 := h 0 (by simp)
        have h1 := h 1 (by simp)
        exact ⟨_, h0, rfl, rfl, rfl, Or.inr ⟨by simp, nodes.length + 1, rfl, h1⟩⟩
  have hpos : 0 < extra.length := by
    cases extra with
    | nil =>
      have := congrArg List.length he1
      cases label <;> cases value <;> simp [newOption] at this
    | cons x xs => simp
  rw [he1, he2]
  obtain ⟨f1, f2, f3, f4⟩ := appendChild_frame select nodes extra n hn
  refine ⟨f1, by omega, f3, fun nodes' h' => hopt nodes' (fun i hi => ?_)⟩
  rw [h' (nodes.length + i) (by omega) (by omega), f4 i]

/-- The loop of the options handler over a list of strings and pairs. -/
theorem forEach_appendOption (B : Builtins) (select : Nat) :
    ∀ (entries : List JSValue) (specs : List (JSString × Option JSString)),
      entries.map optionOfEntry = specs.map some →
      ∀ (s : State) (n : Node), nodeAt s.nodes select = some n →
        ∃ s' ids, forEach (appendOption B select) entries s = .done s' ∧
          nodeAt s'.nodes select = some { n with children := n.children ++ ids } ∧
          s.nodes.length ≤ s'.nodes.length ∧
          (∀ j, j < s.nodes.length → j ≠ select → nodeAt s'.nodes j = nodeAt s.nodes j) ∧
          List.Forall₂ (fun id spec => IsOption s'.nodes id spec.1 spec.2) ids specs ∧
          s'.visited = s.visited ∧ s'.console = s.console ∧ s'.trace = s.trace := by
  intro entries
  induction entries with
  | nil =>
    intro specs hs s n hn
    cases specs with
    | nil =>
      refine ⟨s, [], rfl, ?_, Nat.le_refl _, fun _ _ _ => rfl, List.Forall₂.nil, rfl, rfl, rfl⟩
      simpa using hn
    | cons sp specs => simp at hs
  | cons x xs ih =>
    intro specs hs s n hn
    cases specs with
    | nil => simp at hs
    | cons sp specs =>
      obtain ⟨label, value⟩ := sp
      simp only [List.map_cons, List.cons.injEq] at hs
      obtain ⟨hx, hxs⟩ := hs
      obtain ⟨f1, f2, f3, f4⟩ := appendOption_step select label value s.nodes n hn
      obtain ⟨s', ids, h1, h2, h3, h4, h5, h6, h7, h8⟩ := ih specs hxs
        { s with nodes := appendChild select (newOption (some label) value s.nodes).2
                            (newOption (some label) value s.nodes).1 } _ f1
      refine ⟨s', s.nodes.length :: ids, ?_, ?_, ?_, ?_, ?_, h6, h7, h8⟩
      · simp only [forEach, appendOption, optionArguments_of_entry B x label value hx,
          done_andThen]
        exact h1
      · rw [h2]
        simp [List.append_assoc]
      · exact Nat.le_trans (Nat.le_of_lt f2) h3
      · intro j hj hjs
        rw [h4 j (Nat.lt_trans hj f2) hjs]
        exact f3 j hj hjs
      · exact List.Forall₂.cons (f4 s'.nodes h4) h5

/-- C13. For a list of bare strings and pairs `[v, l]` of strings stored under
the key, the options handler completes and appends to the target element,
after its existing children and in list order, exactly one `option` per entry:
a string `s` gives an option with the label `s` and no `value` attribute, a
pair `[v, l]` an option with the value `v` and the label `l`. The attributes
of the target and every other node that was on the heap stay as they were,
and nothing is reported. With `["A", ["v2", "B"]]` the `select` gets two
options, the first labelled `A` without value, the second with the value `v2`
and the label `B`. -/
theorem options_appended (B : Builtins) (m : JSObject) (key : JSString)
    (entries : List JSValue) (specs : List (JSString × Option JSString)) (select : Nat)
    (s : State) (n : Node) (hkey : lookupOwn m key = some (.array entries))
    (hentries : entries.map optionOfEntry = specs.map some)
    (hselect : nodeAt s.nodes select = some n) :
    (∃ s' ids, handlers_i18n_options B select key { data_ := some m } s = .done s' ∧
      nodeAt s'.nodes select = some { n with children := n.children ++ ids } ∧
      List.Forall₂ (fun id spec => IsOption s'.nodes id spec.1 spec.2) ids specs ∧
      (∀ j, j < s.nodes.length → j ≠ select → nodeAt s'.nodes j = nodeAt s.nodes j) ∧
      s'.console = s.console) ∧
    handlers_i18n_options plainHost 1 (utf16 "opts") optionStore { nodes := optionsPage } =
      .done { nodes := optionsPageDone } := by
  refine ⟨?_, by decide⟩
  obtain ⟨s', ids, h1, h2, _, h4, h5, _, h7, _⟩ :=
    forEach_appendOption B select entries specs hentries (s.log []) n hselect
  refine ⟨s', ids, ?_, h2, h5, h4, ?_⟩
  · simp only [handlers_i18n_options, getValue_set_eq, hkey, Option.getD_some, typeof, expect]
    exact h1
  · rw [h7]
    simp [State.log]

/-- An instance of C13: the list `["A", ["v2", "B"]]` on the `select` of the
options page. -/
theorem options_appended_witness :
    lookupOwn [(utf16 "opts", JSValue.array [.string (utf16 "A"),
        .array [.string (utf16 "v2"), .string (utf16 "B")]])] (utf16 "opts") =
      some (.array [.string (utf16 "A"), .array [.string (utf16 "v2"), .string (utf16 "B")]]) ∧
    [JSValue.string (utf16 "A"),
        .array [.string (utf16 "v2"), .string (utf16 "B")]].map optionOfEntry =
      [(utf16 "A", none), (utf16 "B", some (utf16 "v2"))].map some ∧
    ∃ s' ids, handlers_i18n_options plainHost 1 (utf16 "opts") optionStore
        { nodes := optionsPage } = .done s' ∧
      nodeAt s'.nodes 1 =
        some { kind := .element, tag := utf16 "select", children := [] ++ ids,
               attrs := [(utf16 "i18n-options", utf16 "opts")] } ∧
      List.Forall₂ (fun id spec => IsOption s'.nodes id spec.1 spec.2) ids
        [(utf16 "A", none), (utf16 "B", some (utf16 "v2"))] :=
  ⟨by decide, by decide,
   let ⟨s', ids, h1, h2, h3, _⟩ := (options_appended plainHost
      [(utf16 "opts", .array [.string (utf16 "A"),
        .array [.string (utf16 "v2"), .string (utf16 "B")]])] (utf16 "opts")
      [.string (utf16 "A"), .array [.string (utf16 "v2"), .string (utf16 "B")]]
      [(utf16 "A", none), (utf16 "B", some (utf16 "v2"))] 1 { nodes := optionsPage }
      { kind := .element, tag := utf16 "select",
        attrs := [(utf16 "i18n-options", utf16 "opts")] }
      (by decide) (by decide) (by rfl)).1
   ⟨s', ids, h1, h2, h3⟩⟩

theorem getProperty_primitive (w : JSValue) (seg : JSString) (hw : isPrimitive w = true) :
    getProperty w seg = .throw .typeError ∨
      ∃ w', getProperty w seg = .normal w' ∧ isPrimitive w' = true := by
  cases w with
  | undefined => exact Or.inl rfl
  | null => exact Or.inl rfl
  | boolean b => exact Or.inr ⟨_, rfl, rfl⟩
  | number n => exact Or.inr ⟨_, rfl, rfl⟩
  | string s =>
    right
    unfold getProperty
    simp only
    split
    · exact ⟨_, rfl, rfl⟩
    · split
      · split
        · exact ⟨_, rfl, rfl⟩
        · exact ⟨_, rfl, rfl⟩
      · exact ⟨_, rfl, rfl⟩
  | array xs => exact absurd hw (by simp [isPrimitive])
  | object o => exact absurd hw (by simp [isPrimitive])

/-- A walk from a primitive value never reaches an object. -/
theorem walkPath_primitive (inner : List JSString) :
    ∀ (w : JSValue), isPrimitive w = true → ∀ o, walkPath inner w ≠ some (.object o) := by
  induction inner with
  | nil =>
    intro w hw o h
    simp only [walkPath, Option.some.injEq] at h
    subst h
    simp [isPrimitive] at hw
  | cons seg more ih =>
    intro w hw o h
    unfold walkPath at h
    split at h
    · rcases getProperty_primitive w seg hw with hp | ⟨w', hp, hw'⟩
      · rw [hp] at h
        simp at h
      · rw [hp] at h
        exact ih w' hw' o h
    · simp at h

/-- The assignment at the end of a path that reaches an object is seen by
the same walk afterwards. -/
theorem walkPath_assignAt (last : JSString) (v : JSValue) (inner : List JSString) :
    ∀ (root : JSValue) (o : JSObject), walkPath inner root = some (.object o) →
      walkPath inner (assignAt last v inner root) = some (.object (assignOwn last v o)) := by
  induction inner with
  | nil =>
    intro root o h
    simp only [walkPath, Option.some.injEq] at h
    subst h
    rfl
  | cons seg more ih =>
    intro root o h
    cases root with
    | undefined => exact absurd h (walkPath_primitive _ _ (by rfl) o)
    | null => exact absurd h (walkPath_primitive _ _ (by rfl) o)
    | boolean b => exact absurd h (walkPath_primitive _ _ (by rfl) o)
    | number n => exact absurd h (walkPath_primitive _ _ (by rfl) o)
    | string s => exact absurd h (walkPath_primitive _ _ (by rfl) o)
    | object o0 =>
      simp only [walkPath, ToBoolean, if_true, getProperty] at h
      cases hl : lookupOwn o0 seg with
      | none =>
        rw [hl] at h
        exact absurd h (walkPath_primitive _ _ (by rfl) o)
      | some child =>
        rw [hl] at h
        simp only [Option.getD_some] at h
        simp only [assignAt, hl, walkPath, ToBoolean, if_true, getProperty,
          lookupOwn_assignOwn, Option.getD_some]
        exact ih child o h
    | array xs =>
      simp only [walkPath, ToBoolean, if_true, getProperty] at h
      by_cases hlen : seg = utf16 "length"
      · rw [if_pos hlen] at h
        exact absurd h (walkPath_primitive _ _ (by rfl) o)
      · rw [if_neg hlen] at h
        cases hp : parseIndex seg with
        | none =>
          rw [hp] at h
          exact absurd h (walkPath_primitive _ _ (by rfl) o)
        | some i =>
          rw [hp] at h
          simp only at h
          by_cases hi : i < xs.length
          · simp only [assignAt, hp, hi, if_true, walkPath, ToBoolean, getProperty, hlen,
              if_false]
            have : (xs.set i (assignAt last v more (xs.getD i .undefined))).getD i .undefined =
                assignAt last v more (xs.getD i .undefined) := by
              simp [List.getD_eq_getElem?_getD, hi]
            rw [this]
            exact ih _ o h
          · have : xs.getD i .undefined = .undefined := by
              simp [List.getD_eq_getElem?_getD, List.getElem?_eq_none (Nat.le_of_not_lt hi)]
            rw [this] at h
            exact absurd h (walkPath_primitive _ _ (by rfl) o)

/-- An assignment below an object leaves an object, and changes at most the
property that the path starts with. -/
theorem assignAt_object (last : JSString) (v : JSValue) (inner : List JSString)
    (p : JSObject) :
    ∃ p', assignAt last v inner (.object p) = .object p' ∧
      ∀ k, (inner ++ [last]).head? ≠ some k → lookupOwn p' k = lookupOwn p k := by
  cases inner with
  | nil =>
    refine ⟨assignOwn last v p, rfl, ?_⟩
    intro k hk
    rw [lookupOwn_assignOwn, if_neg]
    intro e
    exact hk (by simp [e])
  | cons seg more =>
    cases hl : lookupOwn p seg with
    | none => exact ⟨p, by simp [assignAt, hl], fun _ _ => rfl⟩
    | some child =>
      refine ⟨assignOwn seg (assignAt last v more child) p, by simp [assignAt, hl], ?_⟩
      intro k hk
      rw [lookupOwn_assignOwn, if_neg]
      intro e
      exact hk (by simp [e])

theorem matchPair_nil : matchPair [] = none := rfl

/-- C14: a values pair whose target is a dotted path. With the key holding
`v` in the store and `inner`, `last` the segments of the path before the last
one and the last one: when the walk from the element along `inner` reaches an
object `o`, the part completes, the same walk afterwards reaches `o` with
`last` assigned `v` and nothing else of `o` changed, the properties of the
element that the path does not start with are the same, every other node is
the same, and the console gets only the report of `getValue`; when the walk
meets a value that is not truthy, the part completes and only the console
changes. The pair `.style.color:themeColor` with `red` under `themeColor`
sets `color` in the `style` object of the element. -/
theorem values_dotted_path (B : Builtins) (budget : Nat)
    (recurse : Nat → Bool → State → Result) (element : Nat) (attributeAndKeys : JSString)
    (m : JSObject) (part propName propExpr : JSString) (v : JSValue) (n : Node) (s : State)
    (hpair : matchPair part = some (propName, propExpr))
    (hdot : propName.head? = some 46)
    (hkey : lookupOwn m propExpr = some v)
    (hn : nodeAt s.nodes element = some n) :
    (∀ o, walkPath (splitLast (splitOn 46 (propName.drop 1))).1 (.object n.props) =
          some (.object o) →
        (splitLast (splitOn 46 (propName.drop 1))).2 ≠ utf16 "innerHTML" →
        ¬ ((splitLast (splitOn 46 (propName.drop 1))).1 = [] ∧
            (splitLast (splitOn 46 (propName.drop 1))).2 = utf16 "textContent") →
        ∃ s' props',
          applyValuesPart B budget recurse element attributeAndKeys { data_ := some m } part s =
            .done s' ∧
          nodeAt s'.nodes element = some { n with props := props' } ∧
          walkPath (splitLast (splitOn 46 (propName.drop 1))).1 (.object props') =
            some (.object (assignOwn (splitLast (splitOn 46 (propName.drop 1))).2 v o)) ∧
          (∀ k, k ≠ (splitLast (splitOn 46 (propName.drop 1))).2 →
            lookupOwn (assignOwn (splitLast (splitOn 46 (propName.drop 1))).2 v o) k =
              lookupOwn o k) ∧
          lookupOwn (assignOwn (splitLast (splitOn 46 (propName.drop 1))).2 v o)
            (splitLast (splitOn 46 (propName.drop 1))).2 = some v ∧
          (∀ k, ((splitLast (splitOn 46 (propName.drop 1))).1 ++
              [(splitLast (splitOn 46 (propName.drop 1))).2]).head? ≠ some k →
            lookupOwn props' k = lookupOwn n.props k) ∧
          (∀ j, j ≠ element → nodeAt s'.nodes j = nodeAt s.nodes j) ∧
          s'.console = s.console ++ expect (typeof v != .undefined) (.couldNotFind propExpr)) ∧
    ((walkPath (splitLast (splitOn 46 (propName.drop 1))).1 (.object n.props) = none ∨
        ∃ t, walkPath (splitLast (splitOn 46 (propName.drop 1))).1 (.object n.props) = some t ∧
          ToBoolean t = false) →
      applyValuesPart B budget recurse element attributeAndKeys { data_ := some m } part s =
        .done (s.log (expect (typeof v != .undefined) (.couldNotFind propExpr)))) ∧
    handlers_i18n_values plainHost 0 (fun _ _ s => .done s) 1
        (utf16 ".style.color:themeColor") themeStore { nodes := stylePage } =
      .done { nodes := stylePageDone } := by
  have hpart : part ≠ [] := by
    intro e
    rw [e, matchPair_nil] at hpair
    cases hpair
  generalize hinner : (splitLast (splitOn 46 (propName.drop 1))).1 = inner
  generalize hlast : (splitLast (splitOn 46 (propName.drop 1))).2 = last
  have hstart : applyValuesPart B budget recurse element attributeAndKeys { data_ := some m }
      part s = assignPath B budget recurse element inner last v
        (s.log (expect (typeof v != .undefined) (.couldNotFind propExpr))) := by
    unfold applyValuesPart
    rw [if_neg hpart, hpair]
    simp only [getValue_set_eq, hkey, Option.getD_some, hdot, if_true, hinner, hlast]
  refine ⟨?_, ?_, by decide⟩
  · intro o hwalk hinnerHTML htext
    obtain ⟨p', hp', hframe⟩ := assignAt_object last v inner n.props
    refine ⟨{ (s.log (expect (typeof v != .undefined) (.couldNotFind propExpr))) with
        nodes := assignTarget B element inner last v s.nodes }, p', ?_, ?_, ?_, ?_, ?_, hframe,
      ?_, ?_⟩
    · rw [hstart]
      unfold assignPath
      simp only [State.log, hn, hwalk, ToBoolean, if_true, if_neg hinnerHTML]
    · have h1 : ¬ (inner = [] ∧ last = utf16 "innerHTML") := fun h => hinnerHTML h.2
      simp only [assignTarget, if_neg h1, if_neg htext, nodeAt_updateNode_same, hn,
        Option.map_some', hp']
    · have := walkPath_assignAt last v inner (.object n.props) o hwalk
      rw [hp'] at this
      exact this
    · intro k hk
      rw [lookupOwn_assignOwn, if_neg hk]
    · rw [lookupOwn_assignOwn, if_pos rfl]
    · intro j hj
      have h1 : ¬ (inner = [] ∧ last = utf16 "innerHTML") := fun h => hinnerHTML h.2
      simp only [assignTarget, if_neg h1, if_neg htext]
      exact nodeAt_updateNode_other _ _ _ _ hj
    · rfl
  · intro h
    rw [hstart]
    unfold assignPath
    rcases h with h | ⟨t, h, ht⟩
    · simp only [State.log, hn, h]
    · simp only [State.log, hn, h, ht]
      rfl

/-- An instance of C14: the pair `.style.color:themeColor` on the `span` of
`stylePage`, with `red` under `themeColor`. -/
theorem values_dotted_path_witness :
    matchPair (utf16 ".style.color:themeColor") =
        some (utf16 ".style.color", utf16 "themeColor") ∧
      walkPath [utf16 "style"] (.object [(utf16 "style", .object [])]) = some (.object []) ∧
      ∃ s' props',
        applyValuesPart plainHost 0 (fun _ _ s => .done s) 1 (utf16 ".style.color:themeColor")
            themeStore (utf16 ".style.color:themeColor") { nodes := stylePage } = .done s' ∧
          nodeAt s'.nodes 1 =
            some { kind := .element, tag := utf16 "span",
                   attrs := [(utf16 "i18n-values", utf16 ".style.color:themeColor")],
                   props := props' } ∧
          walkPath [utf16 "style"] (.object props') =
            some (.object [(utf16 "color", .string (utf16 "red"))]) :=
  ⟨by decide, by decide,
    match (values_dotted_path plainHost 0 (fun _ _ s => .done s) 1
        (utf16 ".style.color:themeColor") [(utf16 "themeColor", .string (utf16 "red"))]
        (utf16 ".style.color:themeColor") (utf16 ".style.color") (utf16 "themeColor")
        (.string (utf16 "red"))
        { kind := .element, tag := utf16 "span",
          attrs := [(utf16 "i18n-values", utf16 ".style.color:themeColor")],
          props := [(utf16 "style", .object [])] }
        { nodes := stylePage } (by decide) (by decide) (by decide) (by decide)).1 []
        (by decide) (by decide) (by decide) with
    | ⟨s', props', h1, h2, h3, _⟩ => ⟨s', props', h1, h2, h3⟩⟩

theorem find_setAttr_same (name value : JSString) :
    ∀ attrs : List (JSString × JSString),
      ((setAttr name value attrs).find? (fun a => a.1 == name)).map Prod.snd = some value := by
  intro attrs
  induction attrs with
  | nil => simp [setAttr, List.find?_cons]
  | cons a attrs ih =>
    obtain ⟨k, x⟩ := a
    by_cases h : k = name
    · simp [setAttr, h, List.find?_cons]
    · simp only [setAttr, if_neg h, List.find?_cons]
      have : ((k == name) = false) := by simpa using h
      rw [this]
      exact ih

/-- C15: a values pair whose target does not start with a dot, on a store
that has been set. The part completes; the attribute named by the target
holds the value of `getValue(key)` converted to a string; every other
attribute of the element, everything else of the element and every other node
are the same; the console gets only the report of `getValue`. When the key is
missing, that report is one message, the attribute holds the text
`undefined`, and nothing is thrown: `title:missingKey` on a store without
`missingKey` ends so. -/
theorem values_plain_attribute (B : Builtins) (budget : Nat)
    (recurse : Nat → Bool → State → Result) (element : Nat) (attributeAndKeys : JSString)
    (m : JSObject) (part propName propExpr : JSString) (n : Node) (s : State)
    (hpair : matchPair part = some (propName, propExpr))
    (hdot : propName.head? ≠ some 46)
    (hn : nodeAt s.nodes element = some n) :
    (∃ s',
      applyValuesPart B budget recurse element attributeAndKeys { data_ := some m } part s =
        .done s' ∧
      getAttribute s'.nodes element propName =
        some (ToString B ((lookupOwn m propExpr).getD .undefined)) ∧
      (∀ k, k ≠ propName → getAttribute s'.nodes element k = getAttribute s.nodes element k) ∧
      nodeAt s'.nodes element = some { n with
        attrs := setAttr propName (ToString B ((lookupOwn m propExpr).getD .undefined)) n.attrs } ∧
      (∀ j, j ≠ element → nodeAt s'.nodes j = nodeAt s.nodes j) ∧
      s'.console = s.console ++
        (if lookupOwn m propExpr = none ∨ lookupOwn m propExpr = some .undefined then
          [.couldNotFind propExpr] else []) ∧
      s'.visited = s.visited ∧ s'.trace = s.trace) ∧
    handlers_i18n_values plainHost 0 (fun _ _ s => .done s) 1 (utf16 "title:missingKey")
        { data_ := some [] } { nodes := missingKeyPage } =
      .done { nodes := missingKeyPageDone,
              console := [.couldNotFind (utf16 "missingKey")] } := by
  have hpart : part ≠ [] := by
    intro e
    rw [e, matchPair_nil] at hpair
    cases hpair
  refine ⟨⟨{ (s.log (expect (typeof ((lookupOwn m propExpr).getD .undefined) != .undefined)
      (.couldNotFind propExpr))) with
      nodes := setAttribute element propName
        (ToString B ((lookupOwn m propExpr).getD .undefined)) s.nodes }, ?_, ?_, ?_, ?_, ?_, ?_,
      rfl, rfl⟩, by decide⟩
  · unfold applyValuesPart
    rw [if_neg hpart, hpair]
    simp only [getValue_set_eq, if_neg hdot, State.log]
  · simp only [getAttribute, setAttribute, nodeAt_updateNode_same, hn, Option.map_some']
    exact find_setAttr_same _ _ _
  · intro k hk
    simp only [getAttribute, setAttribute, nodeAt_updateNode_same, hn, Option.map_some']
    rw [find_setAttr _ _ _ (fun e => hk e.symm)]
  · simp only [setAttribute, nodeAt_updateNode_same, hn, Option.map_some']
  · intro j hj
    exact nodeAt_updateNode_other _ _ _ _ hj
  · simp only [State.log]
    congr 1
    cases h : lookupOwn m propExpr with
    | none => simp [expect, typeof]
    | some v =>
      cases v <;> simp [expect, typeof]

/-- An instance of C15: the pair `title:missingKey` on the `span` of
`missingKeyPage`, with an empty store. -/
theorem values_plain_attribute_witness :
    matchPair (utf16 "title:missingKey") = some (utf16 "title", utf16 "missingKey") ∧
      ∃ s',
        applyValuesPart plainHost 0 (fun _ _ s => .done s) 1 (utf16 "title:missingKey")
            { data_ := some [] } (utf16 "title:missingKey") { nodes := missingKeyPage } =
          .done s' ∧
        getAttribute s'.nodes 1 (utf16 "title") = some (utf16 "undefined") ∧
        s'.console = [.couldNotFind (utf16 "missingKey")] :=
  ⟨by decide,
    match (values_plain_attribute plainHost 0 (fun _ _ s => .done s) 1
        (utf16 "title:missingKey") [] (utf16 "title:missingKey") (utf16 "title")
        (utf16 "missingKey")
        { kind := .element, tag := utf16 "span",
          attrs := [(utf16 "i18n-values", utf16 "title:missingKey")] }
        { nodes := missingKeyPage } (by decide) (by decide) (by decide)).1 with
    | ⟨s', h1, h2, _, _, _, h6, _⟩ => ⟨s', h1, h2, h6⟩⟩

theorem getString_string (m : JSObject) (key text : JSString)
    (hkey : lookupOwn m key = some (.string text)) :
    LoadTimeData.getString { data_ := some m } key =
      { completion := .normal (.string text), console := [] } := by
  simp [LoadTimeData.getString, getValue_set_eq, hkey, expect, expectIsType, typeof]

/-- One run of the content handler with a key that holds a string. -/
theorem content_step (B : Builtins) (m : JSObject) (key text : JSString) (element : Nat)
    (n : Node) (s : State) (hkey : lookupOwn m key = some (.string text))
    (hn : nodeAt s.nodes element = some n) :
    ∃ s', handlers_i18n_content B element key { data_ := some m } s = .done s' ∧
      textContent s'.nodes element = text ∧
      nodeAt s'.nodes element =
        some { n with children := if text = [] then [] else [s.nodes.length] } ∧
      (text ≠ [] → nodeAt s'.nodes s.nodes.length = some { kind := .text, text := text }) ∧
      (∀ j, j < s.nodes.length → j ≠ element → nodeAt s'.nodes j = nodeAt s.nodes j) ∧
      s'.console = s.console ∧ s'.visited = s.visited ∧ s'.trace = s.trace ∧
      (text = [] → n.children = [] → s' = s) := by
  have hlt := nodeAt_lt hn
  refine ⟨{ s with nodes := setTextContent B element (.string text) s.nodes }, ?_, ?_, ?_, ?_,
    ?_, rfl, rfl, rfl, ?_⟩
  · simp [handlers_i18n_content, getString_string m key text hkey, State.log]
  · by_cases ht : text = []
    · subst ht
      have hc : childNodes (updateNode (fun n => { n with children := [] }) s.nodes element)
          element = [] := by
        simp [childNodes, nodeAt_updateNode_same, hn]
      simp [textContent, descendants, setTextContent, toNullableDOMString, ToString, hc,
        descendantsTo_nil]
    · have hne : s.nodes.length ≠ element := Nat.ne_of_gt hlt
      have hn' : nodeAt (s.nodes ++ [{ kind := .text, text := text }]) element = some n := by
        rw [nodeAt_append_left _ _ _ hlt, hn]
      have hnew : nodeAt (updateNode (fun n => { n with children := [s.nodes.length] })
          (s.nodes ++ [{ kind := .text, text := text }]) element) s.nodes.length =
          some { kind := .text, text := text } := by
        rw [nodeAt_updateNode_other _ _ _ _ hne]
        simp [nodeAt]
      have hc : childNodes (updateNode (fun n => { n with children := [s.nodes.length] })
          (s.nodes ++ [{ kind := .text, text := text }]) element) element = [s.nodes.length] := by
        simp [childNodes, nodeAt_updateNode_same, hn']
      have hc2 : childNodes (updateNode (fun n => { n with children := [s.nodes.length] })
          (s.nodes ++ [{ kind := .text, text := text }]) element) s.nodes.length = [] := by
        simp [childNodes, hnew]
      simp only [textContent, descendants, setTextContent, toNullableDOMString, ToString,
        if_neg ht, hc, length_updateNode, List.length_append, List.length_singleton,
        descendantsTo, List.flatMap_cons, List.flatMap_nil, hc2, descendantsTo_nil,
        List.append_nil, hnew]
      simp
  · by_cases ht : text = []
    · simp [setTextContent, toNullableDOMString, ToString, ht, nodeAt_updateNode_same, hn]
    · have hn' : nodeAt (s.nodes ++ [{ kind := .text, text := text }]) element = some n := by
        rw [nodeAt_append_left _ _ _ hlt, hn]
      simp [setTextContent, toNullableDOMString, ToString, ht, nodeAt_updateNode_same, hn']
  · intro ht
    have hne : s.nodes.length ≠ element := Nat.ne_of_gt hlt
    simp only [setTextContent, toNullableDOMString, ToString, if_neg ht]
    rw [nodeAt_updateNode_other _ _ _ _ hne]
    simp [nodeAt]
  · intro j hj hje
    by_cases ht : text = []
    · simp only [setTextContent, toNullableDOMString, ToString, ht, if_true]
      exact nodeAt_updateNode_other _ _ _ _ hje
    · simp only [setTextContent, toNullableDOMString, ToString, if_neg ht]
      rw [nodeAt_updateNode_other _ _ _ _ hje, nodeAt_append_left _ _ _ hj]
  · intro ht hch
    subst ht
    have : updateNode (fun n => { n with children := [] }) s.nodes element = s.nodes := by
      apply List.ext_get?
      intro j
      by_cases hj : j = element
      · subst hj
        have h1 := nodeAt_updateNode_same (fun n => { n with children := [] }) s.nodes j
        simp only [nodeAt] at h1 hn
        rw [h1, hn, Option.map_some', ← hch]
      · exact nodeAt_updateNode_other _ _ _ _ hj
    simp [setTextContent, toNullableDOMString, ToString, this]

/-- C16: the content handler on an element, with a key that holds a string
in a store that has been set. The handler completes; the text content of the
element is the string; its children are one new text node holding the string,
or none when the string is empty, so none of the children it had; its
attributes, every other node and the console are the same (the store is only
read: `getString` returns no store). A second run with the same key and store
completes with the same text content, the same attributes, the same other
nodes and the same console: the element again gets one new text node holding
the string, and with the empty string the state is the same as after the
first run. -/
theorem content_replaces_children (B : Builtins) (m : JSObject) (key text : JSString)
    (element : Nat) (n : Node) (s : State)
    (hkey : lookupOwn m key = some (.string text))
    (hn : nodeAt s.nodes element = some n) :
    ∃ s' s'', handlers_i18n_content B element key { data_ := some m } s = .done s' ∧
      textContent s'.nodes element = text ∧
      nodeAt s'.nodes element =
        some { n with children := if text = [] then [] else [s.nodes.length] } ∧
      (text ≠ [] → nodeAt s'.nodes s.nodes.length = some { kind := .text, text := text }) ∧
      ((∀ c ∈ n.children, c < s.nodes.length) →
        ∀ c ∈ childNodes s'.nodes element, c ∉ n.children) ∧
      (∀ k, getAttribute s'.nodes element k = getAttribute s.nodes element k) ∧
      (∀ j, j < s.nodes.length → j ≠ element → nodeAt s'.nodes j = nodeAt s.nodes j) ∧
      s'.console = s.console ∧
      handlers_i18n_content B element key { data_ := some m } s' = .done s'' ∧
      textContent s''.nodes element = text ∧
      nodeAt s''.nodes element =
        some { n with children := if text = [] then [] else [s'.nodes.length] } ∧
      (text ≠ [] → nodeAt s''.nodes s'.nodes.length = some { kind := .text, text := text }) ∧
      (∀ k, getAttribute s''.nodes element k = getAttribute s'.nodes element k) ∧
      (∀ j, j < s'.nodes.length → j ≠ element → nodeAt s''.nodes j = nodeAt s'.nodes j) ∧
      s''.console = s'.console ∧
      (text = [] → s'' = s') := by
  obtain ⟨s', h1, h2, h3, h4, h5, h6, _, _, _⟩ := content_step B m key text element n s hkey hn
  obtain ⟨s'', g1, g2, g3, g4, g5, g6, _, _, g9⟩ :=
    content_step B m key text element _ s' hkey h3
  refine ⟨s', s'', h1, h2, h3, h4, ?_, ?_, h5, h6, g1, g2, g3, g4, ?_, g5, g6, ?_⟩
  · intro hch c hc hc'
    have hlt := hch c hc'
    simp only [childNodes, h3] at hc
    by_cases ht : text = []
    · simp [ht] at hc
    · simp only [if_neg ht, List.mem_singleton] at hc
      omega
  · intro k
    simp only [getAttribute, h3, hn]
  · intro k
    simp only [getAttribute, g3, h3]
  · intro ht
    exact g9 ht (by simp [ht])

/-- An instance of C16: the key `t` holding `T`, on the `p` of `contentPage`,
which has two children; the handler is run twice. -/
theorem content_replaces_children_witness :
    ∃ s' s'', handlers_i18n_content plainHost 1 (utf16 "t") titleStore { nodes := contentPage } =
        .done s' ∧
      textContent s'.nodes 1 = utf16 "T" ∧
      childNodes s'.nodes 1 = [4] ∧
      handlers_i18n_content plainHost 1 (utf16 "t") titleStore s' = .done s'' ∧
      textContent s''.nodes 1 = utf16 "T" ∧
      childNodes s''.nodes 1 = [5] :=
  match content_replaces_children plainHost
      [(utf16 "t", .string (utf16 "T")), (utf16 "l", .string (utf16 "en"))] (utf16 "t")
      (utf16 "T") 1
      { kind := .element, tag := utf16 "p", attrs := [(utf16 "i18n-content", utf16 "t")],
        children := [2, 3] }
      { nodes := contentPage } (by decide) (by decide) with
  | ⟨s', s'', h1, h2, h3, _, _, _, h7, _, g1, g2, g3, _⟩ =>
    ⟨s', s'', h1, h2, by simp only [childNodes, h3]; decide, g1, g2, by
      simp only [childNodes, g3]
      have hl : s'.nodes.length = 5 := by
        have := congrArg (fun r => match r with
          | .done x => x.nodes.length
          | _ => 0) h1
        simpa using this.symm
      rw [hl]
      decide⟩

theorem digitChar_toNat (k : Nat) (hk : k < 10) : (Nat.digitChar k).toNat = 48 + k := by
  interval_cases k <;> rfl

/-- The decimal digits of a number: they are not empty, all are digits, and
read from the left they give the number back. -/
theorem toDigitsCore_spec :
    ∀ (fuel n : Nat), n < fuel →
      ∃ L : List Char, L ≠ [] ∧ (∀ c ∈ L, 48 ≤ c.toNat ∧ c.toNat ≤ 57) ∧
        (L.map Char.toNat).foldl (fun acc c => 10 * acc + (c - 48)) 0 = n ∧
        ∀ ds, Nat.toDigitsCore 10 fuel n ds = L ++ ds := by
  intro fuel
  induction fuel with
  | zero => intro n h; omega
  | succ fuel ih =>
    intro n hn
    have hd : (Nat.digitChar (n % 10)).toNat = 48 + n % 10 :=
      digitChar_toNat _ (Nat.mod_lt _ (by decide))
    by_cases h0 : n / 10 = 0
    · refine ⟨[Nat.digitChar (n % 10)], by simp, ?_, ?_, ?_⟩
      · intro c hc
        simp only [List.mem_singleton] at hc
        subst hc
        have := Nat.mod_lt n (show 0 < 10 by decide)
        omega
      · simp only [List.map_cons, List.map_nil, List.foldl_cons, List.foldl_nil, hd]
        omega
      · intro ds
        simp [Nat.toDigitsCore, h0]
    · obtain ⟨L, hne, hall, hval, hacc⟩ := ih (n / 10) (by omega)
      refine ⟨L ++ [Nat.digitChar (n % 10)], by simp, ?_, ?_, ?_⟩
      · intro c hc
        rcases List.mem_append.1 hc with hc | hc
        · exact hall c hc
        · simp only [List.mem_singleton] at hc
          subst hc
          have := Nat.mod_lt n (show 0 < 10 by decide)
          omega
      · simp only [List.map_append, List.foldl_append, hval, List.map_cons, List.map_nil,
          List.foldl_cons, List.foldl_nil, hd]
        omega
      · intro ds
        simp [Nat.toDigitsCore, h0, hacc]

theorem parseIndex_indexKey (i : Nat) : parseIndex (indexKey i) = some i := by
  obtain ⟨L, hne, hall, hval, hacc⟩ := toDigitsCore_spec (i + 1) i (Nat.lt_succ_self i)
  have hk : indexKey i = L.map Char.toNat := by
    simp [indexKey, Nat.toDigits, hacc]
  unfold parseIndex
  simp only [hk, hval]
  rw [if_pos]
  refine ⟨by simpa using hne, ?_, trivial⟩
  simp only [List.all_eq_true, List.mem_map, Bool.and_eq_true, decide_eq_true_eq]
  rintro c ⟨d, hd, rfl⟩
  exact hall d hd

theorem indexKey_ne_length (i : Nat) : indexKey i ≠ utf16 "length" := by
  intro h
  have := parseIndex_indexKey i
  have hp : parseIndex (utf16 "length") = none := by decide
  rw [h, hp] at this
  cases this

/-- The loop of `overrideValues` over indices of a string. -/
theorem overrideLoop_string (s : JSString) :
    ∀ (indices : List Nat) (m : JSObject), (∀ i ∈ indices, i < s.length) →
      overrideLoop (.string s) (indices.map indexKey) { data_ := some m } =
        ({ data_ := some (indices.foldl
            (fun o i => assignOwn (indexKey i) (.string [s.getD i 0]) o) m) }, .normal ()) := by
  intro indices
  induction indices with
  | nil => intro m _; rfl
  | cons i rest ih =>
    intro m h
    have hi : i < s.length := h i (List.mem_cons_self _ _)
    simp only [List.map_cons, overrideLoop, getProperty, if_neg (indexKey_ne_length i),
      parseIndex_indexKey, hi, if_true, List.foldl_cons]
    exact ih _ (fun j hj => h j (List.mem_cons_of_mem _ hj))

/-- C17, the claim as it stands fails: with the string `hi`, `overrideValues`
reports the defect and merges the two code units under the keys `0` and
`1`. -/
theorem overrideValues_string_merges :
    LoadTimeData.overrideValues { data_ := some [] } (.string (utf16 "hi")) =
      { store := { data_ := some [(utf16 "0", .string (utf16 "h")),
                                  (utf16 "1", .string (utf16 "i"))] },
        completion := .normal (), console := [.notDictionary] } := by
  decide

/-- C17, amended: an argument for which `typeof` is not `object` is reported
as a defect, and the loop over its keys runs all the same. A boolean, a
number or `undefined` has no keys: the call completes and the store is the
same. A string has its indices as keys: on a store that has been set the call
completes, and every index of the string, in turn, is assigned the string of
the one code unit at that index, so only the empty string leaves the store as
it was; on a store that has not been set a string that is not empty makes the
call throw a `TypeError`. -/
theorem overrideValues_not_object (self : LoadTimeData) (replacements : JSValue)
    (h : typeof replacements ≠ .object) :
    (self.overrideValues replacements).console = [.notDictionary] ∧
    (typeof replacements ≠ .string →
      self.overrideValues replacements =
        { store := self, completion := .normal (), console := [.notDictionary] }) ∧
    (∀ (s : JSString) (m : JSObject), replacements = .string s → self.data_ = some m →
      self.overrideValues replacements =
        { store := { data_ := some ((List.range s.length).foldl
            (fun o i => assignOwn (indexKey i) (.string [s.getD i 0]) o) m) },
          completion := .normal (), console := [.notDictionary] }) ∧
    (∀ (s : JSString), replacements = .string s → s ≠ [] → self.data_ = none →
      (self.overrideValues replacements).completion = .throw .typeError ∧
        (self.overrideValues replacements).store = self) := by
  refine ⟨?_, ?_, ?_, ?_⟩
  · cases replacements <;> simp [typeof] at h <;> rfl
  · intro hs
    cases replacements <;> simp [typeof] at h hs <;> rfl
  · intro s m hr hm
    subst hr
    obtain ⟨d⟩ := self
    simp only at hm
    subst hm
    simp only [LoadTimeData.overrideValues, forInKeys,
      overrideLoop_string s (List.range s.length) m (fun i hi => List.mem_range.1 hi)]
    rfl
  · intro s hr hs hm
    subst hr
    obtain ⟨d⟩ := self
    simp only at hm
    subst hm
    cases s with
    | nil => exact absurd rfl hs
    | cons c cs =>
      simp [LoadTimeData.overrideValues, forInKeys, List.range_succ_eq_map, overrideLoop]

/-- An instance of C17: the argument `true` on an empty store. -/
theorem overrideValues_not_object_witness :
    (LoadTimeData.overrideValues { data_ := some [] } (.boolean true)).console =
        [.notDictionary] ∧
      LoadTimeData.overrideValues { data_ := some [] } (.boolean true) =
        { store := { data_ := some [] }, completion := .normal (),
          console := [.notDictionary] } :=
  ⟨(overrideValues_not_object { data_ := some [] } (.boolean true) (by decide)).1,
    (overrideValues_not_object { data_ := some [] } (.boolean true) (by decide)).2.1
      (by decide)⟩

theorem andThen_eq_done {r : Result} {k : State → Result} {s' : State}
    (h : r.andThen k = .done s') : ∃ s1, r = .done s1 ∧ k s1 = .done s' := by
  cases r with
  | done s1 => exact ⟨s1, rfl, h⟩
  | thrown e s1 => cases h
  | diverged => cases h

theorem nodeAt_setAttribute (id : Nat) (name value : JSString) (nodes : List Node) (j : Nat) :
    nodeAt (setAttribute id name value nodes) j =
      (nodeAt nodes j).map fun n =>
        if j = id then { n with attrs := setAttr name value n.attrs } else n := by
  unfold setAttribute
  by_cases h : j = id
  · subst h
    rw [nodeAt_updateNode_same]
    simp
  · rw [nodeAt_updateNode_other _ _ _ _ h]
    cases nodeAt nodes j <;> simp [h]

/-- The marking loop changes neither the kind nor the children of a node. -/
theorem shape_markProcessed (ids : List Nat) :
    ∀ (nodes : List Node) (j : Nat),
      (nodeAt (markProcessed ids nodes) j).map (fun n => (n.kind, n.children)) =
        (nodeAt nodes j).map (fun n => (n.kind, n.children)) := by
  induction ids with
  | nil => intro nodes j; rfl
  | cons id ids ih =>
    intro nodes j
    simp only [markProcessed, List.foldl_cons] at ih ⊢
    rw [ih, nodeAt_setAttribute]
    cases nodeAt nodes j with
    | none => rfl
    | some n => by_cases h : j = id <;> simp [h]

theorem isElement_markProcessed (ids : List Nat) (nodes : List Node) (j : Nat) :
    isElement (markProcessed ids nodes) j = isElement nodes j := by
  have h := shape_markProcessed ids nodes j
  unfold isElement
  cases h1 : nodeAt (markProcessed ids nodes) j <;> cases h2 : nodeAt nodes j <;>
    simp [h1, h2] at h ⊢
  rw [h.1]

theorem childNodes_markProcessed (ids : List Nat) (nodes : List Node) (j : Nat) :
    childNodes (markProcessed ids nodes) j = childNodes nodes j := by
  have h := shape_markProcessed ids nodes j
  unfold childNodes
  cases h1 : nodeAt (markProcessed ids nodes) j <;> cases h2 : nodeAt nodes j <;>
    simp [h1, h2] at h ⊢
  exact h.2

theorem processedNodes_markProcessed (ids : List Nat) (nodes : List Node) (root : Nat) :
    processedNodes (markProcessed ids nodes) root = processedNodes nodes root := by
  unfold processedNodes elementChildren
  rw [isElement_markProcessed, childNodes_markProcessed]
  have : isElement (markProcessed ids nodes) = isElement nodes :=
    funext (isElement_markProcessed ids nodes)
  rw [this]

/-- A marker that is there stays through the marking loop. -/
theorem marker_kept (ids : List Nat) :
    ∀ (nodes : List Node) (j : Nat), getAttribute nodes j processedMarker = some [] →
      getAttribute (markProcessed ids nodes) j processedMarker = some [] := by
  induction ids with
  | nil => intro nodes j h; exact h
  | cons id ids ih =>
    intro nodes j h
    simp only [markProcessed, List.foldl_cons] at ih ⊢
    apply ih
    unfold getAttribute at h ⊢
    rw [nodeAt_setAttribute]
    cases hn : nodeAt nodes j with
    | none => rw [hn] at h; cases h
    | some n =>
      rw [hn] at h
      by_cases hj : j = id
      · simp only [Option.map_some', if_pos hj]
        exact find_setAttr_same _ _ _
      · simp only [Option.map_some', if_neg hj]
        exact h

/-- The marking loop leaves the marker on every element it is given. -/
theorem marker_set (ids : List Nat) :
    ∀ (nodes : List Node) (j : Nat), j ∈ ids → isElement nodes j = true →
      getAttribute (markProcessed ids nodes) j processedMarker = some [] := by
  induction ids with
  | nil => intro nodes j h; cases h
  | cons id ids ih =>
    intro nodes j h he
    by_cases hj : j = id
    · subst hj
      simp only [markProcessed, List.foldl_cons]
      apply marker_kept
      unfold getAttribute
      rw [nodeAt_setAttribute]
      unfold isElement at he
      cases hn : nodeAt nodes j with
      | none => rw [hn] at he; cases he
      | some n =>
        simp only [Option.map_some', if_true]
        exact find_setAttr_same _ _ _
    · have hmem : j ∈ ids := by
        rcases List.mem_cons.1 h with h | h
        · exact absurd h hj
        · exact h
      simp only [markProcessed, List.foldl_cons] at ih ⊢
      apply ih _ j hmem
      have := isElement_markProcessed [id] nodes j
      simp only [markProcessed, List.foldl_cons, List.foldl_nil] at this
      rw [this]
      exact he

theorem isElement_of_mem_processedNodes (nodes : List Node) (root j : Nat)
    (h : j ∈ processedNodes nodes root) : isElement nodes j = true := by
  unfold processedNodes at h
  split at h
  · next hr =>
    simp only [List.mem_singleton] at h
    subst h
    exact hr
  · unfold elementChildren at h
    exact (List.mem_filter.1 h).2

/-- A call of the body of `processWithoutCycles` with `mark` set that returns
has left the marker on the nodes it marks. -/
theorem processRoot_marks (B : Builtins) (data : LoadTimeData) (budget : Nat)
    (recurse : Nat → Bool → State → Result) (root : Nat) (s s' : State)
    (h : processRoot B data budget recurse root true s = .done s') :
    ∀ id ∈ processedNodes s'.nodes root, getAttribute s'.nodes id processedMarker = some [] := by
  unfold processRoot at h
  obtain ⟨s1, -, h⟩ := andThen_eq_done h
  obtain ⟨s2, -, h⟩ := andThen_eq_done h
  obtain ⟨s3, -, h⟩ := andThen_eq_done h
  obtain ⟨s4, -, h⟩ := andThen_eq_done h
  simp only [if_true, Result.done.injEq] at h
  subst h
  intro id hid
  simp only at hid ⊢
  rw [processedNodes_markProcessed] at hid
  exact marker_set _ _ _ hid (isElement_of_mem_processedNodes _ _ _ hid)

theorem nodeExt_refl (n : Node) : NodeExt n n := ⟨rfl, fun _ => rfl, fun h => h⟩

theorem nodeExt_trans {a b c : Node} (h1 : NodeExt a b) (h2 : NodeExt b c) : NodeExt a c :=
  ⟨h2.1.trans h1.1, fun hk => (h2.2.1 (by rw [h1.1]; exact hk)).trans (h1.2.1 hk),
    fun hm => h2.2.2 (h1.2.2 hm)⟩

theorem ext_refl (a : List Node) : Ext a a :=
  ⟨Nat.le_refl _, fun _ n hn => ⟨n, hn, nodeExt_refl n⟩⟩

theorem ext_trans {a b c : List Node} (h1 : Ext a b) (h2 : Ext b c) : Ext a c := by
  refine ⟨Nat.le_trans h1.1 h2.1, fun j n hn => ?_⟩
  obtain ⟨n1, hn1, e1⟩ := h1.2 j n hn
  obtain ⟨n2, hn2, e2⟩ := h2.2 j n1 hn1
  exact ⟨n2, hn2, nodeExt_trans e1 e2⟩

theorem ext_append (nodes extra : List Node) : Ext nodes (nodes ++ extra) := by
  refine ⟨by simp, fun j n hn => ⟨n, ?_, nodeExt_refl n⟩⟩
  rw [nodeAt_append_left _ _ _ (nodeAt_lt hn)]
  exact hn

theorem ext_updateNode (f : Node → Node) (nodes : List Node) (id : Nat)
    (h : ∀ n, nodeAt nodes id = some n → NodeExt n (f n)) : Ext nodes (updateNode f nodes id) := by
  refine ⟨by rw [length_updateNode], fun j n hn => ?_⟩
  by_cases hj : j = id
  · subst hj
    exact ⟨f n, by rw [nodeAt_updateNode_same, hn]; rfl, h n hn⟩
  · exact ⟨n, by rw [nodeAt_updateNode_other _ _ _ _ hj]; exact hn, nodeExt_refl n⟩

theorem valid_append (nodes extra : List Node) (h : ChildrenValid nodes)
    (he : ∀ n ∈ extra, ∀ c ∈ n.children, c < nodes.length + extra.length) :
    ChildrenValid (nodes ++ extra) := by
  intro j n hn c hc
  rw [List.length_append]
  by_cases hj : j < nodes.length
  · rw [nodeAt_append_left _ _ _ hj] at hn
    have := h j n hn c hc
    omega
  · have hj' : j = nodes.length + (j - nodes.length) := by omega
    rw [hj', nodeAt_append_length] at hn
    exact he n (List.get?_mem hn) c hc

theorem valid_updateNode (f : Node → Node) (nodes : List Node) (id : Nat)
    (h : ChildrenValid nodes)
    (hf : ∀ n, nodeAt nodes id = some n → ∀ c ∈ (f n).children, c < nodes.length) :
    ChildrenValid (updateNode f nodes id) := by
  intro j n hn c hc
  rw [length_updateNode]
  by_cases hj : j = id
  · subst hj
    rw [nodeAt_updateNode_same] at hn
    cases h0 : nodeAt nodes j with
    | none => rw [h0] at hn; cases hn
    | some n0 =>
      rw [h0] at hn
      simp only [Option.map_some', Option.some.injEq] at hn
      subst hn
      exact hf n0 h0 c hc
  · rw [nodeAt_updateNode_other _ _ _ _ hj] at hn
    exact h j n hn c hc

theorem good_of_ext {P0 : List Nat} {a b : List Node} (ha : Good P0 a) (he : Ext a b)
    (hf : potentialRoots b = P0 ∧ noInjection b = true) (hv : ChildrenValid b) : Good P0 b :=
  ⟨hf, hv, fun r hr => Nat.lt_of_lt_of_le (ha.2.2 r hr) he.1⟩

theorem kind_of_isElement {nodes : List Node} {el : Nat} {n : Node}
    (he : isElement nodes el = true) (hn : nodeAt nodes el = some n) : n.kind = .element := by
  unfold isElement at he
  rw [hn] at he
  simpa using he

theorem isElement_ext {a b : List Node} (h : Ext a b) {el : Nat}
    (he : isElement a el = true) : isElement b el = true := by
  unfold isElement at he ⊢
  cases hn : nodeAt a el with
  | none => rw [hn] at he; cases he
  | some n =>
    rw [hn] at he
    obtain ⟨n', hn', e⟩ := h.2 el n hn
    rw [hn']
    simp only at he ⊢
    rw [e.1]
    exact he

/-- New nodes are put on the heap and an element gets new children: the heap
changes as `Ext` allows and children stay valid. -/
theorem ext_valid_children (nodes extra : List Node) (el : Nat) (g : List Nat → List Nat)
    (hv : ChildrenValid nodes) (he : isElement nodes el = true)
    (hextra : ∀ n ∈ extra, ∀ c ∈ n.children, c < nodes.length + extra.length)
    (hg : ∀ n, nodeAt nodes el = some n → ∀ c ∈ g n.children, c < nodes.length + extra.length) :
    Ext nodes (updateNode (fun n => { n with children := g n.children }) (nodes ++ extra) el) ∧
      ChildrenValid
        (updateNode (fun n => { n with children := g n.children }) (nodes ++ extra) el) := by
  have hlt : el < nodes.length := by
    unfold isElement at he
    cases hn : nodeAt nodes el with
    | none => rw [hn] at he; cases he
    | some n => exact nodeAt_lt hn
  have hsame : nodeAt (nodes ++ extra) el = nodeAt nodes el := nodeAt_append_left _ _ _ hlt
  refine ⟨ext_trans (ext_append nodes extra) (ext_updateNode _ _ _ ?_), ?_⟩
  · intro n hn
    rw [hsame] at hn
    refine ⟨rfl, fun hk => absurd (kind_of_isElement he hn) hk, fun h => h⟩
  · refine valid_updateNode _ _ _ (valid_append _ _ hv hextra) ?_
    intro n hn c hc
    rw [hsame] at hn
    rw [List.length_append]
    exact hg n hn c hc

theorem op_setTextContent (B : Builtins) (P0 : List Nat) (el : Nat) (v : JSValue)
    (nodes : List Node) (hg : Good P0 nodes) (he : isElement nodes el = true) :
    Ext nodes (setTextContent B el v nodes) ∧ Good P0 (setTextContent B el v nodes) := by
  have hf := frame_setTextContent B el v nodes P0 hg.1
  have key : Ext nodes (setTextContent B el v nodes) ∧
      ChildrenValid (setTextContent B el v nodes) := by
    unfold setTextContent
    simp only
    split
    · have := ext_valid_children nodes [] el (fun _ => []) hg.2.1 he (by simp) (by simp)
      simpa using this
    · exact ext_valid_children nodes [{ kind := .text, text := toNullableDOMString B v }] el
        (fun _ => [nodes.length]) hg.2.1 he (by simp) (by simp)
  exact ⟨key.1, good_of_ext hg key.1 hf key.2⟩

theorem newOption_eq (t v : Option JSString) (nodes : List Node) :
    ∃ extra, (newOption t v nodes).1 = nodes ++ extra ∧ (newOption t v nodes).2 = nodes.length ∧
      0 < extra.length ∧
      ∀ n ∈ extra, ∀ c ∈ n.children, c < nodes.length + extra.length := by
  unfold newOption
  simp only
  split
  · exact ⟨_, rfl, rfl, by simp, by simp⟩
  · exact ⟨_, rfl, rfl, by simp, by simp⟩

theorem op_appendOption (P0 : List Nat) (sel : Nat) (t v : Option JSString)
    (nodes : List Node) (hg : Good P0 nodes) (he : isElement nodes sel = true) :
    Ext nodes (appendChild sel (newOption t v nodes).2 (newOption t v nodes).1) ∧
      Good P0 (appendChild sel (newOption t v nodes).2 (newOption t v nodes).1) := by
  have hf := frame_appendOption sel t v nodes P0 hg.1
  obtain ⟨extra, h1, h2, h3, h4⟩ := newOption_eq t v nodes
  have key := ext_valid_children nodes extra sel (fun cs => cs ++ [nodes.length]) hg.2.1 he h4
    (by
      intro n hn c hc
      rcases List.mem_append.1 hc with hc | hc
      · have := hg.2.1 sel n hn c hc
        omega
      · simp only [List.mem_singleton] at hc
        omega)
  unfold appendChild at hf ⊢
  rw [h1, h2] at hf ⊢
  exact ⟨key.1, good_of_ext hg key.1 hf key.2⟩

theorem hasMarker_setAttr (name value : JSString) (n : Node) (h : hasMarker n = true) :
    hasMarker { n with attrs := setAttr name value n.attrs } = true := by
  unfold hasMarker at h ⊢
  simp only
  by_cases hn : name = processedMarker
  · rw [hn]
    have := find_setAttr_same processedMarker value n.attrs
    cases hf : (setAttr processedMarker value n.attrs).find?
        (fun a => a.1 == processedMarker) with
    | none => rw [hf] at this; cases this
    | some x => rfl
  · rw [find_setAttr name value _ hn]
    exact h

theorem op_setAttribute (P0 : List Nat) (el : Nat) (name value : JSString)
    (nodes : List Node) (hg : Good P0 nodes) (hname : name ≠ utf16 "i18n-values") :
    Ext nodes (setAttribute el name value nodes) ∧ Good P0 (setAttribute el name value nodes) := by
  have hf := frame_setAttribute el name value nodes P0 hname hg.1
  have he : Ext nodes (setAttribute el name value nodes) :=
    ext_updateNode _ _ _ (fun n _ => ⟨rfl, fun _ => rfl, hasMarker_setAttr name value n⟩)
  exact ⟨he, good_of_ext hg he hf
    (valid_updateNode _ _ _ hg.2.1 (fun n hn c hc => hg.2.1 el n hn c hc))⟩

theorem op_assignTarget (B : Builtins) (P0 : List Nat) (el : Nat) (inner : List JSString)
    (last : JSString) (v : JSValue) (nodes : List Node) (hg : Good P0 nodes)
    (he : isElement nodes el = true) (hlast : last ≠ utf16 "innerHTML") :
    Ext nodes (assignTarget B el inner last v nodes) ∧
      Good P0 (assignTarget B el inner last v nodes) := by
  have hf := frame_assignTarget B el inner last v nodes P0 hlast hg.1
  unfold assignTarget at hf ⊢
  split
  · next hc => exact absurd hc.2 hlast
  · next h1 =>
    rw [if_neg h1] at hf
    split
    · exact op_setTextContent B P0 el v nodes hg he
    · next h2 =>
      rw [if_neg h2] at hf
      have hext : Ext nodes (updateNode (fun n =>
          match assignAt last v inner (.object n.props) with
          | .object props => { n with props := props }
          | _ => n) nodes el) := by
        refine ext_updateNode _ _ _ (fun n _ => ?_)
        split
        · exact ⟨rfl, fun _ => rfl, fun h => h⟩
        · exact nodeExt_refl n
      refine ⟨hext, good_of_ext hg hext hf (valid_updateNode _ _ _ hg.2.1 ?_)⟩
      intro n hn c hc
      have : ∀ (n' : Node), n'.children = n.children → c ∈ n'.children → c < nodes.length :=
        fun n' e hc' => hg.2.1 el n hn c (e ▸ hc')
      revert hc
      split
      · exact this _ rfl
      · exact this _ rfl

theorem op_markProcessed (P0 : List Nat) (ids : List Nat) :
    ∀ nodes : List Node, Good P0 nodes →
      Ext nodes (markProcessed ids nodes) ∧ Good P0 (markProcessed ids nodes) := by
  induction ids with
  | nil => intro nodes hg; exact ⟨ext_refl nodes, hg⟩
  | cons id ids ih =>
    intro nodes hg
    simp only [markProcessed, List.foldl_cons] at ih ⊢
    obtain ⟨e1, g1⟩ := op_setAttribute P0 id (utf16 "i18n-processed") [] nodes hg (by decide)
    obtain ⟨e2, g2⟩ := ih _ g1
    exact ⟨ext_trans e1 e2, g2⟩

theorem returns_andThen {P Q : State → Prop} {r : Result} {k : State → Result}
    (hr : r.Returns P) (hk : ∀ s, P s → (k s).Returns Q) : (r.andThen k).Returns Q := by
  cases r with
  | done s => exact hk s hr
  | thrown e s => trivial
  | diverged => trivial

theorem returns_imp {P Q : State → Prop} {r : Result} (hr : r.Returns P)
    (h : ∀ s, P s → Q s) : r.Returns Q := by
  cases r with
  | done s => exact h s hr
  | thrown e s => trivial
  | diverged => trivial

theorem returns_forEach {α : Type} {I : State → Prop} (f : α → State → Result)
    (xs : List α) (hf : ∀ x ∈ xs, ∀ s, I s → (f x s).Returns I) :
    ∀ s, I s → (forEach f xs s).Returns I := by
  induction xs with
  | nil => intro s hs; exact hs
  | cons x xs ih =>
    intro s hs
    exact returns_andThen (hf x (List.mem_cons_self _ _) s hs)
      (ih (fun y hy => hf y (List.mem_cons_of_mem _ hy)))

theorem step_refl {P0 : List Nat} {s : State} (hg : Good P0 s.nodes) : Step P0 s s :=
  ⟨ext_refl _, hg, rfl⟩

theorem step_trans {P0 : List Nat} {s s1 s2 : State} (h1 : Step P0 s s1)
    (h2 : Step P0 s1 s2) : Step P0 s s2 :=
  ⟨ext_trans h1.1 h2.1, h2.2.1, h2.2.2.trans h1.2.2⟩

/-- A loop whose every turn is a `Step` is a `Step`. -/
theorem returns_forEach_step {α : Type} {P0 : List Nat} (f : α → State → Result)
    (xs : List α) (s : State) (hg : Good P0 s.nodes)
    (hf : ∀ x ∈ xs, ∀ s1, Step P0 s s1 → (f x s1).Returns (Step P0 s1)) :
    (forEach f xs s).Returns (Step P0 s) :=
  returns_forEach f xs
    (fun x hx s1 h1 => returns_imp (hf x hx s1 h1) (fun _ h2 => step_trans h1 h2)) s
    (step_refl hg)

theorem returns_content (B : Builtins) (P0 : List Nat) (el : Nat) (key : JSString)
    (data : LoadTimeData) (s : State) (hg : Good P0 s.nodes)
    (he : isElement s.nodes el = true) :
    (handlers_i18n_content B el key data s).Returns (Step P0 s) := by
  unfold handlers_i18n_content
  split
  · trivial
  · next value c _ =>
    obtain ⟨h1, h2⟩ := op_setTextContent B P0 el value s.nodes hg he
    exact ⟨h1, h2, rfl⟩

theorem returns_options (B : Builtins) (P0 : List Nat) (sel : Nat) (key : JSString)
    (data : LoadTimeData) (s : State) (hg : Good P0 s.nodes)
    (he : isElement s.nodes sel = true) :
    (handlers_i18n_options B sel key data s).Returns (Step P0 s) := by
  unfold handlers_i18n_options
  split
  · trivial
  · next options c _ =>
    split
    · refine returns_forEach_step _ _ (s.log c) hg (fun x _ s1 h1 => ?_)
      unfold appendOption
      split
      · trivial
      · next t v _ =>
        obtain ⟨e1, g1⟩ := op_appendOption P0 sel t v s1.nodes h1.2.1 (isElement_ext h1.1 he)
        exact ⟨e1, g1, rfl⟩
    · trivial

theorem safeValues_of_noInjection (nodes : List Node) (el : Nat) (attr : JSString)
    (h : noInjection nodes = true)
    (hattr : getAttribute nodes el (utf16 "i18n-values") = some attr) :
    safeValues attr = true := by
  unfold getAttribute at hattr
  split at hattr
  · next n hn =>
    have hmem : n ∈ nodes := List.get?_mem hn
    have := List.all_eq_true.1 h n hmem
    unfold injectionFree at this
    rw [hattr] at this
    exact this
  · exact absurd hattr (by simp)

theorem returns_values (B : Builtins) (P0 : List Nat) (budget : Nat)
    (recurse : Nat → Bool → State → Result) (el : Nat) (attr : JSString)
    (data : LoadTimeData) (s : State) (hg : Good P0 s.nodes)
    (he : isElement s.nodes el = true) (hsafe : safeValues attr = true) :
    (handlers_i18n_values B budget recurse el attr data s).Returns (Step P0 s) := by
  unfold handlers_i18n_values
  refine returns_forEach_step _ _ _ hg (fun part hpart s1 h1 => ?_)
  have he1 := isElement_ext h1.1 he
  have hg1 := h1.2.1
  unfold applyValuesPart
  split
  · exact step_refl hg1
  · split
    · trivial
    · next name expr hm =>
      have hst : safeTarget name = true := by
        have := List.all_eq_true.1 hsafe part hpart
        rw [hm] at this
        exact this
      split
      · trivial
      · next value c _ =>
        split
        · next hdot =>
          have hlast : (splitLast (splitOn 46 (name.drop 1))).2 ≠ utf16 "innerHTML" := by
            intro hl
            unfold safeTarget at hst
            simp only [hdot, hl, beq_self_eq_true, Bool.and_self, Bool.not_true,
              Bool.and_false, Bool.false_eq_true] at hst
          unfold assignPath
          split
          · exact step_refl hg1
          · split
            · exact step_refl hg1
            · split
              · obtain ⟨e1, g1⟩ := op_assignTarget B P0 el
                  (splitLast (splitOn 46 (name.drop 1))).1
                  (splitLast (splitOn 46 (name.drop 1))).2 value s1.nodes hg1 he1 hlast
                exact ⟨e1, g1, rfl⟩
              · exact step_refl hg1
        · obtain ⟨e1, g1⟩ := op_setAttribute P0 el name (ToString B value) s1.nodes hg1
            (safeTarget_ne name hst)
          exact ⟨e1, g1, rfl⟩

theorem returns_processElement (B : Builtins) (P0 : List Nat) (budget : Nat)
    (recurse : Nat → Bool → State → Result) (data : LoadTimeData) (el : Nat) (s : State)
    (hg : Good P0 s.nodes) (he : isElement s.nodes el = true) :
    (processElement B budget recurse data el s).Returns (Step P0 s) := by
  unfold processElement
  refine returns_forEach_step _ _ _ hg (fun name hname s1 h1 => ?_)
  have he1 := isElement_ext h1.1 he
  have hg1 := h1.2.1
  split
  · exact step_refl hg1
  · next attr hattr =>
    unfold callHandler
    split
    · exact returns_content B P0 el attr data _ hg1 he1
    · next hn1 =>
      split
      · exact returns_options B P0 el attr data _ hg1 he1
      · next hn2 =>
        have hn : name = utf16 "i18n-values" := by
          simp only [attributeNames, List.mem_cons, List.mem_singleton, List.not_mem_nil,
            or_false] at hname
          rcases hname with h | h | h
          · exact absurd h hn1
          · exact absurd h hn2
          · exact h
        subst hn
        exact returns_values B P0 budget recurse el attr data _ hg1 he1
          (safeValues_of_noInjection s1.nodes el attr hg1.1.2 hattr)

theorem marker_isSome (nodes : List Node) (id : Nat) (n : Node)
    (hn : nodeAt nodes id = some n) :
    (getAttribute nodes id processedMarker).isSome = hasMarker n := by
  unfold getAttribute hasMarker
  rw [hn]
  simp

theorem marker_ext {a b : List Node} (h : Ext a b) (id : Nat)
    (hm : (getAttribute a id processedMarker).isSome = true) :
    (getAttribute b id processedMarker).isSome = true := by
  cases hn : nodeAt a id with
  | none =>
    unfold getAttribute at hm
    rw [hn] at hm
    cases hm
  | some n =>
    obtain ⟨n', hn', e⟩ := h.2 id n hn
    rw [marker_isSome _ _ _ hn] at hm
    rw [marker_isSome _ _ _ hn']
    exact e.2.2 hm

/-- Nodes that a finished call has marked stay marked, and no unmarked node
joins them. -/
theorem marked_ext {a b : List Node} (h : Ext a b) (hv : ChildrenValid a) (r : Nat)
    (hr : r < a.length) (hm : Marked a r) : Marked b r := by
  have hsome : ∃ n, nodeAt a r = some n := by
    unfold nodeAt
    exact ⟨a.get ⟨r, hr⟩, List.get?_eq_get hr⟩
  obtain ⟨n, hn⟩ := hsome
  obtain ⟨n', hn', e⟩ := h.2 r n hn
  intro id hid
  by_cases hk : n.kind = .element
  · have ha : isElement a r = true := by
      unfold isElement
      rw [hn]
      simp [hk]
    have hb : isElement b r = true := isElement_ext h ha
    unfold processedNodes at hid
    rw [if_pos hb] at hid
    simp only [List.mem_singleton] at hid
    subst hid
    exact marker_ext h id (hm id (by unfold processedNodes; rw [if_pos ha]; simp))
  · have ha : isElement a r = false := by
      unfold isElement
      rw [hn]
      simpa using hk
    have hb : isElement b r = false := by
      unfold isElement
      rw [hn']
      simp only
      rw [e.1]
      simpa using hk
    unfold processedNodes at hid
    rw [hb] at hid
    simp only [Bool.false_eq_true, if_false, elementChildren, childNodes, hn',
      List.mem_filter] at hid
    rw [e.2.1 hk] at hid
    have hlt : id < a.length := hv r n hn id hid.1
    have hida : isElement a id = true := by
      unfold isElement at hid ⊢
      cases hm1 : nodeAt a id with
      | none =>
        unfold nodeAt at hm1
        rw [List.get?_eq_get hlt] at hm1
        cases hm1
      | some m =>
        obtain ⟨m', hm', em⟩ := h.2 id m hm1
        have := hid.2
        rw [hm'] at this
        simp only at this ⊢
        rw [← em.1]
        exact this
    refine marker_ext h id (hm id ?_)
    unfold processedNodes
    rw [ha]
    simp only [Bool.false_eq_true, if_false, elementChildren, childNodes, hn, List.mem_filter]
    exact ⟨hid.1, hida⟩

theorem walked_refl {P0 : List Nat} {s : State} (hg : Good P0 s.nodes) : Walked P0 s s :=
  ⟨ext_refl _, hg, fun _ h => h, fun _ h1 h2 => absurd h1 h2⟩

theorem walked_of_step {P0 : List Nat} {s s' : State} (h : Step P0 s s') : Walked P0 s s' :=
  ⟨h.1, h.2.1, by rw [h.2.2]; exact fun _ h => h,
    fun r h1 h2 => absurd (by rw [← h.2.2]; exact h1) h2⟩

theorem walked_trans {P0 : List Nat} {s s1 s2 : State} (hg1 : Good P0 s1.nodes)
    (h1 : Walked P0 s s1) (h2 : Walked P0 s1 s2) : Walked P0 s s2 := by
  refine ⟨ext_trans h1.1 h2.1, h2.2.1, fun r hr => h2.2.2.1 (h1.2.2.1 hr), ?_⟩
  intro r hr hnot
  by_cases h : r ∈ s1.visited
  · obtain ⟨hlt, hm⟩ := h1.2.2.2 r h hnot
    exact ⟨Nat.lt_of_lt_of_le hlt h2.1.1, marked_ext h2.1 hg1.2.1 r hlt hm⟩
  · exact h2.2.2.2 r hr h

/-- The body of a marking call on a good heap, given that the calls it makes
mark what they add to `visited`: it does so too, and it marks its root. -/
theorem returns_processRoot (B : Builtins) (data : LoadTimeData) (P0 : List Nat) (fuel : Nat)
    (ih : ∀ (root : Nat) (s : State), Good P0 s.nodes → root < s.nodes.length →
      (processWithoutCycles B data fuel root true s).Returns (Walked P0 s))
    (root : Nat) (s0 : State) (hg0 : Good P0 s0.nodes) :
    (processRoot B data fuel (processWithoutCycles B data fuel) root true s0).Returns
      (fun s' => Walked P0 s0 s' ∧ Marked s'.nodes root) := by
  have hrec : ∀ (get : Node → Option Nat) (_ : ∀ nodes : List Node, ∀ n ∈ nodes,
      ∀ d, get n = some d → d ∈ potentialRoots nodes) (x : Nat) (s1 : State),
      Walked P0 s0 s1 →
      (match (nodeAt s1.nodes x).bind get with
        | none => Result.done s1
        | some d => processWithoutCycles B data fuel d true s1).Returns (Walked P0 s0) := by
    intro get hget x s1 h1
    split
    · exact h1
    · next d hd =>
      obtain ⟨n, hn, hi⟩ := Option.bind_eq_some.1 hd
      have hmem : d ∈ potentialRoots s1.nodes := hget _ n (List.get?_mem hn) d hi
      rw [h1.2.1.1.1] at hmem
      exact returns_imp (ih d s1 h1.2.1 (h1.2.1.2.2 d hmem))
        (fun s2 h2 => walked_trans h1.2.1 h1 h2)
  unfold processRoot
  refine returns_andThen (P := Walked P0 s0)
    (returns_forEach _ _ (fun x _ s1 h1 => hrec (·.imported)
      (fun nodes n hn d hd => List.mem_append_left _ (List.mem_filterMap.2 ⟨n, hn, hd⟩))
      x s1 h1) _ (walked_refl hg0)) (fun s1 h1 => ?_)
  refine returns_andThen (P := Walked P0 s0)
    (returns_forEach _ _ (fun x _ s2 h2 => hrec (·.content)
      (fun nodes n hn d hd => List.mem_append_right _ (List.mem_filterMap.2 ⟨n, hn, hd⟩))
      x s2 h2) _ h1) (fun s2 h2 => ?_)
  refine returns_andThen (P := Walked P0 s0) ?_ (fun s3 h3 => ?_)
  · split
    · next hc =>
      simp only [Bool.and_eq_true] at hc
      exact returns_imp (returns_processElement B P0 fuel _ data root s2 h2.2.1 hc.1)
        (fun s3 h3 => walked_trans h2.2.1 h2 (walked_of_step h3))
    · exact h2
  refine returns_andThen (P := Walked P0 s0)
    (returns_imp (returns_forEach (I := fun s4 => Walked P0 s0 s4 ∧ Ext s3.nodes s4.nodes)
      _ _ (fun el hel s4 h4 => ?_) s3 ⟨h3, ext_refl _⟩) (fun _ h => h.1)) (fun s4 h4 => ?_)
  · have he3 : isElement s3.nodes el = true := by
      have := (List.mem_filter.1 hel).2
      unfold matchesSelector at this
      simp only [Bool.and_eq_true] at this
      exact this.1
    exact returns_imp
      (returns_processElement B P0 fuel _ data el s4 h4.1.2.1 (isElement_ext h4.2 he3))
      (fun s5 h5 => ⟨walked_trans h4.1.2.1 h4.1 (walked_of_step h5), ext_trans h4.2 h5.1⟩)
  · simp only [if_true]
    obtain ⟨e5, g5⟩ := op_markProcessed P0 (processedNodes s4.nodes root) s4.nodes h4.2.1
    refine ⟨walked_trans h4.2.1 h4 (walked_of_step ⟨e5, g5, rfl⟩), ?_⟩
    intro id hid
    simp only at hid ⊢
    rw [processedNodes_markProcessed] at hid
    rw [marker_set _ _ _ hid (isElement_of_mem_processedNodes _ _ _ hid)]
    rfl

/-- On a good heap, a call of `processWithoutCycles` with `mark` set that
returns has marked every root it has added to `visited`. -/
theorem returns_walked (B : Builtins) (data : LoadTimeData) (P0 : List Nat) :
    ∀ (fuel root : Nat) (s : State), Good P0 s.nodes → root < s.nodes.length →
      (processWithoutCycles B data fuel root true s).Returns (Walked P0 s) := by
  intro fuel
  induction fuel with
  | zero => intro root s _ _; trivial
  | succ fuel ih =>
    intro root s hg hroot
    unfold processWithoutCycles
    split
    · exact walked_refl hg
    · next hnew =>
      refine returns_imp (returns_processRoot B data P0 fuel ih root _ hg) ?_
      intro s' h
      obtain ⟨h5, hm⟩ := h
      refine ⟨h5.1, h5.2.1, fun r hr => h5.2.2.1 (List.mem_append_left _ hr), ?_⟩
      intro r hr hnot
      by_cases hr0 : r ∈ s.visited ++ [root]
      · rcases List.mem_append.1 hr0 with h | h
        · exact absurd h hnot
        · simp only [List.mem_singleton] at h
          subst h
          exact ⟨Nat.lt_of_lt_of_le hroot h5.1.1, hm⟩
      · exact h5.2.2.2 r hr hr0

theorem good_of_wellFormed (nodes : List Node) (hi : noInjection nodes = true)
    (hw : wellFormed nodes = true) : Good (potentialRoots nodes) nodes := by
  unfold wellFormed at hw
  simp only [List.all_eq_true, Bool.and_eq_true, decide_eq_true_eq] at hw
  refine ⟨⟨rfl, hi⟩, ?_, ?_⟩
  · intro j n hn c hc
    exact (hw n (List.get?_mem hn)).1.1 c hc
  · intro r hr
    unfold potentialRoots at hr
    rcases List.mem_append.1 hr with h | h
    · obtain ⟨n, hn, hd⟩ := List.mem_filterMap.1 h
      have := (hw n hn).1.2
      rw [hd] at this
      simpa using this
    · obtain ⟨n, hn, hd⟩ := List.mem_filterMap.1 h
      have := (hw n hn).2
      rw [hd] at this
      simpa using this

/-- Without injection, every root that `process` has walked is marked when
`process` returns. -/
theorem process_marks_walked (B : Builtins) (data : LoadTimeData) (fuel root : Nat)
    (s s' : State) (hi : noInjection s.nodes = true) (hw : wellFormed s.nodes = true)
    (hroot : root < s.nodes.length) (hrun : process B data fuel root s = .done s') :
    ∀ r, r ∈ s'.visited ∨ r ∈ rootsOf s'.trace → Marked s'.nodes r := by
  have h1 := returns_walked B data (potentialRoots s.nodes) fuel root
    { s with visited := [], trace := [] } (good_of_wellFormed s.nodes hi hw) hroot
  have h2 := sat_noRootTwice B data fuel root true { s with visited := [], trace := [] }
    ⟨List.nodup_nil, fun r hr => by cases hr⟩
  unfold process at hrun
  rw [hrun] at h1 h2
  intro r hr
  have hv : r ∈ s'.visited := by
    rcases hr with hr | hr
    · exact hr
    · exact h2.2 r hr
  exact (h1.2.2.2 r hv (by simp)).2

/-- C18, the claim as it stands fails for imports and templates. After
`process` on document 0 of two documents that import each other, the elements
3 and 4 at the top of the imported document 2 carry the marker; after
`process` on a document with a template, the `span` at the top of the content
of the template carries the marker. -/
theorem marker_inside_import_and_template :
    (match process plainHost optionStore 3 0 { nodes := mutualImports } with
      | .done s => [(nodeAt s.nodes 1).bind (·.imported) == some 2,
          childNodes s.nodes 2 == [3, 4],
          getAttribute s.nodes 3 processedMarker == some [],
          getAttribute s.nodes 4 processedMarker == some []]
      | _ => []) = [true, true, true, true] ∧
    (match process plainHost titleStore 3 0 { nodes := templatePage } with
      | .done s => [(nodeAt s.nodes 1).bind (·.content) == some 2,
          childNodes s.nodes 2 == [3],
          getAttribute s.nodes 3 processedMarker == some []]
      | _ => []) = [true, true, true] := by
  decide

/-- C18, amended: a call of `processWithoutCycles` with `mark` set that
passes the cycle guard and returns has left the marker, with the empty string
as its value, on its root when the root is an element and on the child
elements of the root otherwise; `process` is such a call. The calls for
imported documents and template contents get the `mark` of the caller: when
`process` returns on a heap whose references are valid and where no values
pair injects markup, every root it has walked, imported documents and template
contents included, has the marker on itself when it is an element and on its
child elements otherwise. Only the calls for the children of an element after
an `innerHTML` assignment get `false`: a call without `mark` on the document
with a template leaves no marker on the template or in its content, and
`process` on a document whose `div` injects a `span` leaves the marker on the
`div` and none on the `span`, which the handlers have run on. -/
theorem marking_call_marks_root (B : Builtins) (data : LoadTimeData) (fuel root : Nat) :
    (∀ s s', process B data fuel root s = .done s' →
      ∀ id ∈ processedNodes s'.nodes root, getAttribute s'.nodes id processedMarker = some []) ∧
    (∀ s s', root ∉ s.visited → processWithoutCycles B data fuel root true s = .done s' →
      ∀ id ∈ processedNodes s'.nodes root, getAttribute s'.nodes id processedMarker = some []) ∧
    (∀ s s', noInjection s.nodes = true → wellFormed s.nodes = true → root < s.nodes.length →
      process B data fuel root s = .done s' →
      ∀ r, r ∈ s'.visited ∨ r ∈ rootsOf s'.trace →
        ∀ id ∈ processedNodes s'.nodes r,
          (getAttribute s'.nodes id processedMarker).isSome = true) ∧
    (match processWithoutCycles plainHost titleStore 3 0 false { nodes := templatePage } with
      | .done s => [s.visited == [0, 2], textContent s.nodes 3 == utf16 "T",
          getAttribute s.nodes 1 processedMarker == none,
          getAttribute s.nodes 3 processedMarker == none]
      | _ => []) = [true, true, true, true] ∧
    (match process spanHost spanStore 4 0 { nodes := injectingPage } with
      | .done s => [childNodes s.nodes 0 == [1], childNodes s.nodes 1 == [2],
          getAttribute s.nodes 1 processedMarker == some [],
          getAttribute s.nodes 2 processedMarker == none,
          textContent s.nodes 2 == utf16 "T"]
      | _ => []) = [true, true, true, true, true] := by
  have key : ∀ s s', root ∉ s.visited → processWithoutCycles B data fuel root true s = .done s' →
      ∀ id ∈ processedNodes s'.nodes root,
        getAttribute s'.nodes id processedMarker = some [] := by
    intro s s' hroot hrun
    cases fuel with
    | zero => cases hrun
    | succ fuel =>
      unfold processWithoutCycles at hrun
      rw [if_neg hroot] at hrun
      exact processRoot_marks B data fuel _ root _ s' hrun
  refine ⟨?_, key, ?_, by decide, by decide⟩
  · intro s s' hrun
    exact key { s with visited := [], trace := [] } s' (by simp) hrun
  · intro s s' hi hw hroot hrun r hr
    exact process_marks_walked B data fuel root s s' hi hw hroot hrun r hr

/-- An instance of C18: `process` on the document with a template; the `span`
at the top of the content of the template, root 2, is marked. -/
theorem marking_call_marks_root_witness :
    (getAttribute
      (markProcessed [1] (markProcessed [3]
        (setTextContent plainHost 3 (.string (utf16 "T")) templatePage)))
      3 processedMarker).isSome = true :=
  (marking_call_marks_root plainHost titleStore 3 0).2.2.1
    { nodes := templatePage }
    { nodes := markProcessed [1] (markProcessed [3]
        (setTextContent plainHost 3 (.string (utf16 "T")) templatePage)),
      visited := [0, 2],
      trace := [.root 0, .root 2, .handler (utf16 "i18n-content") 3] }
    (by decide) (by decide) (by decide) (by decide) 2 (Or.inl (by decide)) 3 (by decide)

/-! ## Theorems: decodeUTF16Base64ToString -/

theorem decodeUnits_pair (b0 b1 : Nat) (rest : JSString) :
    decodeUnits (b0 :: b1 :: rest) = ((b0 * 256 + b1) % 65536) :: decodeUnits rest := rfl

/-- The loop on an even number of bytes. -/
theorem decodeUnits_even :
    ∀ (n : Nat) (data : JSString), data.length = 2 * n → (∀ b ∈ data, b < 256) →
      (decodeUnits data).length = n ∧
        ∀ i, i < n → (decodeUnits data).getD i 0 =
          256 * data.getD (2 * i) 0 + data.getD (2 * i + 1) 0 := by
  intro n
  induction n with
  | zero =>
    intro data hlen _
    have : data = [] := List.length_eq_zero.1 (by omega)
    subst this
    exact ⟨rfl, fun i hi => absurd hi (Nat.not_lt_zero i)⟩
  | succ n ih =>
    intro data hlen hb
    match data, hlen, hb with
    | b0 :: b1 :: rest, hlen, hb =>
      have h0 : b0 < 256 := hb b0 (by simp)
      have h1 : b1 < 256 := hb b1 (by simp)
      obtain ⟨hl, hi⟩ := ih rest (by simp at hlen; omega)
        (fun b hmem => hb b (by simp [hmem]))
      rw [decodeUnits_pair]
      refine ⟨by simp [hl], ?_⟩
      intro i hlt
      cases i with
      | zero =>
        simp only [List.getD_cons_zero, Nat.mul_zero, Nat.zero_add, List.getD_cons_succ]
        omega
      | succ i =>
        have := hi i (by omega)
        have e1 : 2 * (i + 1) = (2 * i) + 1 + 1 := by omega
        rw [e1]
        simp only [List.getD_cons_succ]
        exact this

theorem decodeUnits_bigEndianBytes :
    ∀ s : JSString, (∀ u ∈ s, u < 65536) → decodeUnits (bigEndianBytes s) = s := by
  intro s
  induction s with
  | nil => intro _; rfl
  | cons u rest ih =>
    intro h
    have hu : u < 65536 := h u (by simp)
    have : bigEndianBytes (u :: rest) = u / 256 :: u % 256 :: bigEndianBytes rest := by
      simp [bigEndianBytes]
    rw [this, decodeUnits_pair, ih (fun v hv => h v (by simp [hv]))]
    congr 1
    omega

/-- C19: `decodeUTF16Base64ToString` reads the bytes that `atob` returns as
big-endian UTF-16. When `atob` returns `2 * n` bytes, the function returns a
string of `n` code units whose unit `i` is 256 times byte `2 * i` plus byte
`2 * i + 1`; so when `atob` returns the big-endian encoding of a string of
16-bit code units, the function returns that string. -/
theorem decode_big_endian (atob : JSString → Completion JSString) (encoded_text : JSString) :
    (∀ (n : Nat) (data : JSString), atob encoded_text = .normal data →
      data.length = 2 * n → (∀ b ∈ data, b < 256) →
      ∃ result, decodeUTF16Base64ToString atob encoded_text = .normal result ∧
        result.length = n ∧
        ∀ i, i < n → result.getD i 0 = 256 * data.getD (2 * i) 0 + data.getD (2 * i + 1) 0) ∧
    (∀ s : JSString, (∀ u ∈ s, u < 65536) → atob encoded_text = .normal (bigEndianBytes s) →
      decodeUTF16Base64ToString atob encoded_text = .normal s) := by
  refine ⟨?_, ?_⟩
  · intro n data hd hlen hb
    refine ⟨decodeUnits data, by simp [decodeUTF16Base64ToString, hd], ?_⟩
    exact decodeUnits_even n data hlen hb
  · intro s hs hd
    simp [decodeUTF16Base64ToString, hd, decodeUnits_bigEndianBytes s hs]

/-- An instance of C19: the bytes 0, 72, 0, 105 are the string `Hi`. -/
theorem decode_big_endian_witness :
    decodeUTF16Base64ToString atobSample (utf16 "AEgAaQ==") = .normal (utf16 "Hi") :=
  (decode_big_endian atobSample (utf16 "AEgAaQ==")).2 (utf16 "Hi") (by decide) (by decide)

end Offline
